import Mathlib

/-!
# HNSW commit logger: directory enumeration, rotation and maintenance

Shallow embedding of `adapters/repos/db/vector/hnsw/commit_logger.go`.

* A file is represented by its base name (`fs.FileInfo.Name()`), an `error` by its message.
* The commit-log directory is an explicit state (`FileSystem`) threaded through every
  operation that touches the disk.
* Library routines the source calls (`strings.HasSuffix`, `strings.TrimSuffix`,
  `strconv.ParseInt`, `sort.Slice`, `fmt.Sprintf("%d", _)`) are embedded as executable
  definitions following the Go standard library.
-/

namespace CommitLogger

/-! ## Errors -/

/-- A Go `error` value, represented by its message. `Option Error` is a possibly-nil error. -/
abbrev Error := String

/-- The call `errors.Wrap(err, msg)`. -/
def wrap (err : Error) (msg : String) : Error := msg ++ ": " ++ err

/-- Modelled from the spec: the error compounder type is declared in a file of the package that
is not part of the sources at hand. As used by the enumeration it accumulates the errors handed
to `add` and `toError` is nil exactly when nothing was added. -/
structure ErrorCompounder where
  errors : List Error
deriving DecidableEq, Repr

/-- The call `ec.add(err)` guarded by `if err != nil`. -/
def ErrorCompounder.add (ec : ErrorCompounder) : Option Error → ErrorCompounder
  | none => ec
  | some e => ⟨ec.errors ++ [e]⟩

/-- The call `ec.toError()`. -/
def ErrorCompounder.toError (ec : ErrorCompounder) : Option Error :=
  match ec.errors with
  | [] => none
  | e :: es => some (es.foldl (fun acc x => acc ++ ", " ++ x) e)

/-! ## Strings and paths -/

/-- The Go function `strings.HasSuffix`. -/
def hasSuffix (s suffix : String) : Bool := suffix.data.isSuffixOf s.data

/-- The Go function `strings.TrimSuffix`: removes one trailing occurrence of `suffix`. -/
def trimSuffix (s suffix : String) : String :=
  if hasSuffix s suffix then ⟨s.data.take (s.data.length - suffix.data.length)⟩ else s

/-- Source function `commitLogDirectory`. -/
def commitLogDirectory (rootPath name : String) : String :=
  rootPath ++ "/" ++ name ++ ".hnsw.commitlog.d"

/-- Source function `commitLogFileName`. -/
def commitLogFileName (rootPath indexName fileName : String) : String :=
  commitLogDirectory rootPath indexName ++ "/" ++ fileName

/-! ## `strconv.ParseInt(_, 10, 64)` -/

/-- Largest `uint64`. -/
def maxUint64 : Nat := 2 ^ 64 - 1

/-- The constant `cutoff` of `ParseUint` for base 10: the least `n` with `n * 10 > maxUint64`. -/
def cutoff10 : Nat := maxUint64 / 10 + 1

/-- The two kinds of `*strconv.NumError`. -/
inductive NumErr
  | badSyntax
  | outOfRange
deriving DecidableEq, Repr

/-- Digit loop of `strconv.ParseUint(s, 10, 64)`; `n` is the `uint64` accumulated so far.
A byte that is not a decimal digit (a letter has digit value at least 10, which is not below
the base) is a syntax error; overflow of `n * 10` or of `n * 10 + d` is a range error. -/
def parseUintLoop : List Char → Nat → Nat × Option NumErr
  | [], n => (n, none)
  | c :: cs, n =>
    if '0' ≤ c ∧ c ≤ '9' then
      if cutoff10 ≤ n then (maxUint64, some NumErr.outOfRange)
      else
        let n10 := (n * 10) % 2 ^ 64
        let n1 := (n10 + (c.toNat - '0'.toNat)) % 2 ^ 64
        if n1 < n10 ∨ maxUint64 < n1 then (maxUint64, some NumErr.outOfRange)
        else parseUintLoop cs n1
    else (0, some NumErr.badSyntax)

/-- The Go function `strconv.ParseUint(s, 10, 64)` on the bytes of `s`. -/
def parseUint (s : List Char) : Nat × Option NumErr :=
  match s with
  | [] => (0, some NumErr.badSyntax)
  | _ => parseUintLoop s 0

/-- Message of a `*strconv.NumError` raised by `ParseInt` on input `s`. -/
def numError (s : String) : NumErr → Error
  | NumErr.badSyntax => "strconv.ParseInt: parsing " ++ s ++ ": invalid syntax"
  | NumErr.outOfRange => "strconv.ParseInt: parsing " ++ s ++ ": value out of range"

/-- The Go function `strconv.ParseInt(s, 10, 64)`: the value (0 on a syntax error, the nearest
`int64` on a range error) together with the error. -/
def parseInt (s : String) : Int × Option Error :=
  match s.data with
  | [] => (0, some (numError s NumErr.badSyntax))
  | c :: cs =>
    let neg : Bool := c == '-'
    let rest : List Char := if c == '+' || c == '-' then cs else c :: cs
    match parseUint rest with
    | (_, some NumErr.badSyntax) => (0, some (numError s NumErr.badSyntax))
    | (un, _) =>
      if !neg && decide (2 ^ 63 ≤ un) then ((2 : Int) ^ 63 - 1, some (numError s NumErr.outOfRange))
      else if neg && decide (2 ^ 63 < un) then (-(2 : Int) ^ 63, some (numError s NumErr.outOfRange))
      else (if neg then -(un : Int) else (un : Int), none)

/-- Source function `asTimeStamp`. -/
def asTimeStamp (name : String) : Int × Option Error :=
  parseInt (trimSuffix name ".condensed")

/-! ## The commit-log directory -/

/-- The commit-log directory of one index.

* `entries`: base names of the files in the directory, in the order `ioutil.ReadDir` lists
  them. `ioutil.ReadDir` sorts by file name; where a statement depends on that order it says
  so as a hypothesis on `entries`;
* `unremovable`: names on which `os.Remove` fails;
* `mkdirAllErr`, `readDirErr`: outcome of `os.MkdirAll` and of `ioutil.ReadDir`. -/
structure FileSystem where
  entries : List String
  unremovable : List String
  mkdirAllErr : Option Error
  readDirErr : Option Error
deriving DecidableEq, Repr

/-- The call `os.Remove(filepath.Join(dirPath, name))`. -/
def osRemove (fs : FileSystem) (name : String) : FileSystem × Option Error :=
  if name ∈ fs.unremovable then (fs, some ("remove " ++ name ++ ": operation not permitted"))
  else ({ fs with entries := fs.entries.filter (fun e => e != name) }, none)

/-- Source function `removeTmpScratchFiles`: drops the entries ending in `.scratch.tmp` from
the slice; the disk is not touched. -/
def removeTmpScratchFiles : List String → List String
  | [] => []
  | info :: rest =>
    if hasSuffix info ".scratch.tmp" then removeTmpScratchFiles rest
    else info :: removeTmpScratchFiles rest

/-- Source function `removeTmpCombiningFiles`: unlinks every entry ending in `.combined.tmp`
and drops it from the slice; stops at the first failing unlink. On the error path the source
returns a slice that its callers never read; the embedding returns the entries kept so far. -/
def removeTmpCombiningFiles (fs : FileSystem) :
    List String → FileSystem × List String × Option Error
  | [] => (fs, [], none)
  | info :: rest =>
    if hasSuffix info ".combined.tmp" then
      match osRemove fs info with
      | (fs1, some err) => (fs1, [], some (wrap err "remove tmp combining file"))
      | (fs1, none) => removeTmpCombiningFiles fs1 rest
    else
      let r := removeTmpCombiningFiles fs rest
      (r.1, info :: r.2.1, r.2.2)

/-! ## `sort.Slice` -/

/-!
The Go function `sort.Slice(data, less)` is embedded as the library runs it from Go 1.19 on
(`sort/zsortfunc.go`): `pdqsort_func(lessSwap, 0, length, bits.Len(length))`, a
pattern-defeating quicksort that sorts ranges of at most twelve elements by insertion and
falls back to heap sort after too many unbalanced partitions. The slice is threaded through
the routines together with the sequence of comparator calls `less(a, b)` (as pairs of
elements), which is what a comparator with side effects observes. Every index the library
passes to `Less` and `Swap` lies within the slice; on an index outside it the embedding
leaves the state as it is. A loop of the library is a recursive function whose first argument
bounds the number of rounds; every caller passes a bound the loop cannot exceed, and
`pdqsort_spec` below shows that with these bounds the slice comes out sorted.
-/

/-- Inner loop of Go's `insertionSort_func`,
`for j := i; j > a && less(j, j-1); j-- { swap(j, j-1) }`.
`x` is the element at index `j`; the list is the part of the slice to its left, nearest
neighbour first. Returns that part with `x` inserted (same orientation) and the calls
`less(x, y)` that were made, in order. -/
def sink {α : Type} (less : α → α → Bool) (x : α) : List α → List α × List (α × α)
  | [] => ([x], [])
  | y :: ys =>
    if less x y then (y :: (sink less x ys).1, (x, y) :: (sink less x ys).2)
    else (x :: y :: ys, [(x, y)])

/-- Outer loop of `insertionSort_func`: `acc` is the sorted prefix (reversed), `calls` the
comparator calls made so far. -/
def insertionSort {α : Type} (less : α → α → Bool) :
    List α → List α → List (α × α) → List α × List (α × α)
  | [], acc, calls => (acc.reverse, calls)
  | x :: xs, acc, calls =>
    insertionSort less xs (sink less x acc).1 (calls ++ (sink less x acc).2)

/-- State of a run of `sort.Slice`: the slice, and the comparator calls made so far (as pairs
of elements, in order). -/
abbrev SortState (α : Type) := List α × List (α × α)

/-- The call `data.Less(i, j)`: the comparator applied to the elements at `i` and `j`. -/
def lessAt {α : Type} (less : α → α → Bool) (s : SortState α) (i j : Nat) : Bool × SortState α :=
  match s.1[i]?, s.1[j]? with
  | some x, some y => (less x y, (s.1, s.2 ++ [(x, y)]))
  | _, _ => (false, s)

/-- The call `data.Swap(i, j)`. -/
def swapAt {α : Type} (s : SortState α) (i j : Nat) : SortState α :=
  match s.1[i]?, s.1[j]? with
  | some x, some y => ((s.1.set i y).set j x, s.2)
  | _, _ => s

/-- Go's `insertionSort_func(data, a, b)`: the insertion sort `insertionSort` run on
`data[a:b]`, the rest of the slice staying in place. -/
def insertionSortRange {α : Type} (less : α → α → Bool) (s : SortState α) (a b : Nat) :
    SortState α :=
  if a ≤ b ∧ b ≤ s.1.length then
    (s.1.take a ++ (insertionSort less ((s.1.drop a).take (b - a)) [] s.2).1 ++ s.1.drop b,
      (insertionSort less ((s.1.drop a).take (b - a)) [] s.2).2)
  else s

/-- Go's `siftDown_func(data, lo, hi, first)`; `root` starts at `lo`. Every round moves `root`
to one of its children, so `hi` rounds are enough. -/
def siftDown {α : Type} (less : α → α → Bool) (hi first : Nat) :
    Nat → SortState α → Nat → SortState α
  | 0, s, _ => s
  | n + 1, s, root =>
    if 2 * root + 1 ≥ hi then s
    else
      let r1 := if 2 * root + 2 < hi then
          lessAt less s (first + (2 * root + 1)) (first + (2 * root + 2))
        else (false, s)
      let child := if r1.1 then 2 * root + 2 else 2 * root + 1
      let r2 := lessAt less r1.2 (first + root) (first + child)
      if r2.1 then siftDown less hi first n (swapAt r2.2 (first + root) (first + child)) child
      else r2.2

/-- First loop of `heapSort_func`: `for i := (hi - 1) / 2; i >= 0; i--`, with `k` rounds to
go. -/
def heapBuild {α : Type} (less : α → α → Bool) (hi first : Nat) :
    Nat → SortState α → SortState α
  | 0, s => s
  | k + 1, s => heapBuild less hi first k (siftDown less hi first hi s k)

/-- Second loop of `heapSort_func`: `for i := hi - 1; i >= 0; i--`, with `k` rounds to go. -/
def heapPop {α : Type} (less : α → α → Bool) (first : Nat) :
    Nat → SortState α → SortState α
  | 0, s => s
  | k + 1, s => heapPop less first k (siftDown less k first k (swapAt s first (first + k)) 0)

/-- Go's `heapSort_func(data, a, b)`. -/
def heapSort {α : Type} (less : α → α → Bool) (s : SortState α) (a b : Nat) : SortState α :=
  heapPop less a (b - a) (heapBuild less (b - a) a ((b - a - 1) / 2 + 1) s)

/-- The `sortedHint` of `choosePivot_func`. -/
inductive SortedHint
  | unknownHint
  | increasingHint
  | decreasingHint
deriving DecidableEq, Repr

/-- Go's `order2_func(data, a, b, &swaps)`: the pair of indices, the counter, the state. -/
def order2 {α : Type} (less : α → α → Bool) (s : SortState α) (a b swaps : Nat) :
    Nat × Nat × Nat × SortState α :=
  if (lessAt less s b a).1 then (b, a, swaps + 1, (lessAt less s b a).2)
  else (a, b, swaps, (lessAt less s b a).2)

/-- Go's `median_func(data, a, b, c, &swaps)`: the index, the counter, the state. -/
def median {α : Type} (less : α → α → Bool) (s : SortState α) (a b c swaps : Nat) :
    Nat × Nat × SortState α :=
  match order2 less s a b swaps with
  | (a1, b1, sw1, s1) =>
    match order2 less s1 b1 c sw1 with
    | (b2, _, sw2, s2) =>
      match order2 less s2 a1 b2 sw2 with
      | (_, b3, sw3, s3) => (b3, sw3, s3)

/-- Go's `medianAdjacent_func(data, a, &swaps)`. -/
def medianAdjacent {α : Type} (less : α → α → Bool) (s : SortState α) (a swaps : Nat) :
    Nat × Nat × SortState α :=
  median less s (a - 1) a (a + 1) swaps

/-- Go's `choosePivot_func(data, a, b)`: the pivot index, the hint, the state. -/
def choosePivot {α : Type} (less : α → α → Bool) (s : SortState α) (a b : Nat) :
    Nat × SortedHint × SortState α :=
  let l := b - a
  let i := a + l / 4 * 1
  let j := a + l / 4 * 2
  let k := a + l / 4 * 3
  let r : Nat × Nat × SortState α :=
    if l ≥ 8 then
      if l ≥ 50 then
        match medianAdjacent less s i 0 with
        | (i1, sw1, s1) =>
          match medianAdjacent less s1 j sw1 with
          | (j1, sw2, s2) =>
            match medianAdjacent less s2 k sw2 with
            | (k1, sw3, s3) => median less s3 i1 j1 k1 sw3
      else median less s i j k 0
    else (j, 0, s)
  (r.1, (if r.2.1 = 0 then SortedHint.increasingHint
    else if r.2.1 = 12 then SortedHint.decreasingHint else SortedHint.unknownHint), r.2.2)

/-- The loop `for i < j { data.Swap(i, j); i++; j-- }` of `reverseRange_func`. -/
def reverseLoop {α : Type} : Nat → SortState α → Nat → Nat → SortState α
  | 0, s, _, _ => s
  | n + 1, s, i, j => if i < j then reverseLoop n (swapAt s i j) (i + 1) (j - 1) else s

/-- Go's `reverseRange_func(data, a, b)`. -/
def reverseRange {α : Type} (s : SortState α) (a b : Nat) : SortState α :=
  reverseLoop (b - a) s a (b - 1)

/-- Loop `for i < b && !data.Less(i, i-1) { i++ }` of `partialInsertionSort_func`. -/
def scanOrdered {α : Type} (less : α → α → Bool) (b : Nat) :
    Nat → SortState α → Nat → Nat × SortState α
  | 0, s, i => (i, s)
  | n + 1, s, i =>
    if i < b then
      if (lessAt less s i (i - 1)).1 then (i, (lessAt less s i (i - 1)).2)
      else scanOrdered less b n (lessAt less s i (i - 1)).2 (i + 1)
    else (i, s)

/-- Loop `for j := i - 1; j >= 1; j-- { if !data.Less(j, j-1) { break }; data.Swap(j, j-1) }`
of `partialInsertionSort_func`; the argument is `j`. -/
def shiftLeft {α : Type} (less : α → α → Bool) : Nat → SortState α → SortState α
  | 0, s => s
  | j + 1, s =>
    if (lessAt less s (j + 1) j).1 then
      shiftLeft less j (swapAt (lessAt less s (j + 1) j).2 (j + 1) j)
    else (lessAt less s (j + 1) j).2

/-- Loop `for j := i + 1; j < b; j++ { if !data.Less(j, j-1) { break }; data.Swap(j, j-1) }`
of `partialInsertionSort_func`. -/
def shiftRight {α : Type} (less : α → α → Bool) (b : Nat) :
    Nat → SortState α → Nat → SortState α
  | 0, s, _ => s
  | n + 1, s, j =>
    if j < b then
      if (lessAt less s j (j - 1)).1 then
        shiftRight less b n (swapAt (lessAt less s j (j - 1)).2 j (j - 1)) (j + 1)
      else (lessAt less s j (j - 1)).2
    else s

/-- Loop `for j := 0; j < maxSteps; j++` of `partialInsertionSort_func`, with `k` rounds to
go. -/
def partialInsertionSortSteps {α : Type} (less : α → α → Bool) (a b : Nat) :
    Nat → SortState α → Nat → Bool × SortState α
  | 0, s, _ => (false, s)
  | k + 1, s, i =>
    match scanOrdered less b (b - i) s i with
    | (i1, s1) =>
      if i1 = b then (true, s1)
      else if b - a < 50 then (false, s1)
      else
        let s2 := swapAt s1 i1 (i1 - 1)
        let s3 := if i1 - a ≥ 2 then shiftLeft less (i1 - 1) s2 else s2
        let s4 := if b - i1 ≥ 2 then shiftRight less b (b - i1) s3 (i1 + 1) else s3
        partialInsertionSortSteps less a b k s4 i1

/-- Go's `partialInsertionSort_func(data, a, b)`. -/
def partialInsertionSort {α : Type} (less : α → α → Bool) (s : SortState α) (a b : Nat) :
    Bool × SortState α :=
  partialInsertionSortSteps less a b 5 s (a + 1)

/-- Go's `bits.Len(uint(n))`. -/
def bitsLen (n : Nat) : Nat := if n = 0 then 0 else Nat.log2 n + 1

/-- Go's `(*xorshift).Next` on a `uint64`, with the shift constants 13, 7, 17 of the 64-bit
xorshift generator. No statement below depends on the numbers drawn. -/
def xorshiftNext (r : Nat) : Nat :=
  let r1 := r ^^^ ((r <<< 13) % 2 ^ 64)
  let r2 := r1 ^^^ (r1 >>> 7)
  r2 ^^^ ((r2 <<< 17) % 2 ^ 64)

/-- The index `other` of `breakPatterns_func` for the random number `r`. -/
def breakIndex (length r : Nat) : Nat :=
  if r % 2 ^ bitsLen length ≥ length then r % 2 ^ bitsLen length - length
  else r % 2 ^ bitsLen length

/-- Go's `breakPatterns_func(data, a, b)`. -/
def breakPatterns {α : Type} (s : SortState α) (a b : Nat) : SortState α :=
  if b - a ≥ 8 then
    let idx := a + (b - a) / 4 * 2 - 1
    let r1 := xorshiftNext (b - a)
    let r2 := xorshiftNext r1
    let r3 := xorshiftNext r2
    swapAt (swapAt (swapAt s (idx - 1) (a + breakIndex (b - a) r1))
      idx (a + breakIndex (b - a) r2)) (idx + 1) (a + breakIndex (b - a) r3)
  else s

/-- Loop `for i <= j && data.Less(i, a) { i++ }` of `partition_func`. -/
def scanLess {α : Type} (less : α → α → Bool) (a : Nat) :
    Nat → SortState α → Nat → Nat → Nat × SortState α
  | 0, s, i, _ => (i, s)
  | n + 1, s, i, j =>
    if i ≤ j then
      if (lessAt less s i a).1 then scanLess less a n (lessAt less s i a).2 (i + 1) j
      else (i, (lessAt less s i a).2)
    else (i, s)

/-- Loop `for i <= j && !data.Less(j, a) { j-- }` of `partition_func`. -/
def scanNotLess {α : Type} (less : α → α → Bool) (a : Nat) :
    Nat → SortState α → Nat → Nat → Nat × SortState α
  | 0, s, _, j => (j, s)
  | n + 1, s, i, j =>
    if i ≤ j then
      if (lessAt less s j a).1 then (j, (lessAt less s j a).2)
      else scanNotLess less a n (lessAt less s j a).2 i (j - 1)
    else (j, s)

/-- The unbounded `for` loop of `partition_func`; returns the final `j`. Every round that
does not leave the loop brings `i` and `j` closer together. -/
def partitionLoop {α : Type} (less : α → α → Bool) (a : Nat) :
    Nat → SortState α → Nat → Nat → Nat × SortState α
  | 0, s, _, j => (j, s)
  | n + 1, s, i, j =>
    match scanLess less a (j + 1 - i) s i j with
    | (i1, s1) =>
      match scanNotLess less a (j + 1 - i1) s1 i1 j with
      | (j1, s2) =>
        if i1 > j1 then (j1, s2)
        else partitionLoop less a n (swapAt s2 i1 j1) (i1 + 1) (j1 - 1)

/-- Go's `partition_func(data, a, b, pivot)`: the new pivot index, `alreadyPartitioned`, the
state. -/
def partition {α : Type} (less : α → α → Bool) (s : SortState α) (a b pivot : Nat) :
    Nat × Bool × SortState α :=
  match scanLess less a (b - a) (swapAt s a pivot) (a + 1) (b - 1) with
  | (i1, s1) =>
    match scanNotLess less a (b - a) s1 i1 (b - 1) with
    | (j1, s2) =>
      if i1 > j1 then (j1, true, swapAt s2 j1 a)
      else
        match partitionLoop less a (b - a) (swapAt s2 i1 j1) (i1 + 1) (j1 - 1) with
        | (j2, s3) => (j2, false, swapAt s3 j2 a)

/-- Loop `for i <= j && !data.Less(a, i) { i++ }` of `partitionEqual_func`. -/
def scanNotGreater {α : Type} (less : α → α → Bool) (a : Nat) :
    Nat → SortState α → Nat → Nat → Nat × SortState α
  | 0, s, i, _ => (i, s)
  | n + 1, s, i, j =>
    if i ≤ j then
      if (lessAt less s a i).1 then (i, (lessAt less s a i).2)
      else scanNotGreater less a n (lessAt less s a i).2 (i + 1) j
    else (i, s)

/-- Loop `for i <= j && data.Less(a, j) { j-- }` of `partitionEqual_func`. -/
def scanGreater {α : Type} (less : α → α → Bool) (a : Nat) :
    Nat → SortState α → Nat → Nat → Nat × SortState α
  | 0, s, _, j => (j, s)
  | n + 1, s, i, j =>
    if i ≤ j then
      if (lessAt less s a j).1 then scanGreater less a n (lessAt less s a j).2 i (j - 1)
      else (j, (lessAt less s a j).2)
    else (j, s)

/-- The `for` loop of `partitionEqual_func`; returns the final `i`. -/
def partitionEqualLoop {α : Type} (less : α → α → Bool) (a : Nat) :
    Nat → SortState α → Nat → Nat → Nat × SortState α
  | 0, s, i, _ => (i, s)
  | n + 1, s, i, j =>
    match scanNotGreater less a (j + 1 - i) s i j with
    | (i1, s1) =>
      match scanGreater less a (j + 1 - i1) s1 i1 j with
      | (j1, s2) =>
        if i1 > j1 then (i1, s2)
        else partitionEqualLoop less a n (swapAt s2 i1 j1) (i1 + 1) (j1 - 1)

/-- Go's `partitionEqual_func(data, a, b, pivot)`. -/
def partitionEqual {α : Type} (less : α → α → Bool) (s : SortState α) (a b pivot : Nat) :
    Nat × SortState α :=
  partitionEqualLoop less a (b - a) (swapAt s a pivot) (a + 1) (b - 1)

/-- Go's `pdqsort_func(data, a, b, limit)`. One round of the `for` loop per unit of fuel; the
two Booleans are the local variables `wasBalanced` and `wasPartitioned`. Every round shortens
`data[a:b]`, so `b - a + 1` rounds are enough. -/
def pdqsort {α : Type} (less : α → α → Bool) :
    Nat → SortState α → Nat → Nat → Nat → Bool → Bool → SortState α
  | 0, s, _, _, _, _, _ => s
  | fuel + 1, s, a, b, limit, wasBalanced, wasPartitioned =>
    if b - a ≤ 12 then insertionSortRange less s a b
    else if limit = 0 then heapSort less s a b
    else
      let s1 := if wasBalanced then s else breakPatterns s a b
      let limit1 := if wasBalanced then limit else limit - 1
      match choosePivot less s1 a b with
      | (pivot0, hint0, s2) =>
        let s3 := if hint0 = SortedHint.decreasingHint then reverseRange s2 a b else s2
        let pivot := if hint0 = SortedHint.decreasingHint then (b - 1) - (pivot0 - a) else pivot0
        let hint := if hint0 = SortedHint.decreasingHint then SortedHint.increasingHint else hint0
        let r := if wasBalanced && wasPartitioned && hint = SortedHint.increasingHint then
            partialInsertionSort less s3 a b
          else (false, s3)
        if r.1 then r.2
        else
          let q := if a > 0 then lessAt less r.2 (a - 1) pivot else (true, r.2)
          if a > 0 && !q.1 then
            match partitionEqual less q.2 a b pivot with
            | (mid, s5) => pdqsort less fuel s5 mid b limit1 wasBalanced wasPartitioned
          else
            match partition less q.2 a b pivot with
            | (mid, alreadyPartitioned, s5) =>
              if mid - a < b - mid then
                pdqsort less fuel (pdqsort less fuel s5 a mid limit1 true true) (mid + 1) b limit1
                  (decide (mid - a ≥ (b - a) / 8)) alreadyPartitioned
              else
                pdqsort less fuel (pdqsort less fuel s5 (mid + 1) b limit1 true true) a mid limit1
                  (decide (b - mid ≥ (b - a) / 8)) alreadyPartitioned

/-- The Go function `sort.Slice(data, less)`: the sorted slice together with the comparator
calls that were made. -/
def sortSlice {α : Type} (less : α → α → Bool) (data : List α) : List α × List (α × α) :=
  pdqsort less (data.length + 1) (data, []) 0 data.length (bitsLen data.length) true true

/-- Effect of the comparator calls on the error compounder: each call decodes the time stamp
of both arguments and adds every decoding error. -/
def compareErrors (calls : List (String × String)) : ErrorCompounder :=
  calls.foldl (fun ec c => (ec.add (asTimeStamp c.1).2).add (asTimeStamp c.2).2) ⟨[]⟩

/-- Comparator of `getCommitFileNames`: `ts1 < ts2`. -/
def lessOldestFirst (a b : String) : Bool := decide ((asTimeStamp a).1 < (asTimeStamp b).1)

/-- Comparator of `getCurrentCommitLogFileName`: `ts1 > ts2`. -/
def lessNewestFirst (a b : String) : Bool := decide ((asTimeStamp a).1 > (asTimeStamp b).1)

/-! ## Enumeration -/

/-- Source function `getCommitFileNames`: the full paths of the segment files, from old to
new. The first component is the directory after the call; a nil slice is `[]`. -/
def getCommitFileNames (fs : FileSystem) (rootPath name : String) :
    FileSystem × List String × Option Error :=
  match fs.mkdirAllErr with
  | some err => (fs, [], some (wrap err "create commit logger directory"))
  | none =>
    match fs.readDirErr with
    | some err => (fs, [], some (wrap err "browse commit logger directory"))
    | none =>
      match removeTmpCombiningFiles fs (removeTmpScratchFiles fs.entries) with
      | (fs1, _, some err) => (fs1, [], some (wrap err "remove temporary files"))
      | (fs1, files, none) =>
        if files.length = 0 then (fs1, [], none)
        else
          match (compareErrors (sortSlice lessOldestFirst files).2).toError with
          | some err => (fs1, [], some err)
          | none =>
            (fs1, (sortSlice lessOldestFirst files).1.map (commitLogFileName rootPath name), none)

/-- Result of a call that may fault at run time (index out of range). -/
inductive Run (α : Type)
  | value (a : α)
  | fault
deriving DecidableEq, Repr

/-- Source function `getCurrentCommitLogFileName`: base name of the newest segment and `true`,
or `false` when no file is present. `files[0]` on an empty slice is a run-time fault. -/
def getCurrentCommitLogFileName (fs : FileSystem) :
    FileSystem × Run (String × Bool × Option Error) :=
  match fs.readDirErr with
  | some err => (fs, Run.value ("", false, some (wrap err "browse commit logger directory")))
  | none =>
    if fs.entries.length = 0 then (fs, Run.value ("", false, none))
    else
      match removeTmpCombiningFiles fs (removeTmpScratchFiles fs.entries) with
      | (fs1, _, some err) =>
        (fs1, Run.value ("", false, some (wrap err "clean up tmp combining files")))
      | (fs1, files, none) =>
        match (compareErrors (sortSlice lessNewestFirst files).2).toError with
        | some err => (fs1, Run.value ("", false, some err))
        | none =>
          match (sortSlice lessNewestFirst files).1 with
          | [] => (fs1, Run.fault)
          | newest :: _ => (fs1, Run.value (newest, true, none))


/-- An entry of the listing that the enumeration keeps: its name ends neither in
`.scratch.tmp` nor in `.combined.tmp`. -/
def retained (name : String) : Bool :=
  !hasSuffix name ".scratch.tmp" && !hasSuffix name ".combined.tmp"

/-- Every unlink the enumeration attempts on the listing `names` succeeds. -/
def unlinksSucceed (fs : FileSystem) (names : List String) : Prop :=
  ∀ n ∈ names, hasSuffix n ".combined.tmp" = true → n ∉ fs.unremovable

instance (fs : FileSystem) (names : List String) : Decidable (unlinksSucceed fs names) := by
  unfold unlinksSucceed; infer_instance

/-- Directory left behind by an enumeration in which no unlink fails. -/
def afterCleanup (fs : FileSystem) : FileSystem :=
  { fs with entries := fs.entries.filter (fun e =>
      !(decide (e ∈ removeTmpScratchFiles fs.entries) && hasSuffix e ".combined.tmp")) }

/-! ## The logger -/

/-- A `sync.Mutex`. It is not reentrant and has no owner. -/
inductive Mutex
  | free
  | held
deriving DecidableEq, Repr

/-- The call `m.Lock()`: `none` when the mutex is held, in which case the call does not return
until somebody else unlocks it. -/
def Mutex.lock : Mutex → Option Mutex
  | Mutex.free => some Mutex.held
  | Mutex.held => none

/-- The call `m.Unlock()` by the holder. -/
def Mutex.unlock (_ : Mutex) : Mutex := Mutex.free

/-- How a call ends. `blocked pending` is a call that waits in `Lock` on a held mutex and so
does not come back to its caller; `pending` is the value a `return` statement had already
set when the wait is in a deferred call, `none` when the wait is at the entry. -/
inductive Outcome (α : Type)
  | returned (a : α)
  | blocked (pending : Option α)
deriving DecidableEq, Repr

/-- Modelled from the spec: the segment writer `commitlog.Logger` lives in a package that is not
part of the sources at hand. It owns the file it was created on (`NewLoggerWithFile(fd)`); the
results of its `FileSize`, `FileName` and `Close` come from the operating system (see `Calls`). -/
structure CommitLog where
  file : String
deriving DecidableEq, Repr

/-- The fields of `hnswCommitLogger` that the maintenance paths use. -/
structure Logger where
  mu : Mutex
  maintenanceLock : Mutex
  rootPath : String
  id : String
  maxSizeIndividual : Int
  maxSizeCombining : Int
  commitLogger : CommitLog
deriving DecidableEq, Repr

/-- What is outside the logger: the commit-log directory and a record of the effects of the
calls, in order: writers closed, paths opened with `O_CREATE`, arguments of `condensor.Do`,
number of runs of the combiner. -/
structure World where
  fs : FileSystem
  closed : List CommitLog
  opened : List String
  condensed : List String
  combinerRuns : Nat
deriving DecidableEq, Repr

/-- Results of the calls that leave the logger during one maintenance step: the writer's
`FileSize()`, `FileName()` and `Close()`, the clock `time.Now().Unix()`, `os.OpenFile`, the
condensor's `Do(filename)` and the combiner's `Do()`. -/
structure Calls where
  fileSize : Int × Option Error
  fileName : String × Option Error
  closeErr : Option Error
  now : Int
  openFileErr : Option Error
  condensorDo : String → Option Error
  combinerDo : Option Error

/-- The call `fmt.Sprintf("%d", n)`: the decimal numeral of `n`. -/
def sprintfD (n : Int) : String :=
  match n with
  | Int.ofNat m => ⟨Nat.toDigits 10 m⟩
  | Int.negSucc m => ⟨'-' :: Nat.toDigits 10 (m + 1)⟩

/-- The call `os.OpenFile(dir/name, O_WRONLY|O_APPEND|O_CREATE, 0o666)` when it succeeds: the
file is created unless it is there already. -/
def osOpenFileCreate (fs : FileSystem) (name : String) : FileSystem :=
  if name ∈ fs.entries then fs else { fs with entries := fs.entries ++ [name] }

/-- Body of `maintenance`, run with the writer lock held. -/
def maintenanceBody (calls : Calls) (l : Logger) (w : World) : Logger × World × Option Error :=
  match calls.fileSize with
  | (_, some err) => (l, w, some err)
  | (size, none) =>
    if size ≤ l.maxSizeIndividual then (l, w, none)
    else
      match calls.fileName with
      | (_, some err) => (l, w, some err)
      | (_, none) =>
        match calls.closeErr with
        | some err => (l, w, some err)
        | none =>
          match calls.openFileErr with
          | some err =>
            (l, { w with closed := w.closed ++ [l.commitLogger] },
              some (wrap err "create commit log file"))
          | none =>
            ({ l with commitLogger :=
                  ⟨commitLogFileName l.rootPath l.id (sprintfD calls.now)⟩ },
              { w with
                  closed := w.closed ++ [l.commitLogger]
                  fs := osOpenFileCreate w.fs (sprintfD calls.now)
                  opened := w.opened ++ [commitLogFileName l.rootPath l.id (sprintfD calls.now)] },
              none)

/-- Source method `hnswCommitLogger.maintenance`: `l.Lock(); defer l.Unlock()` around the
body. -/
def maintenance (calls : Calls) (l : Logger) (w : World) :
    Logger × World × Outcome (Option Error) :=
  match l.mu.lock with
  | none => (l, w, Outcome.blocked none)
  | some m =>
    let r := maintenanceBody calls { l with mu := m } w
    ({ r.1 with mu := r.1.mu.unlock }, r.2.1, Outcome.returned r.2.2)

/-- The loop of `condenseOldLogs` over the candidates: the first one that does not end in
`.condensed` is handed to the condensor and the result of that call is returned. -/
def condenseFirst (calls : Calls) (w : World) : List String → World × Option Error
  | [] => (w, none)
  | candidate :: rest =>
    if hasSuffix candidate ".condensed" then condenseFirst calls w rest
    else ({ w with condensed := w.condensed ++ [candidate] }, calls.condensorDo candidate)

/-- Body of `condenseOldLogs`, between the two calls on the maintenance lock. -/
def condenseOldLogsBody (calls : Calls) (l : Logger) (w : World) : World × Option Error :=
  match getCommitFileNames w.fs l.rootPath l.id with
  | (fs1, _, some err) => ({ w with fs := fs1 }, some err)
  | (fs1, files, none) =>
    if files.length ≤ 1 then ({ w with fs := fs1 }, none)
    else condenseFirst calls { w with fs := fs1 } (files.take (files.length - 1))

/-- Source method `hnswCommitLogger.condenseOldLogs`:
`l.maintenanceLock.Lock(); defer l.maintenanceLock.Lock()` around the body. The deferred call
is a second `Lock`, on the mutex as the first one left it. Nothing in the logger unlocks the
maintenance lock without having locked it first, so a wait in the deferred call does not
end. -/
def condenseOldLogs (calls : Calls) (l : Logger) (w : World) :
    Logger × World × Outcome (Option Error) :=
  match l.maintenanceLock.lock with
  | none => (l, w, Outcome.blocked none)
  | some m =>
    let r := condenseOldLogsBody calls { l with maintenanceLock := m } w
    match m.lock with
    | none => ({ l with maintenanceLock := m }, r.1, Outcome.blocked (some r.2))
    | some m2 => ({ l with maintenanceLock := m2 }, r.1, Outcome.returned r.2)

/-- Source method `hnswCommitLogger.combineLogs`:
`l.maintenanceLock.Lock(); defer l.maintenanceLock.Lock()` around one run of the combiner. The
combiner and the threshold it is given are outside the sources at hand; only the run and its
result are recorded. -/
def combineLogs (calls : Calls) (l : Logger) (w : World) :
    Logger × World × Outcome (Option Error) :=
  match l.maintenanceLock.lock with
  | none => (l, w, Outcome.blocked none)
  | some m =>
    match m.lock with
    | none =>
      ({ l with maintenanceLock := m }, { w with combinerRuns := w.combinerRuns + 1 },
        Outcome.blocked (some calls.combinerDo))
    | some m2 =>
      ({ l with maintenanceLock := m2 }, { w with combinerRuns := w.combinerRuns + 1 },
        Outcome.returned calls.combinerDo)

/-! ## Shutdown -/

/-- Who holds a lock in the interleaving of the cancellation routine with the rest of the
logger. -/
inductive Holder
  | routine
  | background
deriving DecidableEq, Repr

/-- The two timer tasks, named by the channel that cancels them. -/
inductive TimerTask
  | combineAndCondense
  | switchLogs
deriving DecidableEq, Repr

/-- Where the goroutine started by `StartLogging` stands. -/
inductive RoutinePc
  | awaitCancel
  | lockMaintenance
  | lockWriter
  | signal (pending : List TimerTask)
  | unlockWriter
  | unlockMaintenance
  | done
deriving DecidableEq, Repr

/-- State of the interleaving: the routine, whether `Shutdown()` has returned to its caller,
the holder of each lock (`none` is free) and the tasks told to exit so far. -/
structure Sys where
  routine : RoutinePc
  shutdownReturned : Bool
  maintenanceLock : Option Holder
  writerLock : Option Holder
  signalled : List TimerTask
deriving DecidableEq, Repr

/-- The atomic steps. `shutdown` is the body of `Shutdown()`, the send `l.cancel <- struct{}{}`
on the unbuffered channel meeting the routine's receive; `routine` is the next statement of
the routine; the others are a background task or an appender taking or giving back a lock. -/
inductive Action
  | shutdown
  | routine
  | acquireMaintenance
  | releaseMaintenance
  | acquireWriter
  | releaseWriter
deriving DecidableEq, Repr

/-- One step; `none` when the step cannot be taken in this state (it waits). -/
def step (a : Action) (s : Sys) : Option Sys :=
  match a with
  | Action.shutdown =>
    if s.routine = RoutinePc.awaitCancel ∧ s.shutdownReturned = false then
      some { s with routine := RoutinePc.lockMaintenance, shutdownReturned := true }
    else none
  | Action.routine =>
    match s.routine with
    | RoutinePc.awaitCancel => none
    | RoutinePc.lockMaintenance =>
      match s.maintenanceLock with
      | none =>
        some { s with maintenanceLock := some Holder.routine, routine := RoutinePc.lockWriter }
      | some _ => none
    | RoutinePc.lockWriter =>
      match s.writerLock with
      | none =>
        some { s with
          writerLock := some Holder.routine
          routine := RoutinePc.signal [TimerTask.combineAndCondense, TimerTask.switchLogs] }
      | some _ => none
    | RoutinePc.signal (c :: rest) =>
      some { s with signalled := s.signalled ++ [c], routine := RoutinePc.signal rest }
    | RoutinePc.signal [] => some { s with routine := RoutinePc.unlockWriter }
    | RoutinePc.unlockWriter =>
      some { s with writerLock := none, routine := RoutinePc.unlockMaintenance }
    | RoutinePc.unlockMaintenance =>
      some { s with maintenanceLock := none, routine := RoutinePc.done }
    | RoutinePc.done => none
  | Action.acquireMaintenance =>
    match s.maintenanceLock with
    | none => some { s with maintenanceLock := some Holder.background }
    | some _ => none
  | Action.releaseMaintenance =>
    if s.maintenanceLock = some Holder.background then some { s with maintenanceLock := none }
    else none
  | Action.acquireWriter =>
    match s.writerLock with
    | none => some { s with writerLock := some Holder.background }
    | some _ => none
  | Action.releaseWriter =>
    if s.writerLock = some Holder.background then some { s with writerLock := none }
    else none

/-- A schedule, run from `s`. -/
def run : List Action → Sys → Option Sys
  | [], s => some s
  | a :: rest, s =>
    match step a s with
    | none => none
    | some s1 => run rest s1

/-- The state `StartLogging` leaves: the routine waits for the cancel signal and nothing has
been signalled; each lock is free or in the hands of a background task or an appender. -/
def started (maintenanceBusy writerBusy : Bool) : Sys :=
  { routine := RoutinePc.awaitCancel, shutdownReturned := false,
    maintenanceLock := if maintenanceBusy then some Holder.background else none,
    writerLock := if writerBusy then some Holder.background else none,
    signalled := [] }

/-- What the code of the routine guarantees at each of its statements: the locks it holds and
the tasks it has signalled. -/
def RoutineInv (s : Sys) : Prop :=
  match s.routine with
  | RoutinePc.awaitCancel =>
    s.signalled = [] ∧ s.maintenanceLock ≠ some Holder.routine
      ∧ s.writerLock ≠ some Holder.routine ∧ s.shutdownReturned = false
  | RoutinePc.lockMaintenance =>
    s.signalled = [] ∧ s.maintenanceLock ≠ some Holder.routine
      ∧ s.writerLock ≠ some Holder.routine
  | RoutinePc.lockWriter =>
    s.signalled = [] ∧ s.maintenanceLock = some Holder.routine
      ∧ s.writerLock ≠ some Holder.routine
  | RoutinePc.signal pending =>
    s.signalled ++ pending = [TimerTask.combineAndCondense, TimerTask.switchLogs]
      ∧ s.maintenanceLock = some Holder.routine ∧ s.writerLock = some Holder.routine
  | RoutinePc.unlockWriter =>
    s.signalled = [TimerTask.combineAndCondense, TimerTask.switchLogs]
      ∧ s.maintenanceLock = some Holder.routine ∧ s.writerLock = some Holder.routine
  | RoutinePc.unlockMaintenance =>
    s.signalled = [TimerTask.combineAndCondense, TimerTask.switchLogs]
      ∧ s.maintenanceLock = some Holder.routine ∧ s.writerLock ≠ some Holder.routine
  | RoutinePc.done =>
    s.signalled = [TimerTask.combineAndCondense, TimerTask.switchLogs]
      ∧ s.maintenanceLock ≠ some Holder.routine ∧ s.writerLock ≠ some Holder.routine

/-- Value of a run of decimal digits read after the number `n` (most significant first). -/
def digitsValue : List Char → Nat → Nat
  | [], n => n
  | c :: cs, n => digitsValue cs (n * 10 + (c.toNat - '0'.toNat))

/-! ## Predicates for reasoning about `sort.Slice` -/

/-- Key of the element at index `p` (0 outside the slice). -/
def keyAt {α : Type} (key : α → Int) (d : List α) (p : Nat) : Int :=
  match d[p]? with
  | some x => key x
  | none => 0

/-- The state `t` continues `s`: the slice is permuted and calls on its elements are added. -/
def Ext {α : Type} (s t : SortState α) : Prop :=
  t.1.Perm s.1 ∧ ∃ new, t.2 = s.2 ++ new ∧ ∀ c ∈ new, c.1 ∈ s.1 ∧ c.2 ∈ s.1

/-- The slice `e` differs from `d` only inside `[a, b)`, and what it holds there comes from
there. -/
def Within {α : Type} (a b : Nat) (d e : List α) : Prop :=
  e.length = d.length ∧ (∀ p, p < a ∨ b ≤ p → e[p]? = d[p]?) ∧
    ∀ p, a ≤ p → p < b → ∃ q, a ≤ q ∧ q < b ∧ e[p]? = d[q]?

/-- The element `x` occurs in a comparator call. -/
def Covered {α : Type} (calls : List (α × α)) (x : α) : Prop := ∃ c ∈ calls, c.1 = x ∨ c.2 = x

/-- The element at index `p` occurs in a comparator call. -/
def CoveredAt {α : Type} (s : SortState α) (p : Nat) : Prop :=
  ∀ x, s.1[p]? = some x → Covered s.2 x

/-- The keys in `[a, b)` are non-decreasing. -/
def SortedOn {α : Type} (key : α → Int) (a b : Nat) (d : List α) : Prop :=
  ∀ p q, a ≤ p → p < q → q < b → keyAt key d p ≤ keyAt key d q

/-- The element before `a`, if any, is not above any element of `[a, b)`. -/
def LowerBound {α : Type} (key : α → Int) (a b : Nat) (d : List α) : Prop :=
  ∀ p, 0 < a → a ≤ p → p < b → keyAt key d (a - 1) ≤ keyAt key d p

/-- The state of the slice while the element at `j` is moved to the left inside `[a, m]`. -/
def ShiftInv {α : Type} (key : α → Int) (a m j : Nat) (d : List α) : Prop :=
  SortedOn key a j d ∧ SortedOn key j (m + 1) d ∧
    ∀ p q, a ≤ p → p < j → j < q → q ≤ m → keyAt key d p ≤ keyAt key d q

/-- Heap order on the nodes from `lo` on, in the heap of size `hi` stored from index `first`
on: no child is above its parent. -/
def HeapFrom {α : Type} (key : α → Int) (first lo hi : Nat) (d : List α) : Prop :=
  ∀ r c, lo ≤ r → (c = 2 * r + 1 ∨ c = 2 * r + 2) → c < hi →
    keyAt key d (first + c) ≤ keyAt key d (first + r)

/-- Heap order on the nodes from `lo` on except at `root`, whose children are not above its
parent. -/
def AlmostHeap {α : Type} (key : α → Int) (first lo hi root : Nat) (d : List α) : Prop :=
  (∀ r c, lo ≤ r → r ≠ root → (c = 2 * r + 1 ∨ c = 2 * r + 2) → c < hi →
      keyAt key d (first + c) ≤ keyAt key d (first + r)) ∧
    ∀ r c, lo ≤ r → (root = 2 * r + 1 ∨ root = 2 * r + 2) →
      (c = 2 * root + 1 ∨ c = 2 * root + 2) → c < hi →
      keyAt key d (first + c) ≤ keyAt key d (first + r)

/-- The state of the slice with `k` elements left in the heap. -/
def PopInv {α : Type} (key : α → Int) (first hi k : Nat) (d : List α) : Prop :=
  HeapFrom key first 0 k d ∧ SortedOn key (first + k) (first + hi) d ∧
    ∀ p q, p < k → k ≤ q → q < hi → keyAt key d (first + p) ≤ keyAt key d (first + q)

/-! ## Facts about the embedded library routines -/

section SortFacts

variable {α : Type} (less : α → α → Bool)

theorem sink_perm (x : α) (acc : List α) : (sink less x acc).1.Perm (x :: acc) := by
  induction acc with
  | nil => simp [sink]
  | cons y ys ih =>
    by_cases h : less x y = true
    · simp only [sink, h, if_true]
      exact (List.Perm.cons y ih).trans (List.Perm.swap x y ys)
    · simp [sink, h]

theorem insertionSort_perm (xs acc : List α) (calls : List (α × α)) :
    (insertionSort less xs acc calls).1.Perm (acc ++ xs) := by
  induction xs generalizing acc calls with
  | nil => simp [insertionSort]
  | cons x xs ih =>
    simp only [insertionSort]
    refine (ih _ _).trans ?_
    refine (List.Perm.append_right xs (sink_perm less x acc)).trans ?_
    simp only [List.cons_append]
    exact List.perm_middle.symm

theorem sink_calls (x : α) (acc : List α) :
    ∀ c ∈ (sink less x acc).2, c.1 = x ∧ c.2 ∈ acc := by
  induction acc with
  | nil => simp [sink]
  | cons y ys ih =>
    intro c hc
    by_cases h : less x y = true
    · simp only [sink, h, if_true, List.mem_cons] at hc
      rcases hc with rfl | hc
      · simp
      · exact ⟨(ih c hc).1, List.mem_cons_of_mem _ (ih c hc).2⟩
    · simp only [sink, h, Bool.false_eq_true, if_false, List.mem_singleton] at hc
      subst hc
      simp

theorem sink_calls_ne_nil (x y : α) (ys : List α) : (sink less x (y :: ys)).2 ≠ [] := by
  by_cases h : less x y = true <;> simp [sink, h]

theorem insertionSort_calls_mem (xs acc : List α) (calls : List (α × α)) :
    ∀ c ∈ (insertionSort less xs acc calls).2,
      c ∈ calls ∨ ((c.1 ∈ acc ∨ c.1 ∈ xs) ∧ (c.2 ∈ acc ∨ c.2 ∈ xs)) := by
  induction xs generalizing acc calls with
  | nil => intro c hc; simpa [insertionSort] using Or.inl hc
  | cons x xs ih =>
    intro c hc
    simp only [insertionSort] at hc
    have hmem : ∀ a, a ∈ (sink less x acc).1 ↔ a = x ∨ a ∈ acc := fun a => by
      rw [(sink_perm less x acc).mem_iff, List.mem_cons]
    rcases ih _ _ c hc with h | ⟨h1, h2⟩
    · rcases List.mem_append.mp h with h | h
      · exact Or.inl h
      · have := sink_calls less x acc c h
        exact Or.inr ⟨Or.inr (by simp [this.1]), Or.inl this.2⟩
    · refine Or.inr ⟨?_, ?_⟩
      · rcases h1 with h1 | h1
        · rcases (hmem _).mp h1 with h1 | h1
          · exact Or.inr (by simp [h1])
          · exact Or.inl h1
        · exact Or.inr (List.mem_cons_of_mem _ h1)
      · rcases h2 with h2 | h2
        · rcases (hmem _).mp h2 with h2 | h2
          · exact Or.inr (by simp [h2])
          · exact Or.inl h2
        · exact Or.inr (List.mem_cons_of_mem _ h2)

theorem insertionSort_calls_mono (xs acc : List α) (calls : List (α × α)) :
    ∀ c ∈ calls, c ∈ (insertionSort less xs acc calls).2 := by
  induction xs generalizing acc calls with
  | nil => intro c hc; simpa [insertionSort] using hc
  | cons x xs ih =>
    intro c hc
    simp only [insertionSort]
    exact ih _ _ c (List.mem_append_left _ hc)

theorem sink_ne_nil (x : α) (acc : List α) : (sink less x acc).1 ≠ [] := by
  cases acc with
  | nil => simp [sink]
  | cons y ys => by_cases h : less x y = true <;> simp [sink, h]

theorem insertionSort_covers (xs acc : List α) (calls : List (α × α)) (hacc : acc ≠ []) :
    ∀ x ∈ xs, ∃ c ∈ (insertionSort less xs acc calls).2, c.1 = x := by
  induction xs generalizing acc calls with
  | nil => intro x hx; simp at hx
  | cons y ys ih =>
    intro x hx
    simp only [insertionSort]
    rcases List.mem_cons.mp hx with rfl | hx
    · obtain ⟨z, zs, rfl⟩ := List.exists_cons_of_ne_nil hacc
      obtain ⟨c, cs, hcs⟩ := List.exists_cons_of_ne_nil (sink_calls_ne_nil less x z zs)
      have hc : c ∈ (sink less x (z :: zs)).2 := by rw [hcs]; simp
      exact ⟨c, insertionSort_calls_mono less _ _ _ c (List.mem_append_right _ hc),
        (sink_calls less x (z :: zs) c hc).1⟩
    · exact ih _ _ (sink_ne_nil less y acc) x hx

/-- Sortedness: when the comparator is the strict order of a key, the keys of the result are
non-decreasing. -/
theorem sink_sorted (key : α → Int) (hless : ∀ a b, less a b = decide (key a < key b))
    (x : α) (acc : List α) (hacc : acc.Pairwise (fun a b => key b ≤ key a)) :
    (sink less x acc).1.Pairwise (fun a b => key b ≤ key a) := by
  induction acc with
  | nil => simp [sink]
  | cons y ys ih =>
    rw [List.pairwise_cons] at hacc
    by_cases h : less x y = true
    · simp only [sink, h, if_true, List.pairwise_cons]
      refine ⟨?_, ih hacc.2⟩
      intro z hz
      rcases List.mem_cons.mp ((sink_perm less x ys).mem_iff.mp hz) with rfl | hz
      · rw [hless] at h
        exact le_of_lt (of_decide_eq_true h)
      · exact hacc.1 z hz
    · simp only [sink, h, Bool.false_eq_true, if_false, List.pairwise_cons]
      have hxy : key y ≤ key x := by
        rw [hless] at h
        simpa using h
      refine ⟨?_, hacc.1, hacc.2⟩
      intro z hz
      rcases List.mem_cons.mp hz with rfl | hz
      · exact hxy
      · exact le_trans (hacc.1 z hz) hxy

theorem insertionSort_sorted (key : α → Int) (hless : ∀ a b, less a b = decide (key a < key b))
    (xs acc : List α) (calls : List (α × α)) (hacc : acc.Pairwise (fun a b => key b ≤ key a)) :
    (insertionSort less xs acc calls).1.Pairwise (fun a b => key a ≤ key b) := by
  induction xs generalizing acc calls with
  | nil => simpa [insertionSort, List.pairwise_reverse] using hacc
  | cons x xs ih =>
    simp only [insertionSort]
    exact ih _ _ (sink_sorted less key hless x acc hacc)

theorem insertionSort_calls_append (xs acc : List α) (calls : List (α × α)) :
    ∃ new, (insertionSort less xs acc calls).2 = calls ++ new
      ∧ ∀ c ∈ new, (c.1 ∈ acc ∨ c.1 ∈ xs) ∧ (c.2 ∈ acc ∨ c.2 ∈ xs) := by
  induction xs generalizing acc calls with
  | nil => exact ⟨[], by simp [insertionSort], by simp⟩
  | cons x xs ih =>
    simp only [insertionSort]
    obtain ⟨new, hnew, hmem⟩ := ih (sink less x acc).1 (calls ++ (sink less x acc).2)
    refine ⟨(sink less x acc).2 ++ new, by rw [hnew, List.append_assoc], ?_⟩
    have hsink : ∀ a, a ∈ (sink less x acc).1 ↔ a = x ∨ a ∈ acc := fun a => by
      rw [(sink_perm less x acc).mem_iff, List.mem_cons]
    intro c hc
    rcases List.mem_append.mp hc with h | h
    · have := sink_calls less x acc c h
      exact ⟨Or.inr (by simp [this.1]), Or.inl this.2⟩
    · obtain ⟨h1, h2⟩ := hmem c h
      refine ⟨?_, ?_⟩
      · rcases h1 with h1 | h1
        · rcases (hsink _).mp h1 with h1 | h1
          · exact Or.inr (by simp [h1])
          · exact Or.inl h1
        · exact Or.inr (List.mem_cons_of_mem _ h1)
      · rcases h2 with h2 | h2
        · rcases (hsink _).mp h2 with h2 | h2
          · exact Or.inr (by simp [h2])
          · exact Or.inl h2
        · exact Or.inr (List.mem_cons_of_mem _ h2)

end SortFacts

section SortRoutines

variable {α : Type}

/-! ### The two primitive operations -/

theorem lessAt_data (less : α → α → Bool) (s : SortState α) (i j : Nat) :
    (lessAt less s i j).2.1 = s.1 := by
  unfold lessAt; split <;> rfl

theorem lessAt_eq (less : α → α → Bool) (s : SortState α) (i j : Nat) (x y : α)
    (hx : s.1[i]? = some x) (hy : s.1[j]? = some y) :
    lessAt less s i j = (less x y, (s.1, s.2 ++ [(x, y)])) := by
  unfold lessAt; rw [hx, hy]

theorem getElem?_some_of_lt (d : List α) (p : Nat) (h : p < d.length) : ∃ x, d[p]? = some x :=
  ⟨d[p], List.getElem?_eq_getElem h⟩

theorem lt_of_getElem?_some {d : List α} {p : Nat} {x : α} (h : d[p]? = some x) :
    p < d.length := by
  by_contra hc
  rw [List.getElem?_eq_none (by omega)] at h
  exact absurd h (by simp)

theorem mem_of_getElem?_some {d : List α} {p : Nat} {x : α} (h : d[p]? = some x) : x ∈ d := by
  have hp := lt_of_getElem?_some h
  rw [List.getElem?_eq_getElem hp] at h
  exact Option.some.inj h ▸ List.getElem_mem hp

theorem keyAt_of_some (key : α → Int) {d : List α} {p : Nat} {x : α} (h : d[p]? = some x) :
    keyAt key d p = key x := by
  unfold keyAt; rw [h]

theorem keyAt_congr (key : α → Int) {d e : List α} {p q : Nat} (h : e[p]? = d[q]?) :
    keyAt key e p = keyAt key d q := by
  unfold keyAt; rw [h]

theorem lessAt_fst (less : α → α → Bool) (key : α → Int)
    (hless : ∀ a b, less a b = decide (key a < key b)) (s : SortState α) (i j : Nat)
    (hi : i < s.1.length) (hj : j < s.1.length) :
    (lessAt less s i j).1 = decide (keyAt key s.1 i < keyAt key s.1 j) := by
  obtain ⟨x, hx⟩ := getElem?_some_of_lt s.1 i hi
  obtain ⟨y, hy⟩ := getElem?_some_of_lt s.1 j hj
  rw [lessAt_eq less s i j x y hx hy, keyAt_of_some key hx, keyAt_of_some key hy, hless]

theorem swap_perm (l : List α) (i j : Nat) (x y : α) (hx : l[i]? = some x)
    (hy : l[j]? = some y) : ((l.set i y).set j x).Perm l := by
  classical
  have hi := lt_of_getElem?_some hx
  have hj := lt_of_getElem?_some hy
  have hxi : l[i] = x := by
    rw [List.getElem?_eq_getElem hi] at hx; exact Option.some.inj hx
  have hyj : l[j] = y := by
    rw [List.getElem?_eq_getElem hj] at hy; exact Option.some.inj hy
  rw [List.perm_iff_count]
  intro a
  rw [List.count_set _ _ _ _ (by simpa using hj), List.count_set _ _ _ _ hi]
  by_cases hij : i = j
  · subst hij
    have hxy : x = y := by rw [← hxi, ← hyj]
    subst hxy
    simp only [List.getElem_set_self, hxi]
    have : (if (x == a) = true then 1 else 0) ≤ List.count a l := by
      split
      · rename_i h
        have hxa : x = a := by simpa using h
        subst hxa
        exact List.count_pos_iff.mpr (mem_of_getElem?_some hx)
      · omega
    omega
  · rw [List.getElem_set_ne hij, hxi, hyj]
    have h1 : (if (x == a) = true then 1 else 0) ≤ List.count a l := by
      split
      · rename_i h
        have hxa : x = a := by simpa using h
        subst hxa
        exact List.count_pos_iff.mpr (mem_of_getElem?_some hx)
      · omega
    omega

theorem swapAt_calls (s : SortState α) (i j : Nat) : (swapAt s i j).2 = s.2 := by
  unfold swapAt; split <;> rfl

theorem swapAt_perm (s : SortState α) (i j : Nat) : (swapAt s i j).1.Perm s.1 := by
  unfold swapAt
  split
  · rename_i x y hx hy
    exact swap_perm s.1 i j x y hx hy
  · exact List.Perm.refl _

theorem swapAt_length (s : SortState α) (i j : Nat) : (swapAt s i j).1.length = s.1.length :=
  (swapAt_perm s i j).length_eq

theorem swapAt_getElem? (s : SortState α) (i j p : Nat) (hi : i < s.1.length)
    (hj : j < s.1.length) :
    (swapAt s i j).1[p]? = if p = j then s.1[i]? else if p = i then s.1[j]? else s.1[p]? := by
  obtain ⟨x, hx⟩ := getElem?_some_of_lt s.1 i hi
  obtain ⟨y, hy⟩ := getElem?_some_of_lt s.1 j hj
  unfold swapAt
  rw [hx, hy]
  simp only [List.getElem?_set, List.length_set]
  by_cases hpj : p = j
  · subst hpj; simp [hj]
  · by_cases hpi : p = i
    · subst hpi
      have hne : ¬ j = p := fun h => hpj h.symm
      simp [hi, hne, hpj]
    · have hne1 : ¬ j = p := fun h => hpj h.symm
      have hne2 : ¬ i = p := fun h => hpi h.symm
      simp [hne1, hne2, hpj, hpi]

theorem swapAt_getElem?_other (s : SortState α) (i j p : Nat) (hpi : p ≠ i) (hpj : p ≠ j) :
    (swapAt s i j).1[p]? = s.1[p]? := by
  unfold swapAt
  split
  · simp [List.getElem?_set, Ne.symm hpi, Ne.symm hpj]
  · rfl

theorem keyAt_swapAt (key : α → Int) (s : SortState α) (i j p : Nat) (hi : i < s.1.length)
    (hj : j < s.1.length) :
    keyAt key (swapAt s i j).1 p
      = if p = j then keyAt key s.1 i else if p = i then keyAt key s.1 j
        else keyAt key s.1 p := by
  unfold keyAt
  rw [swapAt_getElem? s i j p hi hj]
  by_cases hpj : p = j
  · simp only [hpj, if_true]
  · by_cases hpi : p = i
    · subst hpi
      simp only [hpj, if_false, if_true]
    · simp only [hpj, hpi, if_false]

/-! ### Continuation of a state -/

theorem Ext.extRefl (s : SortState α) : Ext s s :=
  ⟨List.Perm.refl _, [], by simp, by simp⟩

theorem Ext.extTrans {s t u : SortState α} (h1 : Ext s t) (h2 : Ext t u) : Ext s u := by
  obtain ⟨p1, n1, e1, m1⟩ := h1
  obtain ⟨p2, n2, e2, m2⟩ := h2
  refine ⟨p2.trans p1, n1 ++ n2, by rw [e2, e1, List.append_assoc], ?_⟩
  intro c hc
  rcases List.mem_append.mp hc with h | h
  · exact m1 c h
  · exact ⟨p1.mem_iff.mp (m2 c h).1, p1.mem_iff.mp (m2 c h).2⟩

theorem lessAt_ext (less : α → α → Bool) (s : SortState α) (i j : Nat) :
    Ext s (lessAt less s i j).2 := by
  unfold lessAt
  split
  · rename_i x y hx hy
    refine ⟨List.Perm.refl _, [(x, y)], rfl, ?_⟩
    intro c hc
    rw [List.mem_singleton] at hc
    subst hc
    exact ⟨mem_of_getElem?_some hx, mem_of_getElem?_some hy⟩
  · exact Ext.extRefl s

theorem swapAt_ext (s : SortState α) (i j : Nat) : Ext s (swapAt s i j) :=
  ⟨swapAt_perm s i j, [], by simp [swapAt_calls], by simp⟩

theorem Ext.mem_calls {s t : SortState α} (h : Ext s t) (c : α × α) (hc : c ∈ s.2) : c ∈ t.2 := by
  obtain ⟨_, n, e, _⟩ := h
  rw [e]; exact List.mem_append_left _ hc

theorem Ext.covered {s t : SortState α} (h : Ext s t) (x : α) (hx : Covered s.2 x) :
    Covered t.2 x := by
  obtain ⟨c, hc, hcx⟩ := hx
  exact ⟨c, h.mem_calls c hc, hcx⟩

/-! ### Changes confined to a range -/

theorem Within.withinRefl (a b : Nat) (d : List α) : Within a b d d :=
  ⟨rfl, fun _ _ => rfl, fun p hp1 hp2 => ⟨p, hp1, hp2, rfl⟩⟩

theorem Within.withinTrans {a b : Nat} {d e f : List α} (h1 : Within a b d e) (h2 : Within a b e f) :
    Within a b d f := by
  obtain ⟨l1, o1, r1⟩ := h1
  obtain ⟨l2, o2, r2⟩ := h2
  refine ⟨l2.trans l1, fun p hp => (o2 p hp).trans (o1 p hp), ?_⟩
  intro p hp1 hp2
  obtain ⟨q, hq1, hq2, hq⟩ := r2 p hp1 hp2
  obtain ⟨r, hr1, hr2, hr⟩ := r1 q hq1 hq2
  exact ⟨r, hr1, hr2, hq.trans hr⟩

theorem Within.mono {a b a1 b1 : Nat} {d e : List α} (h : Within a b d e) (ha : a1 ≤ a)
    (hb : b ≤ b1) : Within a1 b1 d e := by
  obtain ⟨l1, o1, r1⟩ := h
  refine ⟨l1, fun p hp => o1 p (by omega), ?_⟩
  intro p hp1 hp2
  by_cases hin : a ≤ p ∧ p < b
  · obtain ⟨q, hq1, hq2, hq⟩ := r1 p hin.1 hin.2
    exact ⟨q, by omega, by omega, hq⟩
  · exact ⟨p, hp1, hp2, o1 p (by omega)⟩

theorem swapAt_within (s : SortState α) (a b i j : Nat) (hi1 : a ≤ i) (hi2 : i < b)
    (hj1 : a ≤ j) (hj2 : j < b) : Within a b s.1 (swapAt s i j).1 := by
  by_cases hb : i < s.1.length ∧ j < s.1.length
  · refine ⟨swapAt_length s i j, ?_, ?_⟩
    · intro p hp
      exact swapAt_getElem?_other s i j p (by omega) (by omega)
    · intro p hp1 hp2
      rw [swapAt_getElem? s i j p hb.1 hb.2]
      by_cases hpj : p = j
      · exact ⟨i, hi1, hi2, by simp [hpj]⟩
      · by_cases hpi : p = i
        · subst hpi
          exact ⟨j, hj1, hj2, by simp [hpj]⟩
        · exact ⟨p, hp1, hp2, by simp [hpj, hpi]⟩
  · have : swapAt s i j = s := by
      unfold swapAt
      split
      · rename_i x y hx hy
        exact absurd ⟨lt_of_getElem?_some hx, lt_of_getElem?_some hy⟩ hb
      · rfl
    rw [this]; exact Within.withinRefl a b s.1

theorem Within.keyAt_outside (key : α → Int) {a b : Nat} {d e : List α} (h : Within a b d e)
    (p : Nat) (hp : p < a ∨ b ≤ p) : keyAt key e p = keyAt key d p :=
  keyAt_congr key (h.2.1 p hp)

theorem Within.keyAt_inside (key : α → Int) {a b : Nat} {d e : List α} (h : Within a b d e)
    (p : Nat) (hp1 : a ≤ p) (hp2 : p < b) :
    ∃ q, a ≤ q ∧ q < b ∧ keyAt key e p = keyAt key d q := by
  obtain ⟨q, hq1, hq2, hq⟩ := h.2.2 p hp1 hp2
  exact ⟨q, hq1, hq2, keyAt_congr key hq⟩

theorem Within.lowerBound (key : α → Int) {a b : Nat} {d e : List α} (h : Within a b d e)
    (hl : LowerBound key a b d) : LowerBound key a b e := by
  intro p ha hp1 hp2
  obtain ⟨q, hq1, hq2, hq⟩ := h.keyAt_inside key p hp1 hp2
  rw [hq, h.keyAt_outside key (a - 1) (by omega)]
  exact hl q ha hq1 hq2

/-! ### Coverage -/

theorem lessAt_coveredAt (less : α → α → Bool) (s : SortState α) (i j : Nat)
    (hi : i < s.1.length) (hj : j < s.1.length) :
    CoveredAt (lessAt less s i j).2 i ∧ CoveredAt (lessAt less s i j).2 j := by
  obtain ⟨x, hx⟩ := getElem?_some_of_lt s.1 i hi
  obtain ⟨y, hy⟩ := getElem?_some_of_lt s.1 j hj
  rw [lessAt_eq less s i j x y hx hy]
  constructor
  · intro z hz
    simp only at hz
    rw [hx] at hz
    exact ⟨(x, y), by simp, Or.inl (Option.some.inj hz)⟩
  · intro z hz
    simp only at hz
    rw [hy] at hz
    exact ⟨(x, y), by simp, Or.inr (Option.some.inj hz)⟩

theorem CoveredAt.lessAt (less : α → α → Bool) {s : SortState α} {p : Nat} (i j : Nat)
    (h : CoveredAt s p) : CoveredAt (lessAt less s i j).2 p := by
  intro x hx
  rw [lessAt_data] at hx
  exact (lessAt_ext less s i j).covered x (h x hx)

theorem CoveredAt.swapAt {s : SortState α} {p : Nat} (h : CoveredAt s p) (i j : Nat)
    (hi : CoveredAt s i) (hj : CoveredAt s j) : CoveredAt (swapAt s i j) p := by
  by_cases hb : i < s.1.length ∧ j < s.1.length
  · intro x hx
    rw [swapAt_getElem? s i j p hb.1 hb.2] at hx
    rw [swapAt_calls]
    by_cases hpj : p = j
    · rw [if_pos hpj] at hx; exact hi x hx
    · rw [if_neg hpj] at hx
      by_cases hpi : p = i
      · rw [if_pos hpi] at hx; exact hj x hx
      · rw [if_neg hpi] at hx; exact h x hx
  · have : CommitLogger.swapAt s i j = s := by
      unfold CommitLogger.swapAt
      split
      · rename_i x y hx hy
        exact absurd ⟨lt_of_getElem?_some hx, lt_of_getElem?_some hy⟩ hb
      · rfl
    rw [this]; exact h

end SortRoutines

section InsertionSortRange

variable {α : Type} (less : α → α → Bool)

theorem segment_getElem? (d : List α) (a b q : Nat) (hq : q < b - a) :
    ((d.drop a).take (b - a))[q]? = d[a + q]? := by
  rw [List.getElem?_take, if_pos hq, List.getElem?_drop]

theorem segment_length (d : List α) (a b : Nat) (hab : a ≤ b) (hb : b ≤ d.length) :
    ((d.drop a).take (b - a)).length = b - a := by
  rw [List.length_take, List.length_drop]; omega

theorem segment_split (d : List α) (a b : Nat) (hab : a ≤ b) :
    d.take a ++ (d.drop a).take (b - a) ++ d.drop b = d := by
  have h1 : d.drop b = (d.drop a).drop (b - a) := by
    rw [List.drop_drop]; congr 1; omega
  rw [h1, List.append_assoc, List.take_append_drop, List.take_append_drop]

/-- What `insertionSort_func(data, a, b)` establishes. -/
theorem insertionSortRange_spec (key : α → Int)
    (hless : ∀ x y, less x y = decide (key x < key y)) (s : SortState α) (a b : Nat)
    (hab : a ≤ b) (hb : b ≤ s.1.length) :
    Ext s (insertionSortRange less s a b) ∧ Within a b s.1 (insertionSortRange less s a b).1 ∧
    SortedOn key a b (insertionSortRange less s a b).1 := by
  have hperm := insertionSort_perm less ((s.1.drop a).take (b - a)) [] s.2
  rw [List.nil_append] at hperm
  have hsorted := insertionSort_sorted less key hless ((s.1.drop a).take (b - a)) [] s.2
    List.Pairwise.nil
  obtain ⟨new, hnew, hmem⟩ := insertionSort_calls_append less ((s.1.drop a).take (b - a)) [] s.2
  have hseglen := segment_length s.1 a b hab hb
  have hlen : (insertionSort less ((s.1.drop a).take (b - a)) [] s.2).1.length = b - a := by
    rw [hperm.length_eq, hseglen]
  have htake : (s.1.take a).length = a := by rw [List.length_take]; omega
  have hsegmem : ∀ x, x ∈ (s.1.drop a).take (b - a) → x ∈ s.1 := fun x hx =>
    List.mem_of_mem_drop (List.mem_of_mem_take hx)
  have hget : ∀ p, (insertionSortRange less s a b).1[p]?
      = if p < a then s.1[p]? else if p < b
          then (insertionSort less ((s.1.drop a).take (b - a)) [] s.2).1[p - a]?
          else s.1[p]? := by
    intro p
    unfold insertionSortRange
    rw [if_pos ⟨hab, hb⟩]
    simp only
    by_cases hpa : p < a
    · rw [if_pos hpa, List.append_assoc, List.getElem?_append_left (by omega),
        List.getElem?_take, if_pos hpa]
    · rw [if_neg hpa]
      by_cases hpb : p < b
      · rw [if_pos hpb, List.getElem?_append_left (by rw [List.length_append]; omega),
          List.getElem?_append_right (by omega), htake]
      · rw [if_neg hpb, List.getElem?_append_right (by rw [List.length_append]; omega),
          List.length_append, htake, hlen, List.getElem?_drop]
        congr 1; omega
  have hcalls : (insertionSortRange less s a b).2
      = (insertionSort less ((s.1.drop a).take (b - a)) [] s.2).2 := by
    unfold insertionSortRange
    rw [if_pos ⟨hab, hb⟩]
  refine ⟨⟨?_, new, by rw [hcalls, hnew], ?_⟩, ⟨?_, ?_, ?_⟩, ?_⟩
  · unfold insertionSortRange
    rw [if_pos ⟨hab, hb⟩]
    simp only
    have := segment_split s.1 a b hab
    refine List.Perm.trans ?_ (List.Perm.of_eq this)
    exact List.Perm.append_right _ (List.Perm.append_left _ hperm)
  · intro c hc
    obtain ⟨h1, h2⟩ := hmem c hc
    simp only [List.not_mem_nil, false_or] at h1 h2
    exact ⟨hsegmem _ h1, hsegmem _ h2⟩
  · unfold insertionSortRange
    rw [if_pos ⟨hab, hb⟩]
    simp only [List.length_append, hlen, htake, List.length_drop]
    omega
  · intro p hp
    rw [hget p]
    rcases hp with hp | hp
    · rw [if_pos hp]
    · rw [if_neg (by omega), if_neg (by omega)]
  · intro p hp1 hp2
    rw [hget p, if_neg (by omega), if_pos hp2]
    obtain ⟨x, hx⟩ := getElem?_some_of_lt
      (insertionSort less ((s.1.drop a).take (b - a)) [] s.2).1 (p - a) (by omega)
    have hxm : x ∈ (s.1.drop a).take (b - a) := hperm.mem_iff.mp (mem_of_getElem?_some hx)
    obtain ⟨q, hq⟩ := List.mem_iff_getElem?.mp hxm
    have hq2 : q < b - a := by
      have := lt_of_getElem?_some hq
      omega
    rw [segment_getElem? s.1 a b q hq2] at hq
    exact ⟨a + q, by omega, by omega, by rw [hx, hq]⟩
  · intro p q hp hpq hq
    obtain ⟨x, hx⟩ := getElem?_some_of_lt
      (insertionSort less ((s.1.drop a).take (b - a)) [] s.2).1 (p - a) (by omega)
    obtain ⟨y, hy⟩ := getElem?_some_of_lt
      (insertionSort less ((s.1.drop a).take (b - a)) [] s.2).1 (q - a) (by omega)
    have e1 : keyAt key (insertionSortRange less s a b).1 p = key x := by
      apply keyAt_of_some
      rw [hget p, if_neg (by omega), if_pos (by omega), hx]
    have e2 : keyAt key (insertionSortRange less s a b).1 q = key y := by
      apply keyAt_of_some
      rw [hget q, if_neg (by omega), if_pos (by omega), hy]
    rw [e1, e2]
    have hpa : p - a < (insertionSort less ((s.1.drop a).take (b - a)) [] s.2).1.length := by
      omega
    have hqa : q - a < (insertionSort less ((s.1.drop a).take (b - a)) [] s.2).1.length := by
      omega
    have := List.pairwise_iff_getElem.mp hsorted (p - a) (q - a) hpa hqa (by omega)
    rw [List.getElem?_eq_getElem hpa] at hx
    rw [List.getElem?_eq_getElem hqa] at hy
    rw [← Option.some.inj hx, ← Option.some.inj hy]
    exact this

end InsertionSortRange

section SortLoops

variable {α : Type}

/-! ### The scanning loops of `partition_func` and `partitionEqual_func` -/

theorem scanLess_spec (less : α → α → Bool) (key : α → Int)
    (hless : ∀ x y, less x y = decide (key x < key y)) (a j : Nat) :
    ∀ (n : Nat) (s : SortState α) (i : Nat), j + 1 - i ≤ n → j < s.1.length →
      a < s.1.length → i ≤ j + 1 →
      (scanLess less a n s i j).2.1 = s.1 ∧ Ext s (scanLess less a n s i j).2 ∧
      i ≤ (scanLess less a n s i j).1 ∧ (scanLess less a n s i j).1 ≤ j + 1 ∧
      (∀ p, i ≤ p → p < (scanLess less a n s i j).1 → keyAt key s.1 p < keyAt key s.1 a) ∧
      ((scanLess less a n s i j).1 ≤ j →
        ¬ keyAt key s.1 (scanLess less a n s i j).1 < keyAt key s.1 a) := by
  intro n
  induction n with
  | zero =>
    intro s i hf hj ha hij
    rw [scanLess]
    refine ⟨rfl, Ext.extRefl s, le_refl _, by omega, ?_, ?_⟩
    · intro p h1 h2; omega
    · intro h; omega
  | succ n ih =>
    intro s i hf hj ha hij
    rw [scanLess]
    by_cases hle : i ≤ j
    · rw [if_pos hle]
      have hfst := lessAt_fst less key hless s i a (by omega) ha
      by_cases hlt : keyAt key s.1 i < keyAt key s.1 a
      · have h1 : (lessAt less s i a).1 = true := by rw [hfst]; simpa using hlt
        rw [h1, if_pos rfl]
        obtain ⟨e1, e2, e3, e4, e5, e6⟩ := ih (lessAt less s i a).2 (i + 1) (by omega)
          (by rw [lessAt_data]; exact hj) (by rw [lessAt_data]; exact ha) (by omega)
        rw [lessAt_data] at e1 e5 e6
        refine ⟨e1, (lessAt_ext less s i a).extTrans e2, by omega, e4, ?_, e6⟩
        intro p hp1 hp2
        by_cases hpi : p = i
        · subst hpi; exact hlt
        · exact e5 p (by omega) hp2
      · have h1 : (lessAt less s i a).1 = false := by rw [hfst]; simpa using hlt
        rw [h1, if_neg Bool.false_ne_true]
        refine ⟨lessAt_data .., lessAt_ext .., le_refl _, by omega, ?_, ?_⟩
        · intro p hp1 hp2; omega
        · intro _; simpa using hlt
    · rw [if_neg hle]
      refine ⟨rfl, Ext.extRefl s, le_refl _, by omega, ?_, ?_⟩
      · intro p h1 h2; omega
      · intro h; omega

theorem scanNotLess_spec (less : α → α → Bool) (key : α → Int)
    (hless : ∀ x y, less x y = decide (key x < key y)) (a i : Nat) (hi : 1 ≤ i) :
    ∀ (n : Nat) (s : SortState α) (j : Nat), j + 1 - i ≤ n → j < s.1.length →
      a < s.1.length → i ≤ j + 1 →
      (scanNotLess less a n s i j).2.1 = s.1 ∧ Ext s (scanNotLess less a n s i j).2 ∧
      (scanNotLess less a n s i j).1 ≤ j ∧ i ≤ (scanNotLess less a n s i j).1 + 1 ∧
      (∀ p, (scanNotLess less a n s i j).1 < p → p ≤ j →
        ¬ keyAt key s.1 p < keyAt key s.1 a) ∧
      (i ≤ (scanNotLess less a n s i j).1 →
        keyAt key s.1 (scanNotLess less a n s i j).1 < keyAt key s.1 a) := by
  intro n
  induction n with
  | zero =>
    intro s j hf hj ha hij
    rw [scanNotLess]
    refine ⟨rfl, Ext.extRefl s, le_refl _, by omega, ?_, ?_⟩
    · intro p h1 h2; omega
    · intro h; omega
  | succ n ih =>
    intro s j hf hj ha hij
    rw [scanNotLess]
    by_cases hle : i ≤ j
    · rw [if_pos hle]
      have hfst := lessAt_fst less key hless s j a hj ha
      by_cases hlt : keyAt key s.1 j < keyAt key s.1 a
      · have h1 : (lessAt less s j a).1 = true := by rw [hfst]; simpa using hlt
        rw [h1, if_pos rfl]
        refine ⟨lessAt_data .., lessAt_ext .., le_refl _, by omega, ?_, ?_⟩
        · intro p hp1 hp2; omega
        · intro _; exact hlt
      · have h1 : (lessAt less s j a).1 = false := by rw [hfst]; simpa using hlt
        rw [h1, if_neg Bool.false_ne_true]
        obtain ⟨e1, e2, e3, e4, e5, e6⟩ := ih (lessAt less s j a).2 (j - 1) (by omega)
          (by rw [lessAt_data]; omega) (by rw [lessAt_data]; exact ha) (by omega)
        rw [lessAt_data] at e1 e5 e6
        refine ⟨e1, (lessAt_ext less s j a).extTrans e2, by omega, e4, ?_, e6⟩
        intro p hp1 hp2
        by_cases hpj : p = j
        · subst hpj; exact hlt
        · exact e5 p hp1 (by omega)
    · rw [if_neg hle]
      refine ⟨rfl, Ext.extRefl s, le_refl _, by omega, ?_, ?_⟩
      · intro p h1 h2; omega
      · intro h; omega

theorem scanNotGreater_spec (less : α → α → Bool) (key : α → Int)
    (hless : ∀ x y, less x y = decide (key x < key y)) (a j : Nat) :
    ∀ (n : Nat) (s : SortState α) (i : Nat), j + 1 - i ≤ n → j < s.1.length →
      a < s.1.length → i ≤ j + 1 →
      (scanNotGreater less a n s i j).2.1 = s.1 ∧ Ext s (scanNotGreater less a n s i j).2 ∧
      i ≤ (scanNotGreater less a n s i j).1 ∧ (scanNotGreater less a n s i j).1 ≤ j + 1 ∧
      (∀ p, i ≤ p → p < (scanNotGreater less a n s i j).1 →
        ¬ keyAt key s.1 a < keyAt key s.1 p) ∧
      ((scanNotGreater less a n s i j).1 ≤ j →
        keyAt key s.1 a < keyAt key s.1 (scanNotGreater less a n s i j).1) := by
  intro n
  induction n with
  | zero =>
    intro s i hf hj ha hij
    rw [scanNotGreater]
    refine ⟨rfl, Ext.extRefl s, le_refl _, by omega, ?_, ?_⟩
    · intro p h1 h2; omega
    · intro h; omega
  | succ n ih =>
    intro s i hf hj ha hij
    rw [scanNotGreater]
    by_cases hle : i ≤ j
    · rw [if_pos hle]
      have hfst := lessAt_fst less key hless s a i ha (by omega)
      by_cases hlt : keyAt key s.1 a < keyAt key s.1 i
      · have h1 : (lessAt less s a i).1 = true := by rw [hfst]; simpa using hlt
        rw [h1, if_pos rfl]
        refine ⟨lessAt_data .., lessAt_ext .., le_refl _, by omega, ?_, ?_⟩
        · intro p hp1 hp2; omega
        · intro _; exact hlt
      · have h1 : (lessAt less s a i).1 = false := by rw [hfst]; simpa using hlt
        rw [h1, if_neg Bool.false_ne_true]
        obtain ⟨e1, e2, e3, e4, e5, e6⟩ := ih (lessAt less s a i).2 (i + 1) (by omega)
          (by rw [lessAt_data]; exact hj) (by rw [lessAt_data]; exact ha) (by omega)
        rw [lessAt_data] at e1 e5 e6
        refine ⟨e1, (lessAt_ext less s a i).extTrans e2, by omega, e4, ?_, e6⟩
        intro p hp1 hp2
        by_cases hpi : p = i
        · subst hpi; exact hlt
        · exact e5 p (by omega) hp2
    · rw [if_neg hle]
      refine ⟨rfl, Ext.extRefl s, le_refl _, by omega, ?_, ?_⟩
      · intro p h1 h2; omega
      · intro h; omega

theorem scanGreater_spec (less : α → α → Bool) (key : α → Int)
    (hless : ∀ x y, less x y = decide (key x < key y)) (a i : Nat) (hi : 1 ≤ i) :
    ∀ (n : Nat) (s : SortState α) (j : Nat), j + 1 - i ≤ n → j < s.1.length →
      a < s.1.length → i ≤ j + 1 →
      (scanGreater less a n s i j).2.1 = s.1 ∧ Ext s (scanGreater less a n s i j).2 ∧
      (scanGreater less a n s i j).1 ≤ j ∧ i ≤ (scanGreater less a n s i j).1 + 1 ∧
      (∀ p, (scanGreater less a n s i j).1 < p → p ≤ j →
        keyAt key s.1 a < keyAt key s.1 p) ∧
      (i ≤ (scanGreater less a n s i j).1 →
        ¬ keyAt key s.1 a < keyAt key s.1 (scanGreater less a n s i j).1) := by
  intro n
  induction n with
  | zero =>
    intro s j hf hj ha hij
    rw [scanGreater]
    refine ⟨rfl, Ext.extRefl s, le_refl _, by omega, ?_, ?_⟩
    · intro p h1 h2; omega
    · intro h; omega
  | succ n ih =>
    intro s j hf hj ha hij
    rw [scanGreater]
    by_cases hle : i ≤ j
    · rw [if_pos hle]
      have hfst := lessAt_fst less key hless s a j ha hj
      by_cases hlt : keyAt key s.1 a < keyAt key s.1 j
      · have h1 : (lessAt less s a j).1 = true := by rw [hfst]; simpa using hlt
        rw [h1, if_pos rfl]
        obtain ⟨e1, e2, e3, e4, e5, e6⟩ := ih (lessAt less s a j).2 (j - 1) (by omega)
          (by rw [lessAt_data]; omega) (by rw [lessAt_data]; exact ha) (by omega)
        rw [lessAt_data] at e1 e5 e6
        refine ⟨e1, (lessAt_ext less s a j).extTrans e2, by omega, e4, ?_, e6⟩
        intro p hp1 hp2
        by_cases hpj : p = j
        · subst hpj; exact hlt
        · exact e5 p hp1 (by omega)
      · have h1 : (lessAt less s a j).1 = false := by rw [hfst]; simpa using hlt
        rw [h1, if_neg Bool.false_ne_true]
        refine ⟨lessAt_data .., lessAt_ext .., le_refl _, by omega, ?_, ?_⟩
        · intro p hp1 hp2; omega
        · intro _; simpa using hlt
    · rw [if_neg hle]
      refine ⟨rfl, Ext.extRefl s, le_refl _, by omega, ?_, ?_⟩
      · intro p h1 h2; omega
      · intro h; omega

theorem partitionLoop_spec (less : α → α → Bool) (key : α → Int)
    (hless : ∀ x y, less x y = decide (key x < key y)) (a b : Nat) :
    ∀ (n : Nat) (s : SortState α) (i j : Nat), j + 1 - i ≤ n → a < i → i ≤ j + 1 → j < b →
      b ≤ s.1.length →
      (∀ p, a < p → p < i → keyAt key s.1 p < keyAt key s.1 a) →
      (∀ p, j < p → p < b → ¬ keyAt key s.1 p < keyAt key s.1 a) →
      a ≤ (partitionLoop less a n s i j).1 ∧ (partitionLoop less a n s i j).1 < b ∧
      Ext s (partitionLoop less a n s i j).2 ∧
      Within (a + 1) b s.1 (partitionLoop less a n s i j).2.1 ∧
      (∀ p, a < p → p ≤ (partitionLoop less a n s i j).1 →
        keyAt key (partitionLoop less a n s i j).2.1 p < keyAt key s.1 a) ∧
      (∀ p, (partitionLoop less a n s i j).1 < p → p < b →
        ¬ keyAt key (partitionLoop less a n s i j).2.1 p < keyAt key s.1 a) := by
  intro n
  induction n with
  | zero =>
    intro s i j hf hai hij hjb hb hlo hhi
    rw [partitionLoop]
    refine ⟨by omega, hjb, Ext.extRefl s, Within.withinRefl _ _ _, ?_, hhi⟩
    intro p hp1 hp2
    exact hlo p hp1 (by omega)
  | succ n ih =>
    intro s i j hf hai hij hjb hb hlo hhi
    rw [partitionLoop]
    have h1 := scanLess_spec less key hless a j (j + 1 - i) s i (le_refl _) (by omega)
      (by omega) hij
    rcases hs1 : scanLess less a (j + 1 - i) s i j with ⟨i1, s1⟩
    simp only
    rw [hs1] at h1
    obtain ⟨d1, x1, l1, u1, lo1, st1⟩ := h1
    simp only at d1 x1 l1 u1 lo1 st1
    have h2 := scanNotLess_spec less key hless a i1 (by omega) (j + 1 - i1) s1 j (le_refl _)
      (by rw [d1]; omega) (by rw [d1]; omega) u1
    rcases hs2 : scanNotLess less a (j + 1 - i1) s1 i1 j with ⟨j1, s2⟩
    rw [hs2] at h2
    obtain ⟨d2, x2, u2, l2, hi2, st2⟩ := h2
    simp only at d2 x2 u2 l2 hi2 st2
    rw [d1] at d2 hi2 st2
    simp only
    by_cases hgt : i1 > j1
    · rw [if_pos hgt]
      simp only
      rw [d2]
      refine ⟨by omega, by omega, x1.extTrans x2, Within.withinRefl _ _ _, ?_, ?_⟩
      · intro p hp1 hp2
        by_cases hpi : p < i
        · exact hlo p hp1 hpi
        · exact lo1 p (by omega) (by omega)
      · intro p hp1 hp2
        by_cases hpj : p ≤ j
        · exact hi2 p hp1 hpj
        · exact hhi p (by omega) hp2
    · rw [if_neg hgt]
      have hi1j : i1 ≤ j := by omega
      have hk1 := st1 hi1j
      have hk2 := st2 (by omega)
      have hne : i1 ≠ j1 := by
        intro h; rw [h] at hk1; exact hk1 hk2
      have hlt : i1 < j1 := by omega
      have hlen2 : s2.1.length = s.1.length := by rw [d2]
      have hkey : ∀ p, keyAt key (swapAt s2 i1 j1).1 p
          = if p = j1 then keyAt key s.1 i1 else if p = i1 then keyAt key s.1 j1
            else keyAt key s.1 p := by
        intro p
        rw [keyAt_swapAt key s2 i1 j1 p (by omega) (by omega), d2]
      have hka : keyAt key (swapAt s2 i1 j1).1 a = keyAt key s.1 a := by
        rw [hkey a, if_neg (by omega), if_neg (by omega)]
      have hrec := ih (swapAt s2 i1 j1) (i1 + 1) (j1 - 1) (by omega) (by omega) (by omega)
        (by omega) (by rw [swapAt_length, hlen2]; exact hb)
        (by
          intro p hp1 hp2
          rw [hka, hkey p, if_neg (by omega)]
          by_cases hpi1 : p = i1
          · rw [if_pos hpi1]; exact hk2
          · rw [if_neg hpi1]
            by_cases hpi : p < i
            · exact hlo p hp1 hpi
            · exact lo1 p (by omega) (by omega))
        (by
          intro p hp1 hp2
          rw [hka, hkey p]
          by_cases hpj1 : p = j1
          · rw [if_pos hpj1]; exact hk1
          · rw [if_neg hpj1, if_neg (by omega)]
            by_cases hpj : p ≤ j
            · exact hi2 p (by omega) hpj
            · exact hhi p (by omega) hp2)
      obtain ⟨r1, r2, r3, r4, r5, r6⟩ := hrec
      rw [hka] at r5 r6
      refine ⟨r1, r2, ((x1.extTrans x2).extTrans (swapAt_ext s2 i1 j1)).extTrans r3, ?_, r5, r6⟩
      have hw := swapAt_within s2 (a + 1) b i1 j1 (by omega) (by omega) (by omega) (by omega)
      rw [d2] at hw
      exact hw.withinTrans r4

/-- What `partition_func` establishes: the pivot ends at the returned index, with nothing
larger before it and nothing smaller after it inside `[a, b)`. -/
theorem partition_spec (less : α → α → Bool) (key : α → Int)
    (hless : ∀ x y, less x y = decide (key x < key y)) (s : SortState α) (a b pivot : Nat)
    (hap : a ≤ pivot) (hpb : pivot < b) (hb : b ≤ s.1.length) :
    a ≤ (partition less s a b pivot).1 ∧ (partition less s a b pivot).1 < b ∧
    Ext s (partition less s a b pivot).2.2 ∧
    Within a b s.1 (partition less s a b pivot).2.2.1 ∧
    (∀ p, a ≤ p → p < (partition less s a b pivot).1 →
      keyAt key (partition less s a b pivot).2.2.1 p
        ≤ keyAt key (partition less s a b pivot).2.2.1 (partition less s a b pivot).1) ∧
    (∀ p, (partition less s a b pivot).1 < p → p < b →
      keyAt key (partition less s a b pivot).2.2.1 (partition less s a b pivot).1
        ≤ keyAt key (partition less s a b pivot).2.2.1 p) := by
  unfold partition
  have hlen0 : (swapAt s a pivot).1.length = s.1.length := swapAt_length s a pivot
  have hw0 : Within a b s.1 (swapAt s a pivot).1 :=
    swapAt_within s a b a pivot (le_refl _) (by omega) hap hpb
  have h1 := scanLess_spec less key hless a (b - 1) (b - a) (swapAt s a pivot) (a + 1)
    (by omega) (by omega) (by omega) (by omega)
  rcases hs1 : scanLess less a (b - a) (swapAt s a pivot) (a + 1) (b - 1) with ⟨i1, s1⟩
  simp only
  rw [hs1] at h1
  obtain ⟨d1, x1, l1, u1, lo1, st1⟩ := h1
  simp only at d1 x1 l1 u1 lo1 st1
  have h2 := scanNotLess_spec less key hless a i1 (by omega) (b - a) s1 (b - 1) (by omega)
    (by rw [d1]; omega) (by rw [d1]; omega) u1
  rcases hs2 : scanNotLess less a (b - a) s1 i1 (b - 1) with ⟨j1, s2⟩
  rw [hs2] at h2
  obtain ⟨d2, x2, u2, l2, hi2, st2⟩ := h2
  simp only at d2 x2 u2 l2 hi2 st2
  rw [d1] at d2 hi2 st2
  simp only
  have hx02 : Ext s s2 := ((swapAt_ext s a pivot).extTrans x1).extTrans x2
  by_cases hgt : i1 > j1
  · rw [if_pos hgt]
    simp only
    have hkey : ∀ p, keyAt key (swapAt s2 j1 a).1 p
        = if p = a then keyAt key (swapAt s a pivot).1 j1
          else if p = j1 then keyAt key (swapAt s a pivot).1 a
          else keyAt key (swapAt s a pivot).1 p := by
      intro p
      rw [keyAt_swapAt key s2 j1 a p (by rw [d2]; omega) (by rw [d2]; omega), d2]
    refine ⟨by omega, by omega, hx02.extTrans (swapAt_ext s2 j1 a), ?_, ?_, ?_⟩
    · have hw := swapAt_within s2 a b j1 a (by omega) (by omega) (le_refl _) (by omega)
      rw [d2] at hw
      exact hw0.withinTrans hw
    · intro p hp1 hp2
      have hja : j1 ≠ a := by omega
      have e2 : keyAt key (swapAt s2 j1 a).1 j1 = keyAt key (swapAt s a pivot).1 a := by
        rw [hkey j1, if_neg hja, if_pos rfl]
      rw [e2, hkey p]
      by_cases hpa : p = a
      · rw [if_pos hpa]
        exact le_of_lt (lo1 j1 (by omega) (by omega))
      · rw [if_neg hpa, if_neg (by omega)]
        exact le_of_lt (lo1 p (by omega) (by omega))
    · intro p hp1 hp2
      have e1 : keyAt key (swapAt s2 j1 a).1 p = keyAt key (swapAt s a pivot).1 p := by
        rw [hkey p, if_neg (by omega), if_neg (by omega)]
      have e2 : keyAt key (swapAt s2 j1 a).1 j1 = keyAt key (swapAt s a pivot).1 a := by
        rw [hkey j1]
        by_cases hja : j1 = a
        · rw [if_pos hja, hja]
        · rw [if_neg hja, if_pos rfl]
      rw [e1, e2]
      have := hi2 p hp1 (by omega)
      omega
  · rw [if_neg hgt]
    have hi1j : i1 ≤ b - 1 := by omega
    have hk1 := st1 hi1j
    have hk2 := st2 (by omega)
    have hne : i1 ≠ j1 := by
      intro h; rw [h] at hk1; exact hk1 hk2
    have hlt : i1 < j1 := by omega
    have hkey : ∀ p, keyAt key (swapAt s2 i1 j1).1 p
        = if p = j1 then keyAt key (swapAt s a pivot).1 i1
          else if p = i1 then keyAt key (swapAt s a pivot).1 j1
          else keyAt key (swapAt s a pivot).1 p := by
      intro p
      rw [keyAt_swapAt key s2 i1 j1 p (by rw [d2]; omega) (by rw [d2]; omega), d2]
    have hka : keyAt key (swapAt s2 i1 j1).1 a = keyAt key (swapAt s a pivot).1 a := by
      rw [hkey a, if_neg (by omega), if_neg (by omega)]
    have hrec := partitionLoop_spec less key hless a b (b - a) (swapAt s2 i1 j1) (i1 + 1)
      (j1 - 1) (by omega) (by omega) (by omega) (by omega)
      (by rw [swapAt_length, d2, hlen0]; exact hb)
      (by
        intro p hp1 hp2
        rw [hka, hkey p, if_neg (by omega)]
        by_cases hpi1 : p = i1
        · rw [if_pos hpi1]; exact hk2
        · rw [if_neg hpi1]
          exact lo1 p (by omega) (by omega))
      (by
        intro p hp1 hp2
        rw [hka, hkey p]
        by_cases hpj1 : p = j1
        · rw [if_pos hpj1]; exact hk1
        · rw [if_neg hpj1, if_neg (by omega)]
          exact hi2 p (by omega) (by omega))
    rcases hs3 : partitionLoop less a (b - a) (swapAt s2 i1 j1) (i1 + 1) (j1 - 1)
      with ⟨j2, s3⟩
    rw [hs3] at hrec
    obtain ⟨r1, r2, r3, r4, r5, r6⟩ := hrec
    simp only at r1 r2 r3 r4 r5 r6
    rw [hka] at r5 r6
    simp only
    have hlen3 : s3.1.length = s.1.length := by
      rw [r4.1, swapAt_length, d2, hlen0]
    have hka3 : keyAt key s3.1 a = keyAt key (swapAt s a pivot).1 a := by
      rw [r4.keyAt_outside key a (by omega), hka]
    have hkey3 : ∀ p, keyAt key (swapAt s3 j2 a).1 p
        = if p = a then keyAt key s3.1 j2 else if p = j2 then keyAt key s3.1 a
          else keyAt key s3.1 p := by
      intro p
      rw [keyAt_swapAt key s3 j2 a p (by omega) (by omega)]
    refine ⟨r1, r2, ((hx02.extTrans (swapAt_ext s2 i1 j1)).extTrans r3).extTrans (swapAt_ext s3 j2 a),
      ?_, ?_, ?_⟩
    · have hw1 := swapAt_within s2 a b i1 j1 (by omega) (by omega) (by omega) (by omega)
      rw [d2] at hw1
      have hw2 := swapAt_within s3 a b j2 a r1 r2 (le_refl _) (by omega)
      exact ((hw0.withinTrans hw1).withinTrans (r4.mono (by omega) (le_refl _))).withinTrans hw2
    · intro p hp1 hp2
      have hja : j2 ≠ a := by omega
      have e2 : keyAt key (swapAt s3 j2 a).1 j2 = keyAt key (swapAt s a pivot).1 a := by
        rw [hkey3 j2, if_neg hja, if_pos rfl, hka3]
      rw [e2, hkey3 p]
      by_cases hpa : p = a
      · rw [if_pos hpa]
        exact le_of_lt (r5 j2 (by omega) (le_refl _))
      · rw [if_neg hpa, if_neg (by omega)]
        exact le_of_lt (r5 p (by omega) (by omega))
    · intro p hp1 hp2
      have e1 : keyAt key (swapAt s3 j2 a).1 p = keyAt key s3.1 p := by
        rw [hkey3 p, if_neg (by omega), if_neg (by omega)]
      have e2 : keyAt key (swapAt s3 j2 a).1 j2 = keyAt key (swapAt s a pivot).1 a := by
        rw [hkey3 j2]
        by_cases hja : j2 = a
        · rw [if_pos hja, hja, hka3]
        · rw [if_neg hja, if_pos rfl, hka3]
      rw [e1, e2]
      have := r6 p hp1 hp2
      omega

theorem partitionEqualLoop_spec (less : α → α → Bool) (key : α → Int)
    (hless : ∀ x y, less x y = decide (key x < key y)) (a b : Nat) :
    ∀ (n : Nat) (s : SortState α) (i j : Nat), j + 1 - i ≤ n → a < i → i ≤ j + 1 → j < b →
      b ≤ s.1.length →
      (∀ p, a < p → p < i → ¬ keyAt key s.1 a < keyAt key s.1 p) →
      (∀ p, j < p → p < b → keyAt key s.1 a < keyAt key s.1 p) →
      a < (partitionEqualLoop less a n s i j).1 ∧ (partitionEqualLoop less a n s i j).1 ≤ b ∧
      Ext s (partitionEqualLoop less a n s i j).2 ∧
      Within (a + 1) b s.1 (partitionEqualLoop less a n s i j).2.1 ∧
      (∀ p, a < p → p < (partitionEqualLoop less a n s i j).1 →
        ¬ keyAt key s.1 a < keyAt key (partitionEqualLoop less a n s i j).2.1 p) ∧
      (∀ p, (partitionEqualLoop less a n s i j).1 ≤ p → p < b →
        keyAt key s.1 a < keyAt key (partitionEqualLoop less a n s i j).2.1 p) := by
  intro n
  induction n with
  | zero =>
    intro s i j hf hai hij hjb hb hlo hhi
    rw [partitionEqualLoop]
    refine ⟨hai, by omega, Ext.extRefl s, Within.withinRefl _ _ _, hlo, ?_⟩
    intro p hp1 hp2
    exact hhi p (by omega) hp2
  | succ n ih =>
    intro s i j hf hai hij hjb hb hlo hhi
    rw [partitionEqualLoop]
    have h1 := scanNotGreater_spec less key hless a j (j + 1 - i) s i (le_refl _) (by omega)
      (by omega) hij
    rcases hs1 : scanNotGreater less a (j + 1 - i) s i j with ⟨i1, s1⟩
    simp only
    rw [hs1] at h1
    obtain ⟨d1, x1, l1, u1, lo1, st1⟩ := h1
    simp only at d1 x1 l1 u1 lo1 st1
    have h2 := scanGreater_spec less key hless a i1 (by omega) (j + 1 - i1) s1 j (le_refl _)
      (by rw [d1]; omega) (by rw [d1]; omega) u1
    rcases hs2 : scanGreater less a (j + 1 - i1) s1 i1 j with ⟨j1, s2⟩
    rw [hs2] at h2
    obtain ⟨d2, x2, u2, l2, hi2, st2⟩ := h2
    simp only at d2 x2 u2 l2 hi2 st2
    rw [d1] at d2 hi2 st2
    simp only
    by_cases hgt : i1 > j1
    · rw [if_pos hgt]
      simp only
      rw [d2]
      refine ⟨by omega, by omega, x1.extTrans x2, Within.withinRefl _ _ _, ?_, ?_⟩
      · intro p hp1 hp2
        by_cases hpi : p < i
        · exact hlo p hp1 hpi
        · exact lo1 p (by omega) (by omega)
      · intro p hp1 hp2
        by_cases hpj : p ≤ j
        · exact hi2 p (by omega) hpj
        · exact hhi p (by omega) hp2
    · rw [if_neg hgt]
      have hi1j : i1 ≤ j := by omega
      have hk1 := st1 hi1j
      have hk2 := st2 (by omega)
      have hne : i1 ≠ j1 := by
        intro h; rw [h] at hk1; exact hk2 hk1
      have hlt : i1 < j1 := by omega
      have hlen2 : s2.1.length = s.1.length := by rw [d2]
      have hkey : ∀ p, keyAt key (swapAt s2 i1 j1).1 p
          = if p = j1 then keyAt key s.1 i1 else if p = i1 then keyAt key s.1 j1
            else keyAt key s.1 p := by
        intro p
        rw [keyAt_swapAt key s2 i1 j1 p (by omega) (by omega), d2]
      have hka : keyAt key (swapAt s2 i1 j1).1 a = keyAt key s.1 a := by
        rw [hkey a, if_neg (by omega), if_neg (by omega)]
      have hrec := ih (swapAt s2 i1 j1) (i1 + 1) (j1 - 1) (by omega) (by omega) (by omega)
        (by omega) (by rw [swapAt_length, hlen2]; exact hb)
        (by
          intro p hp1 hp2
          rw [hka, hkey p, if_neg (by omega)]
          by_cases hpi1 : p = i1
          · rw [if_pos hpi1]; exact hk2
          · rw [if_neg hpi1]
            by_cases hpi : p < i
            · exact hlo p hp1 hpi
            · exact lo1 p (by omega) (by omega))
        (by
          intro p hp1 hp2
          rw [hka, hkey p]
          by_cases hpj1 : p = j1
          · rw [if_pos hpj1]; exact hk1
          · rw [if_neg hpj1, if_neg (by omega)]
            by_cases hpj : p ≤ j
            · exact hi2 p (by omega) hpj
            · exact hhi p (by omega) hp2)
      obtain ⟨r1, r2, r3, r4, r5, r6⟩ := hrec
      rw [hka] at r5 r6
      refine ⟨by omega, r2, ((x1.extTrans x2).extTrans (swapAt_ext s2 i1 j1)).extTrans r3, ?_, r5, r6⟩
      have hw := swapAt_within s2 (a + 1) b i1 j1 (by omega) (by omega) (by omega) (by omega)
      rw [d2] at hw
      exact hw.withinTrans r4

/-- What `partitionEqual_func` establishes: up to the returned index nothing is above the
pivot, from it on everything is. -/
theorem partitionEqual_spec (less : α → α → Bool) (key : α → Int)
    (hless : ∀ x y, less x y = decide (key x < key y)) (s : SortState α) (a b pivot : Nat)
    (hap : a ≤ pivot) (hpb : pivot < b) (hb : b ≤ s.1.length) :
    a < (partitionEqual less s a b pivot).1 ∧ (partitionEqual less s a b pivot).1 ≤ b ∧
    Ext s (partitionEqual less s a b pivot).2 ∧
    Within a b s.1 (partitionEqual less s a b pivot).2.1 ∧
    (∀ p, a ≤ p → p < (partitionEqual less s a b pivot).1 →
      keyAt key (partitionEqual less s a b pivot).2.1 p ≤ keyAt key s.1 pivot) ∧
    (∀ p, (partitionEqual less s a b pivot).1 ≤ p → p < b →
      keyAt key s.1 pivot < keyAt key (partitionEqual less s a b pivot).2.1 p) := by
  unfold partitionEqual
  have hlen0 : (swapAt s a pivot).1.length = s.1.length := swapAt_length s a pivot
  have hw0 : Within a b s.1 (swapAt s a pivot).1 :=
    swapAt_within s a b a pivot (le_refl _) (by omega) hap hpb
  have hka0 : keyAt key (swapAt s a pivot).1 a = keyAt key s.1 pivot := by
    rw [keyAt_swapAt key s a pivot a (by omega) (by omega)]
    by_cases h : a = pivot
    · rw [if_pos h, h]
    · rw [if_neg h, if_pos rfl]
  have hrec := partitionEqualLoop_spec less key hless a b (b - a) (swapAt s a pivot) (a + 1)
    (b - 1) (by omega) (by omega) (by omega) (by omega) (by rw [hlen0]; exact hb)
    (by intro p hp1 hp2; omega) (by intro p hp1 hp2; omega)
  obtain ⟨r1, r2, r3, r4, r5, r6⟩ := hrec
  rw [hka0] at r5 r6
  refine ⟨r1, r2, (swapAt_ext s a pivot).extTrans r3,
    hw0.withinTrans (r4.mono (by omega) (le_refl _)), ?_, r6⟩
  intro p hp1 hp2
  by_cases hpa : p = a
  · rw [hpa, r4.keyAt_outside key a (by omega), hka0]
  · exact not_lt.mp (r5 p (by omega) hp2)

/-! ### Choosing the pivot -/

theorem order2_spec (less : α → α → Bool) (s : SortState α) (a b swaps : Nat) :
    ((order2 less s a b swaps).1 = a ∨ (order2 less s a b swaps).1 = b) ∧
    ((order2 less s a b swaps).2.1 = a ∨ (order2 less s a b swaps).2.1 = b) ∧
    (order2 less s a b swaps).2.2.2.1 = s.1 ∧ Ext s (order2 less s a b swaps).2.2.2 := by
  unfold order2
  split
  · exact ⟨Or.inr rfl, Or.inl rfl, lessAt_data .., lessAt_ext ..⟩
  · exact ⟨Or.inl rfl, Or.inr rfl, lessAt_data .., lessAt_ext ..⟩

theorem median_spec (less : α → α → Bool) (s : SortState α) (a b c swaps : Nat) :
    ((median less s a b c swaps).1 = a ∨ (median less s a b c swaps).1 = b
      ∨ (median less s a b c swaps).1 = c) ∧
    (median less s a b c swaps).2.2.1 = s.1 ∧ Ext s (median less s a b c swaps).2.2 := by
  unfold median
  have h1 := order2_spec less s a b swaps
  rcases ho1 : order2 less s a b swaps with ⟨a1, b1, sw1, s1⟩
  rw [ho1] at h1
  simp only at h1 ⊢
  have h2 := order2_spec less s1 b1 c sw1
  rcases ho2 : order2 less s1 b1 c sw1 with ⟨b2, c2, sw2, s2⟩
  rw [ho2] at h2
  simp only at h2 ⊢
  have h3 := order2_spec less s2 a1 b2 sw2
  rcases ho3 : order2 less s2 a1 b2 sw2 with ⟨a3, b3, sw3, s3⟩
  rw [ho3] at h3
  simp only at h3 ⊢
  obtain ⟨p1, q1, d1, x1⟩ := h1
  obtain ⟨p2, q2, d2, x2⟩ := h2
  obtain ⟨p3, q3, d3, x3⟩ := h3
  refine ⟨?_, by rw [d3, d2, d1], (x1.extTrans x2).extTrans x3⟩
  rcases q3 with h | h <;> rcases p1 with hd2 | hd2 <;> rcases p2 with hd3 | hd3 <;>
    rcases q1 with hd4 | hd4 <;> subst_vars <;> simp

theorem medianAdjacent_spec (less : α → α → Bool) (s : SortState α) (a swaps : Nat) :
    ((medianAdjacent less s a swaps).1 = a - 1 ∨ (medianAdjacent less s a swaps).1 = a
      ∨ (medianAdjacent less s a swaps).1 = a + 1) ∧
    (medianAdjacent less s a swaps).2.2.1 = s.1 ∧ Ext s (medianAdjacent less s a swaps).2.2 :=
  median_spec less s (a - 1) a (a + 1) swaps

/-- The pivot `choosePivot_func` returns lies in `[a, b)`, and the slice is left as it was. -/
theorem choosePivot_spec (less : α → α → Bool) (s : SortState α) (a b : Nat)
    (hab : 12 < b - a) :
    a ≤ (choosePivot less s a b).1 ∧ (choosePivot less s a b).1 < b ∧
    (choosePivot less s a b).2.2.1 = s.1 ∧ Ext s (choosePivot less s a b).2.2 := by
  unfold choosePivot
  dsimp only
  rw [if_pos (by omega : b - a ≥ 8)]
  have hq : 3 ≤ (b - a) / 4 := by omega
  have hq2 : (b - a) / 4 * 4 ≤ b - a := Nat.div_mul_le_self _ _
  by_cases h50 : b - a ≥ 50
  · rw [if_pos h50]
    have hq3 : 12 ≤ (b - a) / 4 := by omega
    have h1 := medianAdjacent_spec less s (a + (b - a) / 4 * 1) 0
    generalize medianAdjacent less s (a + (b - a) / 4 * 1) 0 = m1 at h1 ⊢
    have h2 := medianAdjacent_spec less m1.2.2 (a + (b - a) / 4 * 2) m1.2.1
    generalize medianAdjacent less m1.2.2 (a + (b - a) / 4 * 2) m1.2.1 = m2 at h2 ⊢
    have h3 := medianAdjacent_spec less m2.2.2 (a + (b - a) / 4 * 3) m2.2.1
    generalize medianAdjacent less m2.2.2 (a + (b - a) / 4 * 3) m2.2.1 = m3 at h3 ⊢
    have h4 := median_spec less m3.2.2 m1.1 m2.1 m3.1 m3.2.1
    generalize median less m3.2.2 m1.1 m2.1 m3.1 m3.2.1 = m4 at h4 ⊢
    obtain ⟨p1, d1, x1⟩ := h1
    obtain ⟨p2, d2, x2⟩ := h2
    obtain ⟨p3, d3, x3⟩ := h3
    obtain ⟨p4, d4, x4⟩ := h4
    refine ⟨?_, ?_, by rw [d4, d3, d2, d1], ((x1.extTrans x2).extTrans x3).extTrans x4⟩
    · rcases p4 with h | h | h <;> rw [h] <;> omega
    · rcases p4 with h | h | h <;> rw [h] <;> omega
  · rw [if_neg h50]
    have h4 := median_spec less s (a + (b - a) / 4 * 1) (a + (b - a) / 4 * 2)
      (a + (b - a) / 4 * 3) 0
    generalize median less s (a + (b - a) / 4 * 1) (a + (b - a) / 4 * 2)
      (a + (b - a) / 4 * 3) 0 = m4 at h4 ⊢
    obtain ⟨p4, d4, x4⟩ := h4
    refine ⟨?_, ?_, d4, x4⟩
    · rcases p4 with h | h | h <;> rw [h] <;> omega
    · rcases p4 with h | h | h <;> rw [h] <;> omega

/-! ### Reversing and scattering -/

theorem reverseLoop_spec (a b : Nat) :
    ∀ (n : Nat) (s : SortState α) (i j : Nat), a ≤ i → j < b →
      Ext s (reverseLoop n s i j) ∧ Within a b s.1 (reverseLoop n s i j).1 := by
  intro n
  induction n with
  | zero =>
    intro s i j hi hj
    rw [reverseLoop]
    exact ⟨Ext.extRefl s, Within.withinRefl _ _ _⟩
  | succ n ih =>
    intro s i j hi hj
    rw [reverseLoop]
    by_cases hij : i < j
    · rw [if_pos hij]
      obtain ⟨x, w⟩ := ih (swapAt s i j) (i + 1) (j - 1) (by omega) (by omega)
      exact ⟨(swapAt_ext s i j).extTrans x,
        (swapAt_within s a b i j hi (by omega) (by omega) hj).withinTrans w⟩
    · rw [if_neg hij]
      exact ⟨Ext.extRefl s, Within.withinRefl _ _ _⟩

theorem reverseRange_spec (s : SortState α) (a b : Nat) (hab : a < b) :
    Ext s (reverseRange s a b) ∧ Within a b s.1 (reverseRange s a b).1 :=
  reverseLoop_spec a b (b - a) s a (b - 1) (le_refl _) (by omega)

theorem two_pow_bitsLen_le (n : Nat) (hn : n ≠ 0) : 2 ^ bitsLen n ≤ 2 * n := by
  unfold bitsLen
  rw [if_neg hn, pow_succ]
  have := Nat.log2_self_le hn
  omega

theorem breakIndex_lt (length r : Nat) (hn : length ≠ 0) : breakIndex length r < length := by
  unfold breakIndex
  have h1 : r % 2 ^ bitsLen length < 2 ^ bitsLen length :=
    Nat.mod_lt _ (by positivity)
  have h2 := two_pow_bitsLen_le length hn
  split <;> omega

theorem breakPatterns_spec (s : SortState α) (a b : Nat) :
    Ext s (breakPatterns s a b) ∧ Within a b s.1 (breakPatterns s a b).1 := by
  unfold breakPatterns
  by_cases h8 : b - a ≥ 8
  · rw [if_pos h8]
    simp only
    have hq : 2 ≤ (b - a) / 4 := by omega
    have hq2 : (b - a) / 4 * 4 ≤ b - a := Nat.div_mul_le_self _ _
    have i1 := breakIndex_lt (b - a) (xorshiftNext (b - a)) (by omega)
    have i2 := breakIndex_lt (b - a) (xorshiftNext (xorshiftNext (b - a))) (by omega)
    have i3 := breakIndex_lt (b - a) (xorshiftNext (xorshiftNext (xorshiftNext (b - a))))
      (by omega)
    refine ⟨((swapAt_ext _ _ _).extTrans (swapAt_ext _ _ _)).extTrans (swapAt_ext _ _ _), ?_⟩
    exact ((swapAt_within _ a b _ _ (by omega) (by omega) (by omega) (by omega)).withinTrans
      (swapAt_within _ a b _ _ (by omega) (by omega) (by omega) (by omega))).withinTrans
      (swapAt_within _ a b _ _ (by omega) (by omega) (by omega) (by omega))
  · rw [if_neg h8]
    exact ⟨Ext.extRefl s, Within.withinRefl _ _ _⟩

/-! ### `partialInsertionSort_func` -/

theorem scanOrdered_spec (less : α → α → Bool) (key : α → Int)
    (hless : ∀ x y, less x y = decide (key x < key y)) (b : Nat) :
    ∀ (n : Nat) (s : SortState α) (i : Nat), b - i ≤ n → 1 ≤ i → i ≤ b → b ≤ s.1.length →
      (scanOrdered less b n s i).2.1 = s.1 ∧ Ext s (scanOrdered less b n s i).2 ∧
      i ≤ (scanOrdered less b n s i).1 ∧ (scanOrdered less b n s i).1 ≤ b ∧
      (∀ p, i ≤ p → p < (scanOrdered less b n s i).1 →
        keyAt key s.1 (p - 1) ≤ keyAt key s.1 p) ∧
      ((scanOrdered less b n s i).1 < b →
        keyAt key s.1 (scanOrdered less b n s i).1
          < keyAt key s.1 ((scanOrdered less b n s i).1 - 1)) := by
  intro n
  induction n with
  | zero =>
    intro s i hf h1 hib hb
    rw [scanOrdered]
    refine ⟨rfl, Ext.extRefl s, le_refl _, hib, ?_, ?_⟩
    · intro p h1 h2; omega
    · intro h; omega
  | succ n ih =>
    intro s i hf h1 hib hb
    rw [scanOrdered]
    by_cases hlt : i < b
    · rw [if_pos hlt]
      have hfst := lessAt_fst less key hless s i (i - 1) (by omega) (by omega)
      by_cases hk : keyAt key s.1 i < keyAt key s.1 (i - 1)
      · have h1 : (lessAt less s i (i - 1)).1 = true := by rw [hfst]; simpa using hk
        rw [h1, if_pos rfl]
        refine ⟨lessAt_data .., lessAt_ext .., le_refl _, hib, ?_, ?_⟩
        · intro p hp1 hp2; omega
        · intro _; exact hk
      · have h1 : (lessAt less s i (i - 1)).1 = false := by rw [hfst]; simpa using hk
        rw [h1, if_neg Bool.false_ne_true]
        obtain ⟨e1, e2, e3, e4, e5, e6⟩ := ih (lessAt less s i (i - 1)).2 (i + 1) (by omega)
          (by omega) (by omega) (by rw [lessAt_data]; exact hb)
        rw [lessAt_data] at e1 e5 e6
        refine ⟨e1, (lessAt_ext less s i (i - 1)).extTrans e2, by omega, e4, ?_, e6⟩
        intro p hp1 hp2
        by_cases hpi : p = i
        · subst hpi; exact not_lt.mp hk
        · exact e5 p (by omega) hp2
    · rw [if_neg hlt]
      refine ⟨rfl, Ext.extRefl s, le_refl _, hib, ?_, ?_⟩
      · intro p h1 h2; omega
      · intro h; omega

theorem sortedOn_extend (key : α → Int) (d : List α) (a i i1 : Nat)
    (hs : SortedOn key a i d)
    (hadj : ∀ p, i ≤ p → p < i1 → keyAt key d (p - 1) ≤ keyAt key d p) :
    SortedOn key a i1 d := by
  have hadj2 : ∀ p, a < p → p < i1 → keyAt key d (p - 1) ≤ keyAt key d p := by
    intro p hp1 hp2
    by_cases hpi : p < i
    · exact hs (p - 1) p (by omega) (by omega) hpi
    · exact hadj p (by omega) hp2
  intro p q hp hpq hq
  induction q with
  | zero => omega
  | succ q ih =>
    by_cases hpq2 : p = q
    · subst hpq2
      have := hadj2 (p + 1) (by omega) hq
      simpa using this
    · have h1 := ih (by omega) (by omega)
      have h2 := hadj2 (q + 1) (by omega) hq
      simp only [Nat.add_sub_cancel] at h2
      exact le_trans h1 h2

theorem Within.sortedOn_outside (key : α → Int) {a b c e : Nat} {d t : List α}
    (h : Within a b d t) (hs : SortedOn key c e d) (hdisj : e ≤ a ∨ b ≤ c) :
    SortedOn key c e t := by
  intro p q hp hpq hq
  rw [h.keyAt_outside key p (by omega), h.keyAt_outside key q (by omega)]
  exact hs p q hp hpq hq

theorem shiftLeft_spec (less : α → α → Bool) (key : α → Int)
    (hless : ∀ x y, less x y = decide (key x < key y)) (a m : Nat) :
    ∀ (j : Nat) (s : SortState α), a ≤ j → j ≤ m → m < s.1.length →
      LowerBound key a (m + 1) s.1 → ShiftInv key a m j s.1 →
      Ext s (shiftLeft less j s) ∧ Within a (m + 1) s.1 (shiftLeft less j s).1 ∧
      SortedOn key a (m + 1) (shiftLeft less j s).1 := by
  intro j
  induction j with
  | zero =>
    intro s haj hjm hm hlb hinv
    rw [shiftLeft]
    have ha : a = 0 := by omega
    subst ha
    exact ⟨Ext.extRefl s, Within.withinRefl _ _ _, hinv.2.1⟩
  | succ j ih =>
    intro s haj hjm hm hlb hinv
    rw [shiftLeft]
    obtain ⟨hs1, hs2, hs3⟩ := hinv
    have hfst := lessAt_fst less key hless s (j + 1) j (by omega) (by omega)
    by_cases hk : keyAt key s.1 (j + 1) < keyAt key s.1 j
    · have h1 : (lessAt less s (j + 1) j).1 = true := by rw [hfst]; simpa using hk
      rw [h1, if_pos rfl]
      have haj2 : a ≤ j := by
        by_contra hc
        have hja : a = j + 1 := by omega
        have := hlb (j + 1) (by omega) (by omega) (by omega)
        rw [hja] at this
        simp only [Nat.add_sub_cancel] at this
        omega
      have hd : (lessAt less s (j + 1) j).2.1 = s.1 := lessAt_data ..
      have hkey : ∀ p, keyAt key (swapAt (lessAt less s (j + 1) j).2 (j + 1) j).1 p
          = if p = j then keyAt key s.1 (j + 1) else if p = j + 1 then keyAt key s.1 j
            else keyAt key s.1 p := by
        intro p
        rw [keyAt_swapAt key _ (j + 1) j p (by rw [hd]; omega) (by rw [hd]; omega), hd]
      have hw : Within a (m + 1) s.1 (swapAt (lessAt less s (j + 1) j).2 (j + 1) j).1 := by
        have := swapAt_within (lessAt less s (j + 1) j).2 a (m + 1) (j + 1) j (by omega)
          (by omega) haj2 (by omega)
        rw [hd] at this
        exact this
      have hkj : keyAt key (swapAt (lessAt less s (j + 1) j).2 (j + 1) j).1 j
          = keyAt key s.1 (j + 1) := by rw [hkey j, if_pos rfl]
      have hkj1 : keyAt key (swapAt (lessAt less s (j + 1) j).2 (j + 1) j).1 (j + 1)
          = keyAt key s.1 j := by rw [hkey (j + 1), if_neg (by omega), if_pos rfl]
      have hko : ∀ p, p ≠ j → p ≠ j + 1 →
          keyAt key (swapAt (lessAt less s (j + 1) j).2 (j + 1) j).1 p = keyAt key s.1 p := by
        intro p h1 h2
        rw [hkey p, if_neg h1, if_neg h2]
      have hrec := ih (swapAt (lessAt less s (j + 1) j).2 (j + 1) j) haj2 (by omega)
        (by rw [swapAt_length, hd]; exact hm) (hw.lowerBound key hlb)
        ⟨by
          intro p q hp hpq hq
          rw [hko p (by omega) (by omega), hko q (by omega) (by omega)]
          exact hs1 p q hp hpq (by omega),
         by
          intro p q hp hpq hq
          by_cases hpj : p = j
          · subst hpj
            rw [hkj]
            by_cases hqj : q = p + 1
            · subst hqj
              rw [hkj1]; exact le_of_lt hk
            · rw [hko q (by omega) hqj]
              exact hs2 (p + 1) q (le_refl _) (by omega) hq
          · by_cases hpj1 : p = j + 1
            · subst hpj1
              rw [hkj1, hko q (by omega) (by omega)]
              exact hs3 j q haj2 (by omega) (by omega) (by omega)
            · rw [hko p hpj hpj1, hko q (by omega) (by omega)]
              exact hs2 p q (by omega) hpq hq,
         by
          intro p q hp hpj hjq hqm
          rw [hko p (by omega) (by omega)]
          by_cases hqj1 : q = j + 1
          · subst hqj1
            rw [hkj1]
            exact hs1 p j hp hpj (by omega)
          · rw [hko q (by omega) hqj1]
            exact hs3 p q hp (by omega) (by omega) hqm⟩
      obtain ⟨r1, r2, r3⟩ := hrec
      exact ⟨((lessAt_ext less s (j + 1) j).extTrans (swapAt_ext _ _ _)).extTrans r1,
        hw.withinTrans r2, r3⟩
    · have h1 : (lessAt less s (j + 1) j).1 = false := by rw [hfst]; simpa using hk
      rw [h1, if_neg Bool.false_ne_true, lessAt_data]
      refine ⟨lessAt_ext .., Within.withinRefl _ _ _, ?_⟩
      intro p q hp hpq hq
      by_cases hq1 : q < j + 1
      · exact hs1 p q hp hpq hq1
      · by_cases hp1 : j + 1 ≤ p
        · exact hs2 p q hp1 hpq hq
        · by_cases hqj : q = j + 1
          · rw [hqj]
            by_cases hpj : p = j
            · rw [hpj]; exact not_lt.mp hk
            · exact le_trans (hs1 p j hp (by omega) (by omega)) (not_lt.mp hk)
          · exact hs3 p q hp (by omega) (by omega) (by omega)

theorem shiftRight_spec (less : α → α → Bool) (lo b : Nat) :
    ∀ (n : Nat) (s : SortState α) (j : Nat), lo < j →
      Ext s (shiftRight less b n s j) ∧ Within lo b s.1 (shiftRight less b n s j).1 := by
  intro n
  induction n with
  | zero =>
    intro s j hj
    rw [shiftRight]
    exact ⟨Ext.extRefl s, Within.withinRefl _ _ _⟩
  | succ n ih =>
    intro s j hj
    rw [shiftRight]
    by_cases hjb : j < b
    · rw [if_pos hjb]
      by_cases h1 : (lessAt less s j (j - 1)).1 = true
      · rw [if_pos h1]
        obtain ⟨r1, r2⟩ := ih (swapAt (lessAt less s j (j - 1)).2 j (j - 1)) (j + 1) (by omega)
        have hw := swapAt_within (lessAt less s j (j - 1)).2 lo b j (j - 1) (by omega) hjb
          (by omega) (by omega)
        rw [lessAt_data] at hw
        exact ⟨((lessAt_ext less s j (j - 1)).extTrans (swapAt_ext _ _ _)).extTrans r1, hw.withinTrans r2⟩
      · rw [if_neg h1, lessAt_data]
        exact ⟨lessAt_ext .., Within.withinRefl _ _ _⟩
    · rw [if_neg hjb]
      exact ⟨Ext.extRefl s, Within.withinRefl _ _ _⟩

theorem partialInsertionSortSteps_spec (less : α → α → Bool) (key : α → Int)
    (hless : ∀ x y, less x y = decide (key x < key y)) (a b : Nat) :
    ∀ (k : Nat) (s : SortState α) (i : Nat), a < i → i ≤ b → b ≤ s.1.length →
      SortedOn key a i s.1 → LowerBound key a b s.1 →
      Ext s (partialInsertionSortSteps less a b k s i).2 ∧
      Within a b s.1 (partialInsertionSortSteps less a b k s i).2.1 ∧
      ((partialInsertionSortSteps less a b k s i).1 = true →
        SortedOn key a b (partialInsertionSortSteps less a b k s i).2.1) := by
  intro k
  induction k with
  | zero =>
    intro s i hai hib hb hs hlb
    rw [partialInsertionSortSteps]
    exact ⟨Ext.extRefl s, Within.withinRefl _ _ _, fun h => absurd h (by simp)⟩
  | succ k ih =>
    intro s i hai hib hb hs hlb
    rw [partialInsertionSortSteps]
    have h1 := scanOrdered_spec less key hless b (b - i) s i (le_refl _) (by omega) hib hb
    rcases hsc : scanOrdered less b (b - i) s i with ⟨i1, s1⟩
    rw [hsc] at h1
    obtain ⟨d1, x1, l1, u1, adj1, st1⟩ := h1
    simp only at d1 x1 l1 u1 adj1 st1 ⊢
    have hsorted1 : SortedOn key a i1 s.1 := sortedOn_extend key s.1 a i i1 hs adj1
    by_cases hi1b : i1 = b
    · rw [if_pos hi1b]
      refine ⟨x1, by rw [d1]; exact Within.withinRefl _ _ _, fun _ => ?_⟩
      rw [d1, ← hi1b]; exact hsorted1
    · rw [if_neg hi1b]
      by_cases h50 : b - a < 50
      · rw [if_pos h50]
        exact ⟨x1, by rw [d1]; exact Within.withinRefl _ _ _, fun h => absurd h (by simp)⟩
      · rw [if_neg h50]
        have hi1lt : i1 < b := by omega
        have hk := st1 hi1lt
        -- the swap
        have hw2 : Within a b s.1 (swapAt s1 i1 (i1 - 1)).1 := by
          have := swapAt_within s1 a b i1 (i1 - 1) (by omega) hi1lt (by omega) (by omega)
          rw [d1] at this; exact this
        have hkey2 : ∀ p, keyAt key (swapAt s1 i1 (i1 - 1)).1 p
            = if p = i1 - 1 then keyAt key s.1 i1 else if p = i1 then keyAt key s.1 (i1 - 1)
              else keyAt key s.1 p := by
          intro p
          rw [keyAt_swapAt key s1 i1 (i1 - 1) p (by rw [d1]; omega) (by rw [d1]; omega), d1]
        have hlen2 : (swapAt s1 i1 (i1 - 1)).1.length = s.1.length := by
          rw [swapAt_length, d1]
        have hs2 : SortedOn key a (i1 - 1) (swapAt s1 i1 (i1 - 1)).1 := by
          intro p q hp hpq hq
          have e1 : keyAt key (swapAt s1 i1 (i1 - 1)).1 p = keyAt key s.1 p := by
            rw [hkey2 p, if_neg (by omega), if_neg (by omega)]
          have e2 : keyAt key (swapAt s1 i1 (i1 - 1)).1 q = keyAt key s.1 q := by
            rw [hkey2 q, if_neg (by omega), if_neg (by omega)]
          rw [e1, e2]
          exact hsorted1 p q hp hpq (by omega)
        -- the shift to the left
        have h3 : Ext (swapAt s1 i1 (i1 - 1))
              (if i1 - a ≥ 2 then shiftLeft less (i1 - 1) (swapAt s1 i1 (i1 - 1))
                else swapAt s1 i1 (i1 - 1)) ∧
            Within a i1 (swapAt s1 i1 (i1 - 1)).1
              (if i1 - a ≥ 2 then shiftLeft less (i1 - 1) (swapAt s1 i1 (i1 - 1))
                else swapAt s1 i1 (i1 - 1)).1 ∧
            SortedOn key a i1
              (if i1 - a ≥ 2 then shiftLeft less (i1 - 1) (swapAt s1 i1 (i1 - 1))
                else swapAt s1 i1 (i1 - 1)).1 := by
          by_cases h2 : i1 - a ≥ 2
          · rw [if_pos h2]
            have hlb2 : LowerBound key a (i1 - 1 + 1) (swapAt s1 i1 (i1 - 1)).1 := by
              intro p ha hp1 hp2
              exact (hw2.lowerBound key hlb) p ha hp1 (by omega)
            have := shiftLeft_spec less key hless a (i1 - 1) (i1 - 1) (swapAt s1 i1 (i1 - 1))
              (by omega) (le_refl _) (by omega) hlb2
              ⟨hs2, by intro p q hp hpq hq; omega, by intro p q hp hpj hjq hqm; omega⟩
            have e : i1 - 1 + 1 = i1 := by omega
            rw [e] at this
            exact this
          · rw [if_neg h2]
            refine ⟨Ext.extRefl _, Within.withinRefl _ _ _, ?_⟩
            intro p q hp hpq hq; omega
        generalize (if i1 - a ≥ 2 then shiftLeft less (i1 - 1) (swapAt s1 i1 (i1 - 1))
                else swapAt s1 i1 (i1 - 1)) = s3 at h3 ⊢
        obtain ⟨x3, w3, so3⟩ := h3
        -- the shift to the right
        have h4 : Ext s3 (if b - i1 ≥ 2 then shiftRight less b (b - i1) s3 (i1 + 1) else s3) ∧
            Within i1 b s3.1
              (if b - i1 ≥ 2 then shiftRight less b (b - i1) s3 (i1 + 1) else s3).1 := by
          by_cases h2 : b - i1 ≥ 2
          · rw [if_pos h2]
            exact shiftRight_spec less i1 b (b - i1) s3 (i1 + 1) (by omega)
          · rw [if_neg h2]
            exact ⟨Ext.extRefl _, Within.withinRefl _ _ _⟩
        generalize (if b - i1 ≥ 2 then shiftRight less b (b - i1) s3 (i1 + 1) else s3) = s4
          at h4 ⊢
        obtain ⟨x4, w4⟩ := h4
        have hw : Within a b s.1 s4.1 :=
          (hw2.withinTrans (w3.mono (le_refl _) (by omega))).withinTrans (w4.mono (by omega) (le_refl _))
        have hrec := ih s4 i1 (by omega) (by omega) (by rw [hw.1]; exact hb)
          (w4.sortedOn_outside key so3 (Or.inl (le_refl _))) (hw.lowerBound key hlb)
        obtain ⟨r1, r2, r3⟩ := hrec
        exact ⟨(((x1.extTrans (swapAt_ext _ _ _)).extTrans x3).extTrans x4).extTrans r1, hw.withinTrans r2, r3⟩

/-- What `partialInsertionSort_func` establishes: it stays inside `[a, b)`, and when it
returns `true` the range is sorted. -/
theorem partialInsertionSort_spec (less : α → α → Bool) (key : α → Int)
    (hless : ∀ x y, less x y = decide (key x < key y)) (s : SortState α) (a b : Nat)
    (hab : a < b) (hb : b ≤ s.1.length) (hlb : LowerBound key a b s.1) :
    Ext s (partialInsertionSort less s a b).2 ∧
    Within a b s.1 (partialInsertionSort less s a b).2.1 ∧
    ((partialInsertionSort less s a b).1 = true →
      SortedOn key a b (partialInsertionSort less s a b).2.1) := by
  unfold partialInsertionSort
  exact partialInsertionSortSteps_spec less key hless a b 5 s (a + 1) (by omega) (by omega) hb
    (by intro p q hp hpq hq; omega) hlb

/-! ### `heapSort_func` -/

theorem siftDown_spec (less : α → α → Bool) (key : α → Int)
    (hless : ∀ x y, less x y = decide (key x < key y)) (first lo hi : Nat) :
    ∀ (n : Nat) (s : SortState α) (root : Nat), hi - root ≤ n → lo ≤ root →
      first + hi ≤ s.1.length → AlmostHeap key first lo hi root s.1 →
      Ext s (siftDown less hi first n s root) ∧
      Within (first + lo) (first + hi) s.1 (siftDown less hi first n s root).1 ∧
      HeapFrom key first lo hi (siftDown less hi first n s root).1 := by
  intro n
  induction n with
  | zero =>
    intro s root hf hlo hlen hah
    rw [siftDown]
    refine ⟨Ext.extRefl s, Within.withinRefl _ _ _, ?_⟩
    intro r c hr hc hchi
    by_cases hrr : r = root
    · omega
    · exact hah.1 r c hr hrr hc hchi
  | succ n ih =>
    intro s root hf hlo hlen hah
    rw [siftDown]
    by_cases hch : 2 * root + 1 ≥ hi
    · rw [if_pos hch]
      refine ⟨Ext.extRefl s, Within.withinRefl _ _ _, ?_⟩
      intro r c hr hc hchi
      by_cases hrr : r = root
      · omega
      · exact hah.1 r c hr hrr hc hchi
    · rw [if_neg hch]
      simp only
      -- the larger child
      have hr1 : Ext s (if 2 * root + 2 < hi then
              lessAt less s (first + (2 * root + 1)) (first + (2 * root + 2))
            else (false, s)).2 ∧
          (if 2 * root + 2 < hi then
              lessAt less s (first + (2 * root + 1)) (first + (2 * root + 2))
            else (false, s)).2.1 = s.1 ∧
          ((if 2 * root + 2 < hi then
              lessAt less s (first + (2 * root + 1)) (first + (2 * root + 2))
            else (false, s)).1 = true →
            2 * root + 2 < hi ∧
              keyAt key s.1 (first + (2 * root + 1)) < keyAt key s.1 (first + (2 * root + 2))) ∧
          ((if 2 * root + 2 < hi then
              lessAt less s (first + (2 * root + 1)) (first + (2 * root + 2))
            else (false, s)).1 = false →
            2 * root + 2 < hi →
              keyAt key s.1 (first + (2 * root + 2)) ≤ keyAt key s.1 (first + (2 * root + 1))) := by
        by_cases h2 : 2 * root + 2 < hi
        · rw [if_pos h2]
          have hfst := lessAt_fst less key hless s (first + (2 * root + 1))
            (first + (2 * root + 2)) (by omega) (by omega)
          refine ⟨lessAt_ext .., lessAt_data .., ?_, ?_⟩
          · intro h; rw [hfst] at h; exact ⟨h2, of_decide_eq_true h⟩
          · intro h _; rw [hfst] at h; exact not_lt.mp (of_decide_eq_false h)
        · rw [if_neg h2]
          exact ⟨Ext.extRefl s, rfl, fun h => absurd h (by simp), fun _ h => absurd h h2⟩
      generalize (if 2 * root + 2 < hi then
              lessAt less s (first + (2 * root + 1)) (first + (2 * root + 2))
            else (false, s)) = r1 at hr1 ⊢
      obtain ⟨x1, d1, ht, hfls⟩ := hr1
      have hchild : ∃ child, (if r1.1 = true then 2 * root + 2 else 2 * root + 1) = child ∧
          (child = 2 * root + 1 ∨ child = 2 * root + 2) ∧ child < hi ∧
          ∀ c, (c = 2 * root + 1 ∨ c = 2 * root + 2) → c < hi →
            keyAt key s.1 (first + c) ≤ keyAt key s.1 (first + child) := by
        by_cases hb : r1.1 = true
        · rw [if_pos hb]
          obtain ⟨h2, hk⟩ := ht hb
          refine ⟨_, rfl, Or.inr rfl, h2, ?_⟩
          intro c hc _
          rcases hc with rfl | rfl
          · exact le_of_lt hk
          · exact le_refl _
        · rw [if_neg hb]
          refine ⟨_, rfl, Or.inl rfl, by omega, ?_⟩
          intro c hc hchi
          rcases hc with rfl | rfl
          · exact le_refl _
          · exact hfls (by simpa using hb) hchi
      obtain ⟨child, hceq, hcc, hclt, hcmax⟩ := hchild
      rw [hceq]
      have hfst2 := lessAt_fst less key hless r1.2 (first + root) (first + child)
        (by rw [d1]; omega) (by rw [d1]; omega)
      rw [d1] at hfst2
      have hd2 : (lessAt less r1.2 (first + root) (first + child)).2.1 = s.1 := by
        rw [lessAt_data, d1]
      have hx2 : Ext s (lessAt less r1.2 (first + root) (first + child)).2 :=
        x1.extTrans (lessAt_ext ..)
      by_cases hk : keyAt key s.1 (first + root) < keyAt key s.1 (first + child)
      · have h1 : (lessAt less r1.2 (first + root) (first + child)).1 = true := by
          rw [hfst2]; simpa using hk
        rw [h1, if_pos rfl]
        have hkey : ∀ p, keyAt key
            (swapAt (lessAt less r1.2 (first + root) (first + child)).2 (first + root)
              (first + child)).1 p
            = if p = first + child then keyAt key s.1 (first + root)
              else if p = first + root then keyAt key s.1 (first + child)
              else keyAt key s.1 p := by
          intro p
          rw [keyAt_swapAt key _ (first + root) (first + child) p (by rw [hd2]; omega)
            (by rw [hd2]; omega), hd2]
        have hkc : keyAt key
            (swapAt (lessAt less r1.2 (first + root) (first + child)).2 (first + root)
              (first + child)).1 (first + child) = keyAt key s.1 (first + root) := by
          rw [hkey, if_pos rfl]
        have hkr : keyAt key
            (swapAt (lessAt less r1.2 (first + root) (first + child)).2 (first + root)
              (first + child)).1 (first + root) = keyAt key s.1 (first + child) := by
          rw [hkey, if_neg (by omega), if_pos rfl]
        have hko : ∀ c, c ≠ root → c ≠ child → keyAt key
            (swapAt (lessAt less r1.2 (first + root) (first + child)).2 (first + root)
              (first + child)).1 (first + c) = keyAt key s.1 (first + c) := by
          intro c h1 h2
          rw [hkey, if_neg (by omega), if_neg (by omega)]
        have hw : Within (first + lo) (first + hi) s.1
            (swapAt (lessAt less r1.2 (first + root) (first + child)).2 (first + root)
              (first + child)).1 := by
          have := swapAt_within (lessAt less r1.2 (first + root) (first + child)).2
            (first + lo) (first + hi) (first + root) (first + child) (by omega) (by omega)
            (by omega) (by omega)
          rw [hd2] at this
          exact this
        have hrec := ih (swapAt (lessAt less r1.2 (first + root) (first + child)).2
            (first + root) (first + child)) child (by omega) (by omega)
          (by rw [swapAt_length, hd2]; exact hlen)
          ⟨by
            intro r c hr hrc hc hchi
            by_cases hrr : r = root
            · subst hrr
              rw [hkr]
              by_cases hcch : c = child
              · subst hcch
                rw [hkc]; exact le_of_lt hk
              · rw [hko c (by omega) hcch]
                exact hcmax c hc hchi
            · rw [hko r hrr hrc]
              by_cases hcr : c = root
              · subst hcr
                rw [hkr]
                exact hah.2 r child hr hc hcc hclt
              · rw [hko c hcr (by omega)]
                exact hah.1 r c hr hrr hc hchi,
           by
            intro r c hr hrc hc hchi
            have hrr : r = root := by omega
            subst hrr
            rw [hkr, hko c (by omega) (by omega)]
            exact hah.1 child c (by omega) (by omega) hc hchi⟩
        obtain ⟨q1, q2, q3⟩ := hrec
        exact ⟨(hx2.extTrans (swapAt_ext _ _ _)).extTrans q1, hw.withinTrans q2, q3⟩
      · have h1 : (lessAt less r1.2 (first + root) (first + child)).1 = false := by
          rw [hfst2]; simpa using hk
        rw [h1, if_neg Bool.false_ne_true, hd2]
        refine ⟨hx2, Within.withinRefl _ _ _, ?_⟩
        intro r c hr hc hchi
        by_cases hrr : r = root
        · subst hrr
          exact le_trans (hcmax c hc hchi) (not_lt.mp hk)
        · exact hah.1 r c hr hrr hc hchi

theorem heapBuild_spec (less : α → α → Bool) (key : α → Int)
    (hless : ∀ x y, less x y = decide (key x < key y)) (first hi : Nat) :
    ∀ (k : Nat) (s : SortState α), first + hi ≤ s.1.length → HeapFrom key first k hi s.1 →
      Ext s (heapBuild less hi first k s) ∧
      Within first (first + hi) s.1 (heapBuild less hi first k s).1 ∧
      HeapFrom key first 0 hi (heapBuild less hi first k s).1 := by
  intro k
  induction k with
  | zero =>
    intro s hlen hh
    rw [heapBuild]
    exact ⟨Ext.extRefl s, Within.withinRefl _ _ _, hh⟩
  | succ k ih =>
    intro s hlen hh
    rw [heapBuild]
    obtain ⟨x1, w1, h1⟩ := siftDown_spec less key hless first k hi hi s k (by omega)
      (le_refl _) hlen
      ⟨fun r c hr hrk hc hchi => hh r c (by omega) hc hchi,
       fun r c hr hrk hc hchi => by omega⟩
    obtain ⟨x2, w2, h2⟩ := ih (siftDown less hi first hi s k) (by rw [w1.1]; exact hlen) h1
    exact ⟨x1.extTrans x2, (w1.mono (by omega) (le_refl _)).withinTrans w2, h2⟩

theorem heap_root_max (key : α → Int) (first n : Nat) (d : List α)
    (hh : HeapFrom key first 0 n d) :
    ∀ c, c < n → keyAt key d (first + c) ≤ keyAt key d (first + 0) := by
  intro c
  induction c using Nat.strong_induction_on with
  | _ c ih =>
    intro hc
    by_cases h0 : c = 0
    · subst h0; exact le_refl _
    · have h1 := hh ((c - 1) / 2) c (Nat.zero_le _) (by omega) hc
      have h2 := ih ((c - 1) / 2) (by omega) (by omega)
      exact le_trans h1 h2

theorem heapPop_spec (less : α → α → Bool) (key : α → Int)
    (hless : ∀ x y, less x y = decide (key x < key y)) (first hi : Nat) :
    ∀ (k : Nat) (s : SortState α), k ≤ hi → first + hi ≤ s.1.length →
      PopInv key first hi k s.1 →
      Ext s (heapPop less first k s) ∧
      Within first (first + hi) s.1 (heapPop less first k s).1 ∧
      SortedOn key first (first + hi) (heapPop less first k s).1 := by
  intro k
  induction k with
  | zero =>
    intro s hk hlen hinv
    rw [heapPop]
    exact ⟨Ext.extRefl s, Within.withinRefl _ _ _, hinv.2.1⟩
  | succ k ih =>
    intro s hk hlen hinv
    rw [heapPop]
    obtain ⟨hh, hso, hps⟩ := hinv
    have hmax := heap_root_max key first (k + 1) s.1 hh
    have hw1 : Within first (first + hi) s.1 (swapAt s first (first + k)).1 :=
      swapAt_within s first (first + hi) first (first + k) (le_refl _) (by omega) (by omega)
        (by omega)
    have hkey : ∀ p, keyAt key (swapAt s first (first + k)).1 p
        = if p = first + k then keyAt key s.1 first
          else if p = first then keyAt key s.1 (first + k) else keyAt key s.1 p := by
      intro p
      rw [keyAt_swapAt key s first (first + k) p (by omega) (by omega)]
    have hkk : keyAt key (swapAt s first (first + k)).1 (first + k)
        = keyAt key s.1 (first + 0) := by
      rw [hkey, if_pos rfl]; rfl
    have hk0 : keyAt key (swapAt s first (first + k)).1 (first + 0)
        = keyAt key s.1 (first + k) := by
      rw [hkey]
      by_cases h : k = 0
      · subst h; rw [if_pos rfl]; rfl
      · rw [if_neg (by omega), if_pos (by omega)]
    have hko : ∀ c, c ≠ 0 → c ≠ k → keyAt key (swapAt s first (first + k)).1 (first + c)
        = keyAt key s.1 (first + c) := by
      intro c h1 h2
      rw [hkey, if_neg (by omega), if_neg (by omega)]
    have hko2 : ∀ p, p ≠ first → p ≠ first + k → keyAt key (swapAt s first (first + k)).1 p
        = keyAt key s.1 p := by
      intro p h1 h2
      rw [hkey, if_neg h2, if_neg h1]
    have hle : ∀ p, p < k →
        keyAt key (swapAt s first (first + k)).1 (first + p) ≤ keyAt key s.1 (first + 0) := by
      intro p hp
      by_cases hp0 : p = 0
      · subst hp0; rw [hk0]; exact hmax k (by omega)
      · rw [hko p hp0 (by omega)]; exact hmax p (by omega)
    obtain ⟨x2, w2, h2⟩ := siftDown_spec less key hless first 0 k k
      (swapAt s first (first + k)) 0 (by omega) (le_refl _)
      (by rw [swapAt_length]; omega)
      ⟨by
        intro r c hr hr0 hc hck
        rw [hko c (by omega) (by omega), hko r hr0 (by omega)]
        exact hh r c (Nat.zero_le _) hc (by omega),
       by intro r c hr hr0 hc hck; omega⟩
    have hw2 : Within first (first + k) (swapAt s first (first + k)).1
        (siftDown less k first k (swapAt s first (first + k)) 0).1 := by
      simpa using w2
    have hrec := ih (siftDown less k first k (swapAt s first (first + k)) 0) (by omega)
      (by rw [w2.1, swapAt_length]; exact hlen)
      ⟨h2, by
        intro p q hp hpq hq
        rw [hw2.keyAt_outside key p (by omega), hw2.keyAt_outside key q (by omega)]
        by_cases hpk : p = first + k
        · rw [hpk, hkk, hko2 q (by omega) (by omega)]
          have := hps 0 (q - first) (by omega) (by omega) (by omega)
          have e : first + (q - first) = q := by omega
          rw [e] at this
          exact this
        · rw [hko2 p (by omega) hpk, hko2 q (by omega) (by omega)]
          exact hso p q (by omega) hpq hq,
       by
        intro p q hp hkq hq
        obtain ⟨pp, hp1, hp2, hpe⟩ := hw2.keyAt_inside key (first + p) (by omega) (by omega)
        rw [hpe, hw2.keyAt_outside key (first + q) (by omega)]
        have e : first + (pp - first) = pp := by omega
        by_cases hqk : q = k
        · subst hqk
          rw [hkk]
          have := hle (pp - first) (by omega)
          rw [e] at this
          exact this
        · rw [hko q (by omega) hqk]
          have h3 := hle (pp - first) (by omega)
          rw [e] at h3
          have h4 := hps 0 q (by omega) (by omega) hq
          exact le_trans h3 h4⟩
    obtain ⟨x3, w3, s3⟩ := hrec
    exact ⟨((swapAt_ext _ _ _).extTrans x2).extTrans x3,
      (hw1.withinTrans (hw2.mono (le_refl _) (by omega))).withinTrans w3, s3⟩

/-- What `heapSort_func(data, a, b)` establishes. -/
theorem heapSort_spec (less : α → α → Bool) (key : α → Int)
    (hless : ∀ x y, less x y = decide (key x < key y)) (s : SortState α) (a b : Nat)
    (hab : a ≤ b) (hb : b ≤ s.1.length) :
    Ext s (heapSort less s a b) ∧ Within a b s.1 (heapSort less s a b).1 ∧
    SortedOn key a b (heapSort less s a b).1 := by
  unfold heapSort
  have e : a + (b - a) = b := by omega
  obtain ⟨x1, w1, h1⟩ := heapBuild_spec less key hless a (b - a) ((b - a - 1) / 2 + 1) s
    (by omega) (by intro r c hr hc hchi; omega)
  obtain ⟨x2, w2, s2⟩ := heapPop_spec less key hless a (b - a) (b - a)
    (heapBuild less (b - a) a ((b - a - 1) / 2 + 1) s) (le_refl _)
    (by rw [w1.1]; omega)
    ⟨h1, by intro p q hp hpq hq; omega, by intro p q hp hq1 hq2; omega⟩
  rw [e] at w1 w2 s2
  exact ⟨x1.extTrans x2, w1.withinTrans w2, s2⟩

/-! ### `pdqsort_func` -/

theorem Within.forall_inside (key : α → Int) (P : Int → Prop) {a b : Nat} {d e : List α}
    (h : Within a b d e) (hP : ∀ p, a ≤ p → p < b → P (keyAt key d p)) :
    ∀ p, a ≤ p → p < b → P (keyAt key e p) := by
  intro p hp1 hp2
  obtain ⟨q, hq1, hq2, hq⟩ := h.keyAt_inside key p hp1 hp2
  rw [hq]
  exact hP q hq1 hq2

theorem sortedOn_join (key : α → Int) (d : List α) (a mid b : Nat)
    (h1 : SortedOn key a mid d) (h2 : SortedOn key (mid + 1) b d)
    (hl : ∀ p, a ≤ p → p < mid → keyAt key d p ≤ keyAt key d mid)
    (hr : ∀ p, mid < p → p < b → keyAt key d mid ≤ keyAt key d p) :
    SortedOn key a b d := by
  intro p q hp hpq hq
  by_cases hqm : q < mid
  · exact h1 p q hp hpq hqm
  · by_cases hqm2 : q = mid
    · rw [hqm2]; exact hl p hp (by omega)
    · by_cases hpm : p < mid
      · exact le_trans (hl p hp hpm) (hr q (by omega) hq)
      · by_cases hpm2 : p = mid
        · rw [hpm2]; exact hr q (by omega) hq
        · exact h2 p q (by omega) hpq hq

/-- What `pdqsort_func(data, a, b, limit)` establishes, given fuel for more rounds than
`data[a:b]` has elements: `data[a:b]` is sorted, the rest of the slice is untouched. -/
theorem pdqsort_spec (less : α → α → Bool) (key : α → Int)
    (hless : ∀ x y, less x y = decide (key x < key y)) :
    ∀ (fuel : Nat) (s : SortState α) (a b limit : Nat) (wb wp : Bool), b - a < fuel → a ≤ b →
      b ≤ s.1.length → LowerBound key a b s.1 →
      Ext s (pdqsort less fuel s a b limit wb wp) ∧
      Within a b s.1 (pdqsort less fuel s a b limit wb wp).1 ∧
      SortedOn key a b (pdqsort less fuel s a b limit wb wp).1 := by
  intro fuel
  induction fuel with
  | zero => intro s a b limit wb wp hf; omega
  | succ fuel ih =>
    intro s a b limit wb wp hf hab hb hlb
    rw [pdqsort]
    by_cases h12 : b - a ≤ 12
    · rw [if_pos h12]
      exact insertionSortRange_spec less key hless s a b hab hb
    rw [if_neg h12]
    by_cases hl : limit = 0
    · rw [if_pos hl]
      exact heapSort_spec less key hless s a b hab hb
    rw [if_neg hl]
    dsimp only
    -- breakPatterns
    have hs1 : Ext s (if wb = true then s else breakPatterns s a b) ∧
        Within a b s.1 (if wb = true then s else breakPatterns s a b).1 := by
      split
      · exact ⟨Ext.extRefl s, Within.withinRefl _ _ _⟩
      · exact breakPatterns_spec s a b
    generalize (if wb = true then s else breakPatterns s a b) = s1 at hs1 ⊢
    generalize (if wb = true then limit else limit - 1) = limit1
    obtain ⟨x1, w1⟩ := hs1
    -- choosePivot
    have hcp := choosePivot_spec less s1 a b (by omega)
    generalize choosePivot less s1 a b = cp at hcp ⊢
    obtain ⟨cp1, cp2, cpd, cpx⟩ := hcp
    -- reverseRange
    have hs3 : Ext cp.2.2 (if cp.2.1 = SortedHint.decreasingHint then reverseRange cp.2.2 a b
          else cp.2.2) ∧
        Within a b cp.2.2.1 (if cp.2.1 = SortedHint.decreasingHint then reverseRange cp.2.2 a b
          else cp.2.2).1 := by
      split
      · exact reverseRange_spec cp.2.2 a b (by omega)
      · exact ⟨Ext.extRefl _, Within.withinRefl _ _ _⟩
    generalize (if cp.2.1 = SortedHint.decreasingHint then reverseRange cp.2.2 a b
          else cp.2.2) = s3 at hs3 ⊢
    obtain ⟨x3, w3⟩ := hs3
    rw [cpd] at w3
    have hpv : a ≤ (if cp.2.1 = SortedHint.decreasingHint then b - 1 - (cp.1 - a) else cp.1) ∧
        (if cp.2.1 = SortedHint.decreasingHint then b - 1 - (cp.1 - a) else cp.1) < b := by
      split <;> omega
    generalize (if cp.2.1 = SortedHint.decreasingHint then b - 1 - (cp.1 - a) else cp.1)
      = pivot at hpv ⊢
    generalize (if cp.2.1 = SortedHint.decreasingHint then SortedHint.increasingHint
      else cp.2.1) = hint
    have hw03 : Within a b s.1 s3.1 := w1.withinTrans w3
    have hx03 : Ext s s3 := (x1.extTrans cpx).extTrans x3
    have hlen3 : s3.1.length = s.1.length := hw03.1
    -- partialInsertionSort
    have hr : Ext s3 (if (wb && wp && decide (hint = SortedHint.increasingHint)) = true then
            partialInsertionSort less s3 a b else (false, s3)).2 ∧
        Within a b s3.1 (if (wb && wp && decide (hint = SortedHint.increasingHint)) = true then
            partialInsertionSort less s3 a b else (false, s3)).2.1 ∧
        ((if (wb && wp && decide (hint = SortedHint.increasingHint)) = true then
            partialInsertionSort less s3 a b else (false, s3)).1 = true →
          SortedOn key a b
            (if (wb && wp && decide (hint = SortedHint.increasingHint)) = true then
              partialInsertionSort less s3 a b else (false, s3)).2.1) := by
      split
      · exact partialInsertionSort_spec less key hless s3 a b (by omega) (by omega)
          (hw03.lowerBound key hlb)
      · exact ⟨Ext.extRefl _, Within.withinRefl _ _ _, fun h => absurd h (by simp)⟩
    generalize (if (wb && wp && decide (hint = SortedHint.increasingHint)) = true then
            partialInsertionSort less s3 a b else (false, s3)) = r at hr ⊢
    obtain ⟨xr, wr, sr⟩ := hr
    have hw0r : Within a b s.1 r.2.1 := hw03.withinTrans wr
    have hx0r : Ext s r.2 := hx03.extTrans xr
    by_cases hr1 : r.1 = true
    · rw [if_pos hr1]
      exact ⟨hx0r, hw0r, sr hr1⟩
    rw [if_neg hr1]
    have hlenr : r.2.1.length = s.1.length := hw0r.1
    have hlbr : LowerBound key a b r.2.1 := hw0r.lowerBound key hlb
    -- the comparison with the element before `a`
    have hq : (if a > 0 then lessAt less r.2 (a - 1) pivot else (true, r.2)).2.1 = r.2.1 ∧
        Ext r.2 (if a > 0 then lessAt less r.2 (a - 1) pivot else (true, r.2)).2 ∧
        (0 < a → (if a > 0 then lessAt less r.2 (a - 1) pivot else (true, r.2)).1 = false →
          keyAt key r.2.1 pivot ≤ keyAt key r.2.1 (a - 1)) := by
      split
      · refine ⟨lessAt_data .., lessAt_ext .., ?_⟩
        intro _ h
        rw [lessAt_fst less key hless r.2 (a - 1) pivot (by omega) (by omega)] at h
        exact not_lt.mp (of_decide_eq_false h)
      · rename_i h
        exact ⟨rfl, Ext.extRefl _, fun hd2 => absurd hd2 h⟩
    generalize (if a > 0 then lessAt less r.2 (a - 1) pivot else (true, r.2)) = q at hq ⊢
    obtain ⟨qd, qx, qk⟩ := hq
    have hx0q : Ext s q.2 := hx0r.extTrans qx
    by_cases hpe : (decide (a > 0) && !q.1) = true
    · -- partitionEqual
      rw [if_pos hpe]
      have ha0 : 0 < a := by
        simp only [Bool.and_eq_true, decide_eq_true_eq] at hpe
        exact hpe.1
      have hq1 : q.1 = false := by
        simp only [Bool.and_eq_true, Bool.not_eq_true'] at hpe
        exact hpe.2
      have hkp := qk ha0 hq1
      have hpq := partitionEqual_spec less key hless q.2 a b pivot hpv.1 hpv.2
        (by rw [qd]; omega)
      generalize partitionEqual less q.2 a b pivot = pe at hpq ⊢
      obtain ⟨m1, m2, xpe, wpe, lpe, rpe⟩ := hpq
      rw [qd] at wpe lpe rpe
      have hlow : ∀ p, a ≤ p → p < b → keyAt key r.2.1 pivot ≤ keyAt key pe.2.1 p :=
        wpe.forall_inside key (fun k => keyAt key r.2.1 pivot ≤ k)
          (fun p hp1 hp2 => le_trans hkp (hlbr p ha0 hp1 hp2))
      have hw0p : Within a b s.1 pe.2.1 := hw0r.withinTrans wpe
      have hrec := ih pe.2 pe.1 b limit1 wb wp (by omega) m2 (by rw [hw0p.1]; exact hb)
        (by
          intro p _ hp1 hp2
          exact le_trans (lpe (pe.1 - 1) (by omega) (by omega)) (le_of_lt (rpe p hp1 hp2)))
      obtain ⟨xt, wt, st⟩ := hrec
      refine ⟨(hx0q.extTrans xpe).extTrans xt, hw0p.withinTrans (wt.mono (by omega) (le_refl _)), ?_⟩
      intro p qq hp hpqq hqa
      by_cases hpm : pe.1 ≤ p
      · exact st p qq hpm hpqq hqa
      · rw [wt.keyAt_outside key p (by omega)]
        by_cases hqm : pe.1 ≤ qq
        · have h1 := lpe p hp (by omega)
          have h2 := wt.forall_inside key (fun k => keyAt key r.2.1 pivot < k)
            (fun p hp1 hp2 => rpe p hp1 hp2) qq hqm hqa
          exact le_trans h1 (le_of_lt h2)
        · rw [wt.keyAt_outside key qq (by omega)]
          exact le_trans (lpe p hp (by omega)) (hlow qq (by omega) hqa)
    · -- partition
      rw [if_neg hpe]
      have hpp := partition_spec less key hless q.2 a b pivot hpv.1 hpv.2 (by rw [qd]; omega)
      generalize partition less q.2 a b pivot = pt at hpp ⊢
      obtain ⟨m1, m2, xpt, wpt, lpt, rpt⟩ := hpp
      rw [qd] at wpt
      have hw0p : Within a b s.1 pt.2.2.1 := hw0r.withinTrans wpt
      have hlen5 : pt.2.2.1.length = s.1.length := hw0p.1
      have hlb5 : LowerBound key a b pt.2.2.1 := hw0p.lowerBound key hlb
      by_cases hside : pt.1 - a < b - pt.1
      · rw [if_pos hside]
        obtain ⟨xt1, wt1, st1⟩ := ih pt.2.2 a pt.1 limit1 true true (by omega) m1
          (by omega) (fun p ha hp1 hp2 => hlb5 p ha hp1 (by omega))
        generalize pdqsort less fuel pt.2.2 a pt.1 limit1 true true = t1 at xt1 wt1 st1 ⊢
        have hk1m : keyAt key t1.1 pt.1 = keyAt key pt.2.2.1 pt.1 :=
          wt1.keyAt_outside key pt.1 (by omega)
        obtain ⟨xt2, wt2, st2⟩ := ih t1 (pt.1 + 1) b limit1
          (decide (pt.1 - a ≥ (b - a) / 8)) pt.2.1 (by omega) (by omega)
          (by rw [wt1.1]; omega)
          (by
            intro p _ hp1 hp2
            simp only [Nat.add_sub_cancel]
            rw [hk1m, wt1.keyAt_outside key p (by omega)]
            exact rpt p (by omega) hp2)
        generalize pdqsort less fuel t1 (pt.1 + 1) b limit1
          (decide (pt.1 - a ≥ (b - a) / 8)) pt.2.1 = t2 at xt2 wt2 st2 ⊢
        have hk2m : keyAt key t2.1 pt.1 = keyAt key pt.2.2.1 pt.1 := by
          rw [wt2.keyAt_outside key pt.1 (by omega), hk1m]
        refine ⟨((hx0q.extTrans xpt).extTrans xt1).extTrans xt2,
          (hw0p.withinTrans (wt1.mono (le_refl _) (by omega))).withinTrans (wt2.mono (by omega) (le_refl _)),
          ?_⟩
        apply sortedOn_join key t2.1 a pt.1 b
          (wt2.sortedOn_outside key st1 (Or.inl (by omega))) st2
        · intro p hp1 hp2
          rw [hk2m, wt2.keyAt_outside key p (by omega)]
          exact wt1.forall_inside key (fun k => k ≤ keyAt key pt.2.2.1 pt.1)
            (fun p hp1 hp2 => lpt p hp1 hp2) p hp1 hp2
        · intro p hp1 hp2
          rw [hk2m]
          exact wt2.forall_inside key (fun k => keyAt key pt.2.2.1 pt.1 ≤ k)
            (fun p hp1 hp2 => by
              rw [wt1.keyAt_outside key p (by omega)]
              exact rpt p (by omega) hp2) p (by omega) hp2
      · rw [if_neg hside]
        obtain ⟨xt1, wt1, st1⟩ := ih pt.2.2 (pt.1 + 1) b limit1 true true (by omega) (by omega)
          (by omega) (by
            intro p _ hp1 hp2
            simp only [Nat.add_sub_cancel]
            exact rpt p (by omega) hp2)
        generalize pdqsort less fuel pt.2.2 (pt.1 + 1) b limit1 true true = t1
          at xt1 wt1 st1 ⊢
        have hk1m : keyAt key t1.1 pt.1 = keyAt key pt.2.2.1 pt.1 :=
          wt1.keyAt_outside key pt.1 (by omega)
        obtain ⟨xt2, wt2, st2⟩ := ih t1 a pt.1 limit1
          (decide (b - pt.1 ≥ (b - a) / 8)) pt.2.1 (by omega) m1
          (by rw [wt1.1]; omega)
          (by
            intro p ha hp1 hp2
            rw [wt1.keyAt_outside key (a - 1) (by omega), wt1.keyAt_outside key p (by omega)]
            exact hlb5 p ha hp1 (by omega))
        generalize pdqsort less fuel t1 a pt.1 limit1
          (decide (b - pt.1 ≥ (b - a) / 8)) pt.2.1 = t2 at xt2 wt2 st2 ⊢
        have hk2m : keyAt key t2.1 pt.1 = keyAt key pt.2.2.1 pt.1 := by
          rw [wt2.keyAt_outside key pt.1 (by omega), hk1m]
        refine ⟨((hx0q.extTrans xpt).extTrans xt1).extTrans xt2,
          (hw0p.withinTrans (wt1.mono (by omega) (le_refl _))).withinTrans (wt2.mono (le_refl _) (by omega)),
          ?_⟩
        apply sortedOn_join key t2.1 a pt.1 b st2
          (wt2.sortedOn_outside key st1 (Or.inr (by omega)))
        · intro p hp1 hp2
          rw [hk2m]
          exact wt2.forall_inside key (fun k => k ≤ keyAt key pt.2.2.1 pt.1)
            (fun p hp1 hp2 => by
              rw [wt1.keyAt_outside key p (by omega)]
              exact lpt p hp1 hp2) p hp1 hp2
        · intro p hp1 hp2
          rw [hk2m, wt2.keyAt_outside key p (by omega)]
          exact wt1.forall_inside key (fun k => keyAt key pt.2.2.1 pt.1 ≤ k)
            (fun p hp1 hp2 => rpt p (by omega) hp2) p (by omega) hp2

/-! ### Every routine of the sort permutes the slice and compares elements of it -/

theorem insertionSortRange_ext (less : α → α → Bool) (s : SortState α) (a b : Nat) :
    Ext s (insertionSortRange less s a b) := by
  unfold insertionSortRange
  split
  · rename_i h
    have hperm := insertionSort_perm less ((s.1.drop a).take (b - a)) [] s.2
    rw [List.nil_append] at hperm
    obtain ⟨new, hnew, hmem⟩ :=
      insertionSort_calls_append less ((s.1.drop a).take (b - a)) [] s.2
    refine ⟨?_, new, hnew, ?_⟩
    · have := segment_split s.1 a b h.1
      refine List.Perm.trans ?_ (List.Perm.of_eq this)
      exact List.Perm.append_right _ (List.Perm.append_left _ hperm)
    · intro c hc
      obtain ⟨h1, h2⟩ := hmem c hc
      simp only [List.not_mem_nil, false_or] at h1 h2
      exact ⟨List.mem_of_mem_drop (List.mem_of_mem_take h1),
        List.mem_of_mem_drop (List.mem_of_mem_take h2)⟩
  · exact Ext.extRefl s

theorem siftDown_ext (less : α → α → Bool) (hi first : Nat) :
    ∀ (n : Nat) (s : SortState α) (root : Nat), Ext s (siftDown less hi first n s root) := by
  intro n
  induction n with
  | zero => intro s root; rw [siftDown]; exact Ext.extRefl s
  | succ n ih =>
    intro s root
    rw [siftDown]
    split
    · exact Ext.extRefl s
    · simp only
      have h1 : Ext s (if 2 * root + 2 < hi then
          lessAt less s (first + (2 * root + 1)) (first + (2 * root + 2)) else (false, s)).2 := by
        split
        · exact lessAt_ext ..
        · exact Ext.extRefl s
      generalize (if 2 * root + 2 < hi then
          lessAt less s (first + (2 * root + 1)) (first + (2 * root + 2)) else (false, s)) = r1
        at h1 ⊢
      split <;> split <;> first
        | exact ((h1.extTrans (lessAt_ext ..)).extTrans (swapAt_ext ..)).extTrans (ih _ _)
        | exact h1.extTrans (lessAt_ext ..)

theorem heapBuild_ext (less : α → α → Bool) (hi first : Nat) :
    ∀ (k : Nat) (s : SortState α), Ext s (heapBuild less hi first k s) := by
  intro k
  induction k with
  | zero => intro s; rw [heapBuild]; exact Ext.extRefl s
  | succ k ih => intro s; rw [heapBuild]; exact (siftDown_ext less hi first hi s k).extTrans (ih _)

theorem heapPop_ext (less : α → α → Bool) (first : Nat) :
    ∀ (k : Nat) (s : SortState α), Ext s (heapPop less first k s) := by
  intro k
  induction k with
  | zero => intro s; rw [heapPop]; exact Ext.extRefl s
  | succ k ih =>
    intro s
    rw [heapPop]
    exact ((swapAt_ext ..).extTrans (siftDown_ext less k first k _ 0)).extTrans (ih _)

theorem heapSort_ext (less : α → α → Bool) (s : SortState α) (a b : Nat) :
    Ext s (heapSort less s a b) := by
  unfold heapSort
  exact (heapBuild_ext less (b - a) a _ s).extTrans (heapPop_ext less a (b - a) _)

theorem choosePivot_ext (less : α → α → Bool) (s : SortState α) (a b : Nat) :
    (choosePivot less s a b).2.2.1 = s.1 ∧ Ext s (choosePivot less s a b).2.2 := by
  unfold choosePivot
  dsimp only
  split
  · split
    · have h1 := medianAdjacent_spec less s (a + (b - a) / 4 * 1) 0
      generalize medianAdjacent less s (a + (b - a) / 4 * 1) 0 = m1 at h1 ⊢
      have h2 := medianAdjacent_spec less m1.2.2 (a + (b - a) / 4 * 2) m1.2.1
      generalize medianAdjacent less m1.2.2 (a + (b - a) / 4 * 2) m1.2.1 = m2 at h2 ⊢
      have h3 := medianAdjacent_spec less m2.2.2 (a + (b - a) / 4 * 3) m2.2.1
      generalize medianAdjacent less m2.2.2 (a + (b - a) / 4 * 3) m2.2.1 = m3 at h3 ⊢
      have h4 := median_spec less m3.2.2 m1.1 m2.1 m3.1 m3.2.1
      generalize median less m3.2.2 m1.1 m2.1 m3.1 m3.2.1 = m4 at h4 ⊢
      exact ⟨by rw [h4.2.1, h3.2.1, h2.2.1, h1.2.1],
        ((h1.2.2.extTrans h2.2.2).extTrans h3.2.2).extTrans h4.2.2⟩
    · have h4 := median_spec less s (a + (b - a) / 4 * 1) (a + (b - a) / 4 * 2)
        (a + (b - a) / 4 * 3) 0
      exact ⟨h4.2.1, h4.2.2⟩
  · exact ⟨rfl, Ext.extRefl s⟩

theorem reverseLoop_ext : ∀ (n : Nat) (s : SortState α) (i j : Nat),
    Ext s (reverseLoop n s i j) := by
  intro n
  induction n with
  | zero => intro s i j; rw [reverseLoop]; exact Ext.extRefl s
  | succ n ih =>
    intro s i j
    rw [reverseLoop]
    split
    · exact (swapAt_ext ..).extTrans (ih _ _ _)
    · exact Ext.extRefl s

theorem reverseRange_ext (s : SortState α) (a b : Nat) : Ext s (reverseRange s a b) :=
  reverseLoop_ext _ _ _ _

theorem scanOrdered_ext (less : α → α → Bool) (b : Nat) :
    ∀ (n : Nat) (s : SortState α) (i : Nat), Ext s (scanOrdered less b n s i).2 := by
  intro n
  induction n with
  | zero => intro s i; rw [scanOrdered]; exact Ext.extRefl s
  | succ n ih =>
    intro s i
    rw [scanOrdered]
    split
    · split
      · exact lessAt_ext ..
      · exact (lessAt_ext ..).extTrans (ih _ _)
    · exact Ext.extRefl s

theorem shiftLeft_ext (less : α → α → Bool) :
    ∀ (j : Nat) (s : SortState α), Ext s (shiftLeft less j s) := by
  intro j
  induction j with
  | zero => intro s; rw [shiftLeft]; exact Ext.extRefl s
  | succ j ih =>
    intro s
    rw [shiftLeft]
    split
    · exact ((lessAt_ext ..).extTrans (swapAt_ext ..)).extTrans (ih _)
    · exact lessAt_ext ..

theorem shiftRight_ext (less : α → α → Bool) (b : Nat) :
    ∀ (n : Nat) (s : SortState α) (j : Nat), Ext s (shiftRight less b n s j) := by
  intro n
  induction n with
  | zero => intro s j; rw [shiftRight]; exact Ext.extRefl s
  | succ n ih =>
    intro s j
    rw [shiftRight]
    split
    · split
      · exact ((lessAt_ext ..).extTrans (swapAt_ext ..)).extTrans (ih _ _)
      · exact lessAt_ext ..
    · exact Ext.extRefl s

theorem partialInsertionSortSteps_ext (less : α → α → Bool) (a b : Nat) :
    ∀ (k : Nat) (s : SortState α) (i : Nat),
      Ext s (partialInsertionSortSteps less a b k s i).2 := by
  intro k
  induction k with
  | zero => intro s i; rw [partialInsertionSortSteps]; exact Ext.extRefl s
  | succ k ih =>
    intro s i
    rw [partialInsertionSortSteps]
    have h1 := scanOrdered_ext less b (b - i) s i
    generalize scanOrdered less b (b - i) s i = sc at h1 ⊢
    dsimp only
    split
    · exact h1
    · split
      · exact h1
      · have h3 : Ext (swapAt sc.2 sc.1 (sc.1 - 1))
            (if sc.1 - a ≥ 2 then shiftLeft less (sc.1 - 1) (swapAt sc.2 sc.1 (sc.1 - 1))
              else swapAt sc.2 sc.1 (sc.1 - 1)) := by
          split
          · exact shiftLeft_ext ..
          · exact Ext.extRefl _
        generalize (if sc.1 - a ≥ 2 then shiftLeft less (sc.1 - 1) (swapAt sc.2 sc.1 (sc.1 - 1))
              else swapAt sc.2 sc.1 (sc.1 - 1)) = s3 at h3 ⊢
        have h4 : Ext s3 (if b - sc.1 ≥ 2 then shiftRight less b (b - sc.1) s3 (sc.1 + 1)
            else s3) := by
          split
          · exact shiftRight_ext ..
          · exact Ext.extRefl _
        generalize (if b - sc.1 ≥ 2 then shiftRight less b (b - sc.1) s3 (sc.1 + 1)
            else s3) = s4 at h4 ⊢
        exact (((h1.extTrans (swapAt_ext ..)).extTrans h3).extTrans h4).extTrans (ih _ _)

theorem partialInsertionSort_ext (less : α → α → Bool) (s : SortState α) (a b : Nat) :
    Ext s (partialInsertionSort less s a b).2 :=
  partialInsertionSortSteps_ext less a b 5 s (a + 1)

theorem scanLess_ext (less : α → α → Bool) (a : Nat) :
    ∀ (n : Nat) (s : SortState α) (i j : Nat), Ext s (scanLess less a n s i j).2 := by
  intro n
  induction n with
  | zero => intro s i j; rw [scanLess]; exact Ext.extRefl s
  | succ n ih =>
    intro s i j
    rw [scanLess]
    split
    · split
      · exact (lessAt_ext ..).extTrans (ih _ _ _)
      · exact lessAt_ext ..
    · exact Ext.extRefl s

theorem scanNotLess_ext (less : α → α → Bool) (a : Nat) :
    ∀ (n : Nat) (s : SortState α) (i j : Nat), Ext s (scanNotLess less a n s i j).2 := by
  intro n
  induction n with
  | zero => intro s i j; rw [scanNotLess]; exact Ext.extRefl s
  | succ n ih =>
    intro s i j
    rw [scanNotLess]
    split
    · split
      · exact lessAt_ext ..
      · exact (lessAt_ext ..).extTrans (ih _ _ _)
    · exact Ext.extRefl s

theorem scanNotGreater_ext (less : α → α → Bool) (a : Nat) :
    ∀ (n : Nat) (s : SortState α) (i j : Nat), Ext s (scanNotGreater less a n s i j).2 := by
  intro n
  induction n with
  | zero => intro s i j; rw [scanNotGreater]; exact Ext.extRefl s
  | succ n ih =>
    intro s i j
    rw [scanNotGreater]
    split
    · split
      · exact lessAt_ext ..
      · exact (lessAt_ext ..).extTrans (ih _ _ _)
    · exact Ext.extRefl s

theorem scanGreater_ext (less : α → α → Bool) (a : Nat) :
    ∀ (n : Nat) (s : SortState α) (i j : Nat), Ext s (scanGreater less a n s i j).2 := by
  intro n
  induction n with
  | zero => intro s i j; rw [scanGreater]; exact Ext.extRefl s
  | succ n ih =>
    intro s i j
    rw [scanGreater]
    split
    · split
      · exact (lessAt_ext ..).extTrans (ih _ _ _)
      · exact lessAt_ext ..
    · exact Ext.extRefl s

theorem partitionLoop_ext (less : α → α → Bool) (a : Nat) :
    ∀ (n : Nat) (s : SortState α) (i j : Nat), Ext s (partitionLoop less a n s i j).2 := by
  intro n
  induction n with
  | zero => intro s i j; rw [partitionLoop]; exact Ext.extRefl s
  | succ n ih =>
    intro s i j
    rw [partitionLoop]
    have h1 := scanLess_ext less a (j + 1 - i) s i j
    generalize scanLess less a (j + 1 - i) s i j = r1 at h1 ⊢
    dsimp only
    have h2 := scanNotLess_ext less a (j + 1 - r1.1) r1.2 r1.1 j
    generalize scanNotLess less a (j + 1 - r1.1) r1.2 r1.1 j = r2 at h2 ⊢
    split
    · exact h1.extTrans h2
    · exact ((h1.extTrans h2).extTrans (swapAt_ext ..)).extTrans (ih _ _ _)

theorem partition_ext (less : α → α → Bool) (s : SortState α) (a b pivot : Nat) :
    Ext s (partition less s a b pivot).2.2 := by
  unfold partition
  have h1 := scanLess_ext less a (b - a) (swapAt s a pivot) (a + 1) (b - 1)
  generalize scanLess less a (b - a) (swapAt s a pivot) (a + 1) (b - 1) = r1 at h1 ⊢
  dsimp only
  have h2 := scanNotLess_ext less a (b - a) r1.2 r1.1 (b - 1)
  generalize scanNotLess less a (b - a) r1.2 r1.1 (b - 1) = r2 at h2 ⊢
  have h02 : Ext s r2.2 := ((swapAt_ext ..).extTrans h1).extTrans h2
  split
  · exact h02.extTrans (swapAt_ext ..)
  · have h3 := partitionLoop_ext less a (b - a) (swapAt r2.2 r1.1 r2.1) (r1.1 + 1) (r2.1 - 1)
    generalize partitionLoop less a (b - a) (swapAt r2.2 r1.1 r2.1) (r1.1 + 1) (r2.1 - 1) = r3
      at h3 ⊢
    exact ((h02.extTrans (swapAt_ext ..)).extTrans h3).extTrans (swapAt_ext ..)

theorem partitionEqualLoop_ext (less : α → α → Bool) (a : Nat) :
    ∀ (n : Nat) (s : SortState α) (i j : Nat), Ext s (partitionEqualLoop less a n s i j).2 := by
  intro n
  induction n with
  | zero => intro s i j; rw [partitionEqualLoop]; exact Ext.extRefl s
  | succ n ih =>
    intro s i j
    rw [partitionEqualLoop]
    have h1 := scanNotGreater_ext less a (j + 1 - i) s i j
    generalize scanNotGreater less a (j + 1 - i) s i j = r1 at h1 ⊢
    dsimp only
    have h2 := scanGreater_ext less a (j + 1 - r1.1) r1.2 r1.1 j
    generalize scanGreater less a (j + 1 - r1.1) r1.2 r1.1 j = r2 at h2 ⊢
    split
    · exact h1.extTrans h2
    · exact ((h1.extTrans h2).extTrans (swapAt_ext ..)).extTrans (ih _ _ _)

theorem partitionEqual_ext (less : α → α → Bool) (s : SortState α) (a b pivot : Nat) :
    Ext s (partitionEqual less s a b pivot).2 := by
  unfold partitionEqual
  exact (swapAt_ext ..).extTrans (partitionEqualLoop_ext ..)

/-- The routine `pdqsort_func` permutes the slice and compares elements of it, whatever the
comparator. -/
theorem pdqsort_ext (less : α → α → Bool) :
    ∀ (fuel : Nat) (s : SortState α) (a b limit : Nat) (wb wp : Bool),
      Ext s (pdqsort less fuel s a b limit wb wp) := by
  intro fuel
  induction fuel with
  | zero => intro s a b limit wb wp; rw [pdqsort]; exact Ext.extRefl s
  | succ fuel ih =>
    intro s a b limit wb wp
    rw [pdqsort]
    split
    · exact insertionSortRange_ext less s a b
    split
    · exact heapSort_ext less s a b
    dsimp only
    have hs1 : Ext s (if wb = true then s else breakPatterns s a b) := by
      split
      · exact Ext.extRefl s
      · exact (breakPatterns_spec s a b).1
    generalize (if wb = true then s else breakPatterns s a b) = s1 at hs1 ⊢
    generalize (if wb = true then limit else limit - 1) = limit1
    have hcp := (choosePivot_ext less s1 a b).2
    generalize choosePivot less s1 a b = cp at hcp ⊢
    have hs3 : Ext cp.2.2 (if cp.2.1 = SortedHint.decreasingHint then reverseRange cp.2.2 a b
          else cp.2.2) := by
      split
      · exact reverseRange_ext ..
      · exact Ext.extRefl _
    generalize (if cp.2.1 = SortedHint.decreasingHint then reverseRange cp.2.2 a b
          else cp.2.2) = s3 at hs3 ⊢
    generalize (if cp.2.1 = SortedHint.decreasingHint then b - 1 - (cp.1 - a) else cp.1)
      = pivot
    generalize (if cp.2.1 = SortedHint.decreasingHint then SortedHint.increasingHint
      else cp.2.1) = hint
    have hr : Ext s3 (if (wb && wp && decide (hint = SortedHint.increasingHint)) = true then
            partialInsertionSort less s3 a b else (false, s3)).2 := by
      split
      · exact partialInsertionSort_ext ..
      · exact Ext.extRefl _
    generalize (if (wb && wp && decide (hint = SortedHint.increasingHint)) = true then
            partialInsertionSort less s3 a b else (false, s3)) = r at hr ⊢
    have hx0r : Ext s r.2 := ((hs1.extTrans hcp).extTrans hs3).extTrans hr
    split
    · exact hx0r
    have hq : Ext r.2 (if a > 0 then lessAt less r.2 (a - 1) pivot else (true, r.2)).2 := by
      split
      · exact lessAt_ext ..
      · exact Ext.extRefl _
    generalize (if a > 0 then lessAt less r.2 (a - 1) pivot else (true, r.2)) = q at hq ⊢
    split
    · exact ((hx0r.extTrans hq).extTrans (partitionEqual_ext ..)).extTrans (ih _ _ _ _ _ _)
    · have hpt := partition_ext less q.2 a b pivot
      generalize partition less q.2 a b pivot = pt at hpt ⊢
      split
      · exact (((hx0r.extTrans hq).extTrans hpt).extTrans (ih _ _ _ _ _ _)).extTrans (ih _ _ _ _ _ _)
      · exact (((hx0r.extTrans hq).extTrans hpt).extTrans (ih _ _ _ _ _ _)).extTrans (ih _ _ _ _ _ _)

/-! ### Which elements take part in a comparator call -/

theorem Ext.length_eq {s t : SortState α} (h : Ext s t) : t.1.length = s.1.length :=
  h.1.length_eq

theorem scanLess_cov (less : α → α → Bool) (a j : Nat) :
    ∀ (n : Nat) (s : SortState α) (i : Nat), j + 1 - i ≤ n → j < s.1.length →
      a < s.1.length → i ≤ j + 1 →
      (scanLess less a n s i j).2.1 = s.1 ∧
      i ≤ (scanLess less a n s i j).1 ∧ (scanLess less a n s i j).1 ≤ j + 1 ∧
      (∀ p, CoveredAt s p → CoveredAt (scanLess less a n s i j).2 p) ∧
      (∀ p, i ≤ p → p < (scanLess less a n s i j).1 →
        CoveredAt (scanLess less a n s i j).2 p) ∧
      ((scanLess less a n s i j).1 ≤ j →
        CoveredAt (scanLess less a n s i j).2 (scanLess less a n s i j).1) ∧
      (i ≤ j → CoveredAt (scanLess less a n s i j).2 a) := by
  intro n
  induction n with
  | zero =>
    intro s i hf hj ha hij
    rw [scanLess]
    exact ⟨rfl, le_refl _, hij, fun p h => h, fun p h1 h2 => by omega,
      fun h => by omega, fun h => by omega⟩
  | succ n ih =>
    intro s i hf hj ha hij
    rw [scanLess]
    by_cases hle : i ≤ j
    · rw [if_pos hle]
      have hc := lessAt_coveredAt less s i a (by omega) ha
      by_cases h1 : (lessAt less s i a).1 = true
      · rw [if_pos h1]
        obtain ⟨e1, e2, e3, e4, e5, e6, e7⟩ := ih (lessAt less s i a).2 (i + 1) (by omega)
          (by rw [lessAt_data]; exact hj) (by rw [lessAt_data]; exact ha) (by omega)
        rw [lessAt_data] at e1
        refine ⟨e1, by omega, e3, fun p h => e4 p (h.lessAt less i a), ?_, e6,
          fun _ => e4 a hc.2⟩
        intro p hp1 hp2
        by_cases hpi : p = i
        · subst hpi; exact e4 p hc.1
        · exact e5 p (by omega) hp2
      · rw [if_neg h1]
        exact ⟨lessAt_data .., le_refl _, by omega, fun p h => h.lessAt less i a,
          fun p h1 h2 => by omega, fun _ => hc.1, fun _ => hc.2⟩
    · rw [if_neg hle]
      exact ⟨rfl, le_refl _, hij, fun p h => h, fun p h1 h2 => by omega,
        fun h => by omega, fun h => absurd h hle⟩

theorem scanNotLess_cov (less : α → α → Bool) (a i : Nat) (hi : 1 ≤ i) :
    ∀ (n : Nat) (s : SortState α) (j : Nat), j + 1 - i ≤ n → j < s.1.length →
      a < s.1.length → i ≤ j + 1 →
      (scanNotLess less a n s i j).2.1 = s.1 ∧
      (scanNotLess less a n s i j).1 ≤ j ∧ i ≤ (scanNotLess less a n s i j).1 + 1 ∧
      (∀ p, CoveredAt s p → CoveredAt (scanNotLess less a n s i j).2 p) ∧
      (∀ p, (scanNotLess less a n s i j).1 < p → p ≤ j →
        CoveredAt (scanNotLess less a n s i j).2 p) ∧
      (i ≤ (scanNotLess less a n s i j).1 →
        CoveredAt (scanNotLess less a n s i j).2 (scanNotLess less a n s i j).1) := by
  intro n
  induction n with
  | zero =>
    intro s j hf hj ha hij
    rw [scanNotLess]
    exact ⟨rfl, le_refl _, hij, fun p h => h, fun p h1 h2 => by omega, fun h => by omega⟩
  | succ n ih =>
    intro s j hf hj ha hij
    rw [scanNotLess]
    by_cases hle : i ≤ j
    · rw [if_pos hle]
      have hc := lessAt_coveredAt less s j a hj ha
      by_cases h1 : (lessAt less s j a).1 = true
      · rw [if_pos h1]
        exact ⟨lessAt_data .., le_refl _, by omega, fun p h => h.lessAt less j a,
          fun p h1 h2 => by omega, fun _ => hc.1⟩
      · rw [if_neg h1]
        obtain ⟨e1, e2, e3, e4, e5, e6⟩ := ih (lessAt less s j a).2 (j - 1) (by omega)
          (by rw [lessAt_data]; omega) (by rw [lessAt_data]; exact ha) (by omega)
        rw [lessAt_data] at e1
        refine ⟨e1, by omega, e3, fun p h => e4 p (h.lessAt less j a), ?_, e6⟩
        intro p hp1 hp2
        by_cases hpj : p = j
        · subst hpj; exact e4 p hc.1
        · exact e5 p hp1 (by omega)
    · rw [if_neg hle]
      exact ⟨rfl, le_refl _, hij, fun p h => h, fun p h1 h2 => by omega, fun h => by omega⟩

theorem partitionLoop_cov (less : α → α → Bool) (a b : Nat) :
    ∀ (n : Nat) (s : SortState α) (i j : Nat), j + 1 - i ≤ n → a < i → a ≤ j → j < b →
      b ≤ s.1.length →
      (∀ p, a ≤ p → p < i → CoveredAt s p) → (∀ p, j < p → p < b → CoveredAt s p) →
      a ≤ (partitionLoop less a n s i j).1 ∧ (partitionLoop less a n s i j).1 < b ∧
      ∀ p, a ≤ p → p < b → CoveredAt (partitionLoop less a n s i j).2 p := by
  intro n
  induction n with
  | zero =>
    intro s i j hf hai haj hjb hb hlo hhi
    rw [partitionLoop]
    refine ⟨haj, hjb, ?_⟩
    intro p hp1 hp2
    by_cases hpi : p < i
    · exact hlo p hp1 hpi
    · exact hhi p (by omega) hp2
  | succ n ih =>
    intro s i j hf hai haj hjb hb hlo hhi
    rw [partitionLoop]
    by_cases hij : i ≤ j + 1
    · have h1 := scanLess_cov less a j (j + 1 - i) s i (le_refl _) (by omega) (by omega) hij
      generalize scanLess less a (j + 1 - i) s i j = r1 at h1 ⊢
      obtain ⟨d1, l1, u1, pr1, c1, st1, _⟩ := h1
      dsimp only
      have h2 := scanNotLess_cov less a r1.1 (by omega) (j + 1 - r1.1) r1.2 j (le_refl _)
        (by rw [d1]; omega) (by rw [d1]; omega) u1
      generalize scanNotLess less a (j + 1 - r1.1) r1.2 r1.1 j = r2 at h2 ⊢
      obtain ⟨d2, u2, l2, pr2, c2, st2⟩ := h2
      have hall : ∀ p, a ≤ p → p < b → (p < r1.1 ∨ r2.1 < p) → CoveredAt r2.2 p := by
        intro p hp1 hp2 hp
        by_cases hpi : p < i
        · exact pr2 p (pr1 p (hlo p hp1 hpi))
        · by_cases hpi1 : p < r1.1
          · exact pr2 p (c1 p (by omega) hpi1)
          · by_cases hpj : p ≤ j
            · exact c2 p (by omega) hpj
            · exact pr2 p (pr1 p (hhi p (by omega) hp2))
      by_cases hgt : r1.1 > r2.1
      · rw [if_pos hgt]
        exact ⟨by omega, by omega, fun p hp1 hp2 => hall p hp1 hp2 (by omega)⟩
      · rw [if_neg hgt]
        have hci : CoveredAt r2.2 r1.1 := pr2 r1.1 (st1 (by omega))
        have hcj : CoveredAt r2.2 r2.1 := st2 (by omega)
        exact ih (swapAt r2.2 r1.1 r2.1) (r1.1 + 1) (r2.1 - 1) (by omega) (by omega) (by omega)
          (by omega) (by rw [swapAt_length, d2, d1]; exact hb)
          (by
            intro p hp1 hp2
            by_cases hpi1 : p = r1.1
            · rw [hpi1]; exact hci.swapAt r1.1 r2.1 hci hcj
            · exact (hall p hp1 (by omega) (Or.inl (by omega))).swapAt r1.1 r2.1 hci hcj)
          (by
            intro p hp1 hp2
            by_cases hpj1 : p = r2.1
            · rw [hpj1]; exact hcj.swapAt r1.1 r2.1 hci hcj
            · exact (hall p (by omega) hp2 (Or.inr (by omega))).swapAt r1.1 r2.1 hci hcj)
    · have e1 : scanLess less a (j + 1 - i) s i j = (i, s) := by
        have : j + 1 - i = 0 := by omega
        rw [this, scanLess]
      rw [e1]
      dsimp only
      have e2 : scanNotLess less a (j + 1 - i) s i j = (j, s) := by
        have : j + 1 - i = 0 := by omega
        rw [this, scanNotLess]
      rw [e2]
      dsimp only
      rw [if_pos (by omega)]
      refine ⟨haj, hjb, ?_⟩
      intro p hp1 hp2
      by_cases hpi : p < i
      · exact hlo p hp1 hpi
      · exact hhi p (by omega) hp2

/-- Every element of `data[a:b]` is compared by `partition_func` when the range has at least two
elements. -/
theorem partition_cov (less : α → α → Bool) (s : SortState α) (a b pivot : Nat)
    (hab : a + 1 < b) (hb : b ≤ s.1.length) :
    ∀ p, a ≤ p → p < b → CoveredAt (partition less s a b pivot).2.2 p := by
  unfold partition
  have hlen0 : (swapAt s a pivot).1.length = s.1.length := swapAt_length s a pivot
  have h1 := scanLess_cov less a (b - 1) (b - a) (swapAt s a pivot) (a + 1) (by omega)
    (by omega) (by omega) (by omega)
  generalize scanLess less a (b - a) (swapAt s a pivot) (a + 1) (b - 1) = r1 at h1 ⊢
  obtain ⟨d1, l1, u1, pr1, c1, st1, ca1⟩ := h1
  dsimp only
  have h2 := scanNotLess_cov less a r1.1 (by omega) (b - a) r1.2 (b - 1) (by omega)
    (by rw [d1]; omega) (by rw [d1]; omega) u1
  generalize scanNotLess less a (b - a) r1.2 r1.1 (b - 1) = r2 at h2 ⊢
  obtain ⟨d2, u2, l2, pr2, c2, st2⟩ := h2
  have hca : CoveredAt r2.2 a := pr2 a (ca1 (by omega))
  have hall : ∀ p, a ≤ p → p < b → (p < r1.1 ∨ r2.1 < p) → CoveredAt r2.2 p := by
    intro p hp1 hp2 hp
    by_cases hpa : p = a
    · rw [hpa]; exact hca
    · by_cases hpi1 : p < r1.1
      · exact pr2 p (c1 p (by omega) hpi1)
      · exact c2 p (by omega) (by omega)
  by_cases hgt : r1.1 > r2.1
  · rw [if_pos hgt]
    dsimp only
    intro p hp1 hp2
    exact (hall p hp1 hp2 (by omega)).swapAt r2.1 a (hall r2.1 (by omega) (by omega) (by omega))
      hca
  · rw [if_neg hgt]
    have hci : CoveredAt r2.2 r1.1 := pr2 r1.1 (st1 (by omega))
    have hcj : CoveredAt r2.2 r2.1 := st2 (by omega)
    have h3 := partitionLoop_cov less a b (b - a) (swapAt r2.2 r1.1 r2.1) (r1.1 + 1) (r2.1 - 1)
      (by omega) (by omega) (by omega) (by omega) (by rw [swapAt_length, d2, d1, hlen0]; exact hb)
      (by
        intro p hp1 hp2
        by_cases hpi1 : p = r1.1
        · rw [hpi1]; exact hci.swapAt r1.1 r2.1 hci hcj
        · exact (hall p hp1 (by omega) (Or.inl (by omega))).swapAt r1.1 r2.1 hci hcj)
      (by
        intro p hp1 hp2
        by_cases hpj1 : p = r2.1
        · rw [hpj1]; exact hcj.swapAt r1.1 r2.1 hci hcj
        · exact (hall p (by omega) hp2 (Or.inr (by omega))).swapAt r1.1 r2.1 hci hcj)
    generalize partitionLoop less a (b - a) (swapAt r2.2 r1.1 r2.1) (r1.1 + 1) (r2.1 - 1) = r3
      at h3 ⊢
    obtain ⟨m1, m2, c3⟩ := h3
    dsimp only
    intro p hp1 hp2
    exact (c3 p hp1 hp2).swapAt r3.1 a (c3 r3.1 m1 m2) (c3 a (le_refl _) (by omega))

theorem scanOrdered_cov (less : α → α → Bool) (b : Nat) :
    ∀ (n : Nat) (s : SortState α) (i : Nat), b - i ≤ n → 1 ≤ i → i < b → b ≤ s.1.length →
      (scanOrdered less b n s i).2.1 = s.1 ∧
      i ≤ (scanOrdered less b n s i).1 ∧ (scanOrdered less b n s i).1 ≤ b ∧
      (∀ p, CoveredAt s p → CoveredAt (scanOrdered less b n s i).2 p) ∧
      (∀ p, i ≤ p + 1 → p ≤ (scanOrdered less b n s i).1 → p < b →
        CoveredAt (scanOrdered less b n s i).2 p) := by
  intro n
  induction n with
  | zero => intro s i hf h1 hib hb; omega
  | succ n ih =>
    intro s i hf h1 hib hb
    rw [scanOrdered, if_pos hib]
    have hc := lessAt_coveredAt less s i (i - 1) (by omega) (by omega)
    by_cases hl : (lessAt less s i (i - 1)).1 = true
    · rw [if_pos hl]
      refine ⟨lessAt_data .., le_refl _, by omega, fun p h => h.lessAt less i (i - 1), ?_⟩
      intro p hp1 hp2 _
      by_cases hpi : p = i
      · rw [hpi]; exact hc.1
      · have : p = i - 1 := by omega
        rw [this]; exact hc.2
    · rw [if_neg hl]
      by_cases hi1 : i + 1 < b
      · obtain ⟨e1, e2, e3, e4, e5⟩ := ih (lessAt less s i (i - 1)).2 (i + 1) (by omega)
          (by omega) hi1 (by rw [lessAt_data]; exact hb)
        rw [lessAt_data] at e1
        refine ⟨e1, by omega, e3, fun p h => e4 p (h.lessAt less i (i - 1)), ?_⟩
        intro p hp1 hp2 hp3
        by_cases hpi : p + 1 = i
        · have : p = i - 1 := by omega
          rw [this]; exact e4 _ hc.2
        · exact e5 p (by omega) hp2 hp3
      · have e : scanOrdered less b n (lessAt less s i (i - 1)).2 (i + 1)
            = (i + 1, (lessAt less s i (i - 1)).2) := by
          cases n with
          | zero => rw [scanOrdered]
          | succ n => rw [scanOrdered, if_neg hi1]
        rw [e]
        refine ⟨lessAt_data .., by omega, by omega, fun p h => h.lessAt less i (i - 1), ?_⟩
        intro p hp1 hp2 hp3
        by_cases hpi : p = i
        · rw [hpi]; exact hc.1
        · have : p = i - 1 := by omega
          rw [this]; exact hc.2

theorem shiftLeft_cov (less : α → α → Bool) :
    ∀ (j : Nat) (s : SortState α), j < s.1.length →
      ∀ p, CoveredAt s p → CoveredAt (shiftLeft less j s) p := by
  intro j
  induction j with
  | zero => intro s hj p hp; rw [shiftLeft]; exact hp
  | succ j ih =>
    intro s hj p hp
    rw [shiftLeft]
    have hc := lessAt_coveredAt less s (j + 1) j hj (by omega)
    split
    · exact ih _ (by rw [swapAt_length, lessAt_data]; omega) p
        ((hp.lessAt less (j + 1) j).swapAt (j + 1) j hc.1 hc.2)
    · exact hp.lessAt less (j + 1) j

theorem shiftRight_cov (less : α → α → Bool) (b : Nat) :
    ∀ (n : Nat) (s : SortState α) (j : Nat), 1 ≤ j → b ≤ s.1.length →
      ∀ p, CoveredAt s p → CoveredAt (shiftRight less b n s j) p := by
  intro n
  induction n with
  | zero => intro s j hj hb p hp; rw [shiftRight]; exact hp
  | succ n ih =>
    intro s j hj hb p hp
    rw [shiftRight]
    split
    · rename_i hjb
      have hc := lessAt_coveredAt less s j (j - 1) (by omega) (by omega)
      split
      · exact ih _ (j + 1) (by omega) (by rw [swapAt_length, lessAt_data]; exact hb) p
          ((hp.lessAt less j (j - 1)).swapAt j (j - 1) hc.1 hc.2)
      · exact hp.lessAt less j (j - 1)
    · exact hp

theorem partialInsertionSortSteps_cov (less : α → α → Bool) (a b : Nat) :
    ∀ (k : Nat) (s : SortState α) (i : Nat), a < i → i < b → b ≤ s.1.length →
      (∀ p, a ≤ p → p + 1 < i → CoveredAt s p) →
      (partialInsertionSortSteps less a b k s i).1 = true →
      ∀ p, a ≤ p → p < b → CoveredAt (partialInsertionSortSteps less a b k s i).2 p := by
  intro k
  induction k with
  | zero =>
    intro s i hai hib hb hcov
    rw [partialInsertionSortSteps]
    intro h; exact absurd h (by simp)
  | succ k ih =>
    intro s i hai hib hb hcov
    rw [partialInsertionSortSteps]
    have h1 := scanOrdered_cov less b (b - i) s i (le_refl _) (by omega) hib hb
    generalize scanOrdered less b (b - i) s i = sc at h1 ⊢
    obtain ⟨d1, l1, u1, pr1, c1⟩ := h1
    dsimp only
    have hall : ∀ p, a ≤ p → p ≤ sc.1 → p < b → CoveredAt sc.2 p := by
      intro p hp1 hp2 hp3
      by_cases hpi : p + 1 < i
      · exact pr1 p (hcov p hp1 hpi)
      · exact c1 p (by omega) hp2 hp3
    by_cases hi1b : sc.1 = b
    · rw [if_pos hi1b]
      intro _ p hp1 hp2
      exact hall p hp1 (by omega) hp2
    · rw [if_neg hi1b]
      by_cases h50 : b - a < 50
      · rw [if_pos h50]
        intro h; exact absurd h (by simp)
      · rw [if_neg h50]
        have hci : CoveredAt sc.2 sc.1 := hall sc.1 (by omega) (le_refl _) (by omega)
        have hci1 : CoveredAt sc.2 (sc.1 - 1) := hall (sc.1 - 1) (by omega) (by omega) (by omega)
        have hlen2 : (swapAt sc.2 sc.1 (sc.1 - 1)).1.length = s.1.length := by
          rw [swapAt_length, d1]
        have h3 : (if sc.1 - a ≥ 2 then shiftLeft less (sc.1 - 1) (swapAt sc.2 sc.1 (sc.1 - 1))
              else swapAt sc.2 sc.1 (sc.1 - 1)).1.length = s.1.length ∧
            ∀ p, CoveredAt (swapAt sc.2 sc.1 (sc.1 - 1)) p →
              CoveredAt (if sc.1 - a ≥ 2 then
                  shiftLeft less (sc.1 - 1) (swapAt sc.2 sc.1 (sc.1 - 1))
                else swapAt sc.2 sc.1 (sc.1 - 1)) p := by
          split
          · exact ⟨by rw [(shiftLeft_ext less _ _).length_eq, hlen2],
              shiftLeft_cov less (sc.1 - 1) _ (by rw [hlen2]; omega)⟩
          · exact ⟨hlen2, fun p h => h⟩
        generalize (if sc.1 - a ≥ 2 then shiftLeft less (sc.1 - 1) (swapAt sc.2 sc.1 (sc.1 - 1))
              else swapAt sc.2 sc.1 (sc.1 - 1)) = s3 at h3 ⊢
        obtain ⟨hlen3, pr3⟩ := h3
        have h4 : (if b - sc.1 ≥ 2 then shiftRight less b (b - sc.1) s3 (sc.1 + 1)
              else s3).1.length = s.1.length ∧
            ∀ p, CoveredAt s3 p →
              CoveredAt (if b - sc.1 ≥ 2 then shiftRight less b (b - sc.1) s3 (sc.1 + 1)
                else s3) p := by
          split
          · exact ⟨by rw [(shiftRight_ext less _ _ _ _).length_eq, hlen3],
              shiftRight_cov less b _ s3 (sc.1 + 1) (by omega) (by rw [hlen3]; exact hb)⟩
          · exact ⟨hlen3, fun p h => h⟩
        generalize (if b - sc.1 ≥ 2 then shiftRight less b (b - sc.1) s3 (sc.1 + 1)
              else s3) = s4 at h4 ⊢
        obtain ⟨hlen4, pr4⟩ := h4
        exact ih s4 sc.1 (by omega) (by omega) (by rw [hlen4]; exact hb)
          (by
            intro p hp1 hp2
            exact pr4 p (pr3 p ((hall p hp1 (by omega) (by omega)).swapAt sc.1 (sc.1 - 1)
              hci hci1)))

/-- When `partialInsertionSort_func` reports the range sorted, it has compared every element
of it. -/
theorem partialInsertionSort_cov (less : α → α → Bool) (s : SortState α) (a b : Nat)
    (hab : a + 1 < b) (hb : b ≤ s.1.length)
    (h : (partialInsertionSort less s a b).1 = true) :
    ∀ p, a ≤ p → p < b → CoveredAt (partialInsertionSort less s a b).2 p :=
  partialInsertionSortSteps_cov less a b 5 s (a + 1) (by omega) hab hb
    (by intro p hp1 hp2; omega) h

end SortLoops

section SortSliceFacts

variable {α : Type} (less : α → α → Bool)

theorem sortSlice_ext (xs : List α) : Ext (xs, []) (sortSlice less xs) :=
  pdqsort_ext less _ _ _ _ _ _ _

theorem sortSlice_perm (xs : List α) : (sortSlice less xs).1.Perm xs :=
  (sortSlice_ext less xs).1

/-- Every comparator call made by `sort.Slice` is on two elements of the slice. -/
theorem sortSlice_calls_mem (xs : List α) :
    ∀ c ∈ (sortSlice less xs).2, c.1 ∈ xs ∧ c.2 ∈ xs := by
  obtain ⟨_, new, hnew, hmem⟩ := sortSlice_ext less xs
  intro c hc
  rw [hnew] at hc
  simp only [List.nil_append] at hc
  exact hmem c hc

/-- On a slice of at most twelve elements `sort.Slice` is the insertion sort. -/
theorem sortSlice_le_twelve (xs : List α) (hlen : xs.length ≤ 12) :
    sortSlice less xs = insertionSort less xs [] [] := by
  unfold sortSlice
  rw [pdqsort, if_pos (by omega)]
  unfold insertionSortRange
  rw [if_pos ⟨Nat.zero_le _, le_refl _⟩]
  simp

theorem insertionSort_covers_all (xs : List α) (hlen : 2 ≤ xs.length) :
    ∀ x ∈ xs, ∃ c ∈ (insertionSort less xs [] []).2, c.1 = x ∨ c.2 = x := by
  match xs, hlen with
  | a :: b :: rest, _ =>
    intro x hx
    have hstep : insertionSort less (a :: b :: rest) [] []
        = insertionSort less rest (sink less b [a]).1 ([] ++ (sink less b [a]).2) := by
      simp [insertionSort, sink]
    have hfirst : (b, a) ∈ (sink less b [a]).2 := by
      by_cases h : less b a = true <;> simp [sink, h]
    have hfirst2 : (b, a) ∈ (insertionSort less (a :: b :: rest) [] []).2 := by
      rw [hstep]
      exact insertionSort_calls_mono less _ _ _ _ (List.mem_append_right _ hfirst)
    rcases List.mem_cons.mp hx with rfl | hx
    · exact ⟨_, hfirst2, Or.inr rfl⟩
    rcases List.mem_cons.mp hx with rfl | hx
    · exact ⟨_, hfirst2, Or.inl rfl⟩
    · rw [hstep]
      obtain ⟨c, hc, hcx⟩ :=
        insertionSort_covers less rest _ ([] ++ (sink less b [a]).2) (sink_ne_nil less b [a]) x hx
      exact ⟨c, hc, Or.inl hcx⟩

theorem covered_of_coveredAt (s t : SortState α) (n : Nat) (hlen : s.1.length = n)
    (hcov : ∀ p, 0 ≤ p → p < n → CoveredAt s p) (hext : Ext s t) :
    ∀ x ∈ s.1, Covered t.2 x := by
  intro x hx
  obtain ⟨p, hp⟩ := List.mem_iff_getElem?.mp hx
  have hpn : p < n := by rw [← hlen]; exact lt_of_getElem?_some hp
  exact hext.covered x (hcov p (Nat.zero_le _) hpn x hp)

/-- On a slice of at least two elements every element takes part in a comparator call. -/
theorem sortSlice_covers (xs : List α) (hlen : 2 ≤ xs.length) :
    ∀ x ∈ xs, ∃ c ∈ (sortSlice less xs).2, c.1 = x ∨ c.2 = x := by
  by_cases h12 : xs.length ≤ 12
  · rw [sortSlice_le_twelve less xs h12]
    exact insertionSort_covers_all less xs hlen
  · have hlim : bitsLen xs.length ≠ 0 := by
      unfold bitsLen
      rw [if_neg (by omega)]
      omega
    unfold sortSlice
    rw [pdqsort, if_neg (by omega), if_neg hlim]
    dsimp only
    rw [if_pos rfl, if_pos rfl]
    have hcp := choosePivot_ext less (xs, []) 0 xs.length
    generalize choosePivot less (xs, []) 0 xs.length = cp at hcp ⊢
    have hs3 : Ext cp.2.2 (if cp.2.1 = SortedHint.decreasingHint then
          reverseRange cp.2.2 0 xs.length else cp.2.2) := by
      split
      · exact reverseRange_ext ..
      · exact Ext.extRefl _
    generalize (if cp.2.1 = SortedHint.decreasingHint then
          reverseRange cp.2.2 0 xs.length else cp.2.2) = s3 at hs3 ⊢
    generalize (if cp.2.1 = SortedHint.decreasingHint then xs.length - 1 - (cp.1 - 0) else cp.1)
      = pivot
    generalize (if cp.2.1 = SortedHint.decreasingHint then SortedHint.increasingHint
      else cp.2.1) = hint
    have hx3 : Ext (xs, []) s3 := hcp.2.extTrans hs3
    have hlen3 : s3.1.length = xs.length := hx3.length_eq
    have hr : Ext s3 (if (true && true && decide (hint = SortedHint.increasingHint)) = true then
            partialInsertionSort less s3 0 xs.length else (false, s3)).2 ∧
        ((if (true && true && decide (hint = SortedHint.increasingHint)) = true then
            partialInsertionSort less s3 0 xs.length else (false, s3)).1 = true →
          ∀ p, 0 ≤ p → p < xs.length →
            CoveredAt (if (true && true && decide (hint = SortedHint.increasingHint)) = true then
              partialInsertionSort less s3 0 xs.length else (false, s3)).2 p) := by
      split
      · exact ⟨partialInsertionSort_ext .., fun h =>
          partialInsertionSort_cov less s3 0 xs.length (by omega) (by omega) h⟩
      · exact ⟨Ext.extRefl _, fun h => absurd h (by simp)⟩
    generalize (if (true && true && decide (hint = SortedHint.increasingHint)) = true then
            partialInsertionSort less s3 0 xs.length else (false, s3)) = r at hr ⊢
    obtain ⟨xr, cr⟩ := hr
    have hxr : Ext (xs, []) r.2 := hx3.extTrans xr
    have hlenr : r.2.1.length = xs.length := hxr.length_eq
    by_cases hr1 : r.1 = true
    · rw [if_pos hr1]
      intro x hx
      exact covered_of_coveredAt r.2 r.2 xs.length hlenr (cr hr1) (Ext.extRefl _) x
        (hxr.1.mem_iff.mpr hx)
    · rw [if_neg hr1, if_neg (by omega : ¬ 0 > 0)]
      rw [if_neg (by simp)]
      have hpt := partition_ext less r.2 0 xs.length pivot
      have hptc := partition_cov less r.2 0 xs.length pivot (by omega) (by omega)
      generalize partition less r.2 0 xs.length pivot = pt at hpt hptc ⊢
      have hxp : Ext (xs, []) pt.2.2 := hxr.extTrans hpt
      intro x hx
      have hfin : ∀ t, Ext pt.2.2 t → ∃ c ∈ t.2, c.1 = x ∨ c.2 = x := fun t ht =>
        covered_of_coveredAt pt.2.2 t xs.length hxp.length_eq hptc ht x (hxp.1.mem_iff.mpr hx)
      split
      · exact hfin _ ((pdqsort_ext less _ _ _ _ _ _ _).extTrans (pdqsort_ext less _ _ _ _ _ _ _))
      · exact hfin _ ((pdqsort_ext less _ _ _ _ _ _ _).extTrans (pdqsort_ext less _ _ _ _ _ _ _))

/-- A slice of at most one element is returned as it is, without any comparator call. -/
theorem sortSlice_short (xs : List α) (hlen : xs.length ≤ 1) : sortSlice less xs = (xs, []) := by
  rw [sortSlice_le_twelve less xs (by omega)]
  match xs, hlen with
  | [], _ => rfl
  | [a], _ => rfl

theorem keyAt_getElem (key : α → Int) (d : List α) (p : Nat) (h : p < d.length) :
    keyAt key d p = key (d.get ⟨p, h⟩) := by
  apply keyAt_of_some
  rw [List.getElem?_eq_getElem h]
  rfl

/-- Sortedness: when the comparator is the strict order of a key, the keys of the result are
non-decreasing. -/
theorem sortSlice_sorted (key : α → Int) (hless : ∀ a b, less a b = decide (key a < key b))
    (xs : List α) : (sortSlice less xs).1.Pairwise (fun a b => key a ≤ key b) := by
  have hspec := pdqsort_spec less key hless (xs.length + 1) (xs, []) 0 xs.length
    (bitsLen xs.length) true true (by omega) (Nat.zero_le _) (le_refl _)
    (by intro p h0; omega)
  have hlen : (sortSlice less xs).1.length = xs.length := (sortSlice_perm less xs).length_eq
  rw [List.pairwise_iff_get]
  intro i j hij
  have hso : SortedOn key 0 xs.length (sortSlice less xs).1 := hspec.2.2
  have := hso i.1 j.1 (Nat.zero_le _) hij (by rw [← hlen]; exact j.2)
  rw [keyAt_getElem key _ i.1 i.2, keyAt_getElem key _ j.1 j.2] at this
  exact this

/-- The inner loop of the insertion sort does not move an element past one of the same key. -/
theorem sink_filter (key : α → Int) (hless : ∀ a b, less a b = decide (key a < key b))
    (k : Int) (x : α) (acc : List α) :
    (sink less x acc).1.filter (fun y => decide (key y = k))
      = (x :: acc).filter (fun y => decide (key y = k)) := by
  induction acc with
  | nil => simp [sink]
  | cons y ys ih =>
    by_cases h : less x y = true
    · simp only [sink, h, if_true]
      have hlt : key x < key y := by
        rw [hless] at h; exact of_decide_eq_true h
      rw [List.filter_cons, ih]
      by_cases hy : key y = k
      · have hx : ¬ key x = k := by omega
        simp [List.filter_cons, hy, hx]
      · simp [List.filter_cons, hy]
    · simp [sink, h]

theorem insertionSort_filter (key : α → Int)
    (hless : ∀ a b, less a b = decide (key a < key b)) (k : Int)
    (xs acc : List α) (calls : List (α × α)) :
    (insertionSort less xs acc calls).1.filter (fun y => decide (key y = k))
      = (acc.reverse ++ xs).filter (fun y => decide (key y = k)) := by
  induction xs generalizing acc calls with
  | nil => simp [insertionSort]
  | cons x xs ih =>
    simp only [insertionSort]
    rw [ih, List.filter_append, List.filter_reverse, sink_filter less key hless k x acc,
      ← List.filter_reverse, ← List.filter_append]
    simp

/-- Up to twelve elements `sort.Slice` is stable: elements of the same key keep their
order. -/
theorem sortSlice_stable (key : α → Int) (hless : ∀ a b, less a b = decide (key a < key b))
    (k : Int) (xs : List α) (hlen : xs.length ≤ 12) :
    (sortSlice less xs).1.filter (fun y => decide (key y = k))
      = xs.filter (fun y => decide (key y = k)) := by
  rw [sortSlice_le_twelve less xs hlen, insertionSort_filter less key hless k xs [] []]
  simp

end SortSliceFacts

/-! ## Facts about the enumeration helpers -/

theorem compareErrors_foldl (calls : List (String × String)) (ec : ErrorCompounder) :
    (calls.foldl (fun ec c => (ec.add (asTimeStamp c.1).2).add (asTimeStamp c.2).2) ec).errors = []
      ↔ ec.errors = [] ∧ ∀ c ∈ calls, (asTimeStamp c.1).2 = none ∧ (asTimeStamp c.2).2 = none := by
  induction calls generalizing ec with
  | nil => simp
  | cons c cs ih =>
    rw [List.foldl_cons, ih]
    simp only [List.forall_mem_cons]
    generalize (asTimeStamp c.1).2 = o1
    generalize (asTimeStamp c.2).2 = o2
    cases o1 <;> cases o2 <;> simp [ErrorCompounder.add]

theorem toError_eq_none (ec : ErrorCompounder) : ec.toError = none ↔ ec.errors = [] := by
  cases ec with
  | mk errors => cases errors <;> simp [ErrorCompounder.toError]

/-- The compounder reports no error exactly when both arguments of every comparator call
decode. -/
theorem compareErrors_none (calls : List (String × String)) :
    (compareErrors calls).toError = none
      ↔ ∀ c ∈ calls, (asTimeStamp c.1).2 = none ∧ (asTimeStamp c.2).2 = none := by
  rw [toError_eq_none, compareErrors, compareErrors_foldl]
  simp

theorem removeTmpScratchFiles_eq (xs : List String) :
    removeTmpScratchFiles xs = xs.filter (fun n => !hasSuffix n ".scratch.tmp") := by
  induction xs with
  | nil => rfl
  | cons x xs ih =>
    by_cases h : hasSuffix x ".scratch.tmp" = true <;> simp [removeTmpScratchFiles, h, ih]

/-- When no unlink fails, `removeTmpCombiningFiles` keeps the entries not ending in
`.combined.tmp` and the directory loses exactly the listed entries with that ending. -/
theorem removeTmpCombiningFiles_ok (fs : FileSystem) (xs : List String)
    (hok : unlinksSucceed fs xs) :
    removeTmpCombiningFiles fs xs =
      ({ fs with entries :=
            fs.entries.filter (fun e => !(decide (e ∈ xs) && hasSuffix e ".combined.tmp")) },
        xs.filter (fun n => !hasSuffix n ".combined.tmp"), none) := by
  induction xs generalizing fs with
  | nil => simp [removeTmpCombiningFiles]
  | cons x xs ih =>
    have hrest : ∀ fs1 : FileSystem, fs1.unremovable = fs.unremovable → unlinksSucceed fs1 xs :=
      fun fs1 h1 n hn hs => by
        rw [h1]; exact hok n (List.mem_cons_of_mem _ hn) hs
    by_cases h : hasSuffix x ".combined.tmp" = true
    · have hx : x ∉ fs.unremovable := hok x (List.mem_cons_self _ _) h
      simp only [removeTmpCombiningFiles, h, if_true, osRemove, hx, if_false]
      rw [ih { fs with entries := fs.entries.filter (fun e => e != x) } (hrest _ rfl)]
      simp only [List.filter_filter, List.filter_cons, h, Bool.not_true, Bool.false_eq_true,
        if_false]
      congr 2
      apply List.filter_congr
      intro e _
      by_cases hex : e = x
      · subst hex; simp [h]
      · simp [hex]
    · simp only [removeTmpCombiningFiles, h, Bool.false_eq_true, if_false]
      rw [ih fs (hrest fs rfl)]
      simp only [List.filter_cons, h, Bool.not_false, if_true]
      congr 2
      apply List.filter_congr
      intro e _
      by_cases hex : e = x
      · subst hex; simp [h]
      · simp [hex]

theorem retained_filter (xs : List String) :
    (removeTmpScratchFiles xs).filter (fun n => !hasSuffix n ".combined.tmp")
      = xs.filter retained := by
  rw [removeTmpScratchFiles_eq, List.filter_filter]
  apply List.filter_congr
  intro e _
  simp [retained, Bool.and_comm]

theorem unlinksSucceed_scratch (fs : FileSystem) (xs : List String)
    (hok : unlinksSucceed fs xs) : unlinksSucceed fs (removeTmpScratchFiles xs) := by
  intro n hn hs
  rw [removeTmpScratchFiles_eq] at hn
  exact hok n (List.mem_of_mem_filter hn) hs

theorem cleanup_ok (fs : FileSystem) (hok : unlinksSucceed fs fs.entries) :
    removeTmpCombiningFiles fs (removeTmpScratchFiles fs.entries)
      = (afterCleanup fs, fs.entries.filter retained, none) := by
  rw [removeTmpCombiningFiles_ok fs _ (unlinksSucceed_scratch fs _ hok), retained_filter]
  rfl

/-- With a listing at hand and no failing unlink, `getCommitFileNames` is the sort of the
retained entries, guarded by the error compounder. -/
theorem getCommitFileNames_listing (fs : FileSystem) (rootPath name : String)
    (hmk : fs.mkdirAllErr = none) (hrd : fs.readDirErr = none)
    (hok : unlinksSucceed fs fs.entries) :
    getCommitFileNames fs rootPath name =
      if (fs.entries.filter retained).length = 0 then (afterCleanup fs, [], none)
      else
        match (compareErrors (sortSlice lessOldestFirst (fs.entries.filter retained)).2).toError with
        | some err => (afterCleanup fs, [], some err)
        | none =>
          (afterCleanup fs,
            (sortSlice lessOldestFirst (fs.entries.filter retained)).1.map
              (commitLogFileName rootPath name), none) := by
  simp only [getCommitFileNames, hmk, hrd, cleanup_ok fs hok]

theorem lessOldestFirst_key (a b : String) :
    lessOldestFirst a b = decide ((asTimeStamp a).1 < (asTimeStamp b).1) := rfl

/-- C1. `getCommitFileNames` lists the segments from old to new: whenever a listing is
obtained, every retained entry (one ending neither in `.scratch.tmp` nor in `.combined.tmp`)
has a name that `asTimeStamp` decodes, and every unlink succeeds, the call returns no error
and the full paths of a rearrangement `names` of exactly the retained entries, whose decoded
time stamps are non-decreasing along the list (between consecutive and hence between any two
positions). -/
theorem getCommitFileNames_oldest_first (fs : FileSystem) (rootPath name : String)
    (hmk : fs.mkdirAllErr = none) (hrd : fs.readDirErr = none)
    (hparse : ∀ n ∈ fs.entries, retained n = true → (asTimeStamp n).2 = none)
    (hok : unlinksSucceed fs fs.entries) :
    ∃ names : List String,
      (getCommitFileNames fs rootPath name).2
          = (names.map (commitLogFileName rootPath name), none)
        ∧ names.Perm (fs.entries.filter retained)
        ∧ names.Chain' (fun a b => (asTimeStamp a).1 ≤ (asTimeStamp b).1)
        ∧ names.Pairwise (fun a b => (asTimeStamp a).1 ≤ (asTimeStamp b).1) := by
  rw [getCommitFileNames_listing fs rootPath name hmk hrd hok]
  by_cases hlen : (fs.entries.filter retained).length = 0
  · refine ⟨[], ?_, ?_, ?_, ?_⟩
    · simp [hlen]
    · rw [List.length_eq_zero.mp hlen]
    · exact List.chain'_nil
    · exact List.Pairwise.nil
  · have hnone : (compareErrors
        (sortSlice lessOldestFirst (fs.entries.filter retained)).2).toError = none := by
      rw [compareErrors_none]
      intro c hc
      have hmem := sortSlice_calls_mem lessOldestFirst _ c hc
      have h1 := List.mem_filter.mp hmem.1
      have h2 := List.mem_filter.mp hmem.2
      exact ⟨hparse _ h1.1 h1.2, hparse _ h2.1 h2.2⟩
    have hsorted := sortSlice_sorted lessOldestFirst (fun n => (asTimeStamp n).1)
      lessOldestFirst_key (fs.entries.filter retained)
    refine ⟨(sortSlice lessOldestFirst (fs.entries.filter retained)).1, ?_,
      sortSlice_perm _ _, List.Pairwise.chain' hsorted, hsorted⟩
    simp only [hlen, if_false, hnone]

/-- Instance of C1: a directory holding three segments, a scratch file and a combiner
temp file. -/
theorem getCommitFileNames_oldest_first_witness :
    ∃ names : List String,
      (getCommitFileNames
          ⟨["10", "3.condensed", "x.scratch.tmp", "2.combined.tmp", "3"], [], none, none⟩
          "r" "i").2 = (names.map (commitLogFileName "r" "i"), none)
        ∧ names.Perm
            ((["10", "3.condensed", "x.scratch.tmp", "2.combined.tmp", "3"] : List String).filter
              retained)
        ∧ names.Chain' (fun a b => (asTimeStamp a).1 ≤ (asTimeStamp b).1)
        ∧ names.Pairwise (fun a b => (asTimeStamp a).1 ≤ (asTimeStamp b).1) :=
  getCommitFileNames_oldest_first
    ⟨["10", "3.condensed", "x.scratch.tmp", "2.combined.tmp", "3"], [], none, none⟩ "r" "i"
    rfl rfl (by decide) (by decide)

/-! ## Unparsable names -/

theorem removeTmpCombiningFiles_none (fs : FileSystem) (xs : List String)
    (h : (removeTmpCombiningFiles fs xs).2.2 = none) :
    (removeTmpCombiningFiles fs xs).2.1 = xs.filter (fun n => !hasSuffix n ".combined.tmp") := by
  induction xs generalizing fs with
  | nil => simp [removeTmpCombiningFiles]
  | cons x xs ih =>
    by_cases hx : hasSuffix x ".combined.tmp" = true
    · by_cases hr : x ∈ fs.unremovable
      · simp [removeTmpCombiningFiles, hx, osRemove, hr] at h
      · simp only [removeTmpCombiningFiles, hx, if_true, osRemove, hr, if_false] at h ⊢
        rw [ih _ h]
        simp [List.filter_cons, hx]
    · simp only [removeTmpCombiningFiles, hx, Bool.false_eq_true, if_false] at h ⊢
      rw [ih _ h]
      simp [List.filter_cons, hx]

/-- The error and the list returned by `getCommitFileNames` are never both present. -/
theorem getCommitFileNames_error_no_list (fs : FileSystem) (rootPath name : String)
    (h : (getCommitFileNames fs rootPath name).2.2 ≠ none) :
    (getCommitFileNames fs rootPath name).2.1 = [] := by
  revert h
  unfold getCommitFileNames
  repeat' split
  all_goals simp_all

/-- With at least two retained entries, one of which does not decode, `getCommitFileNames`
returns an error and no list. -/
theorem getCommitFileNames_unparsable_rejected (fs : FileSystem) (rootPath name : String)
    (hlen : 2 ≤ (fs.entries.filter retained).length)
    (hbad : ∃ n ∈ fs.entries, retained n = true ∧ (asTimeStamp n).2 ≠ none) :
    (getCommitFileNames fs rootPath name).2.2 ≠ none
      ∧ (getCommitFileNames fs rootPath name).2.1 = [] := by
  suffices h : (getCommitFileNames fs rootPath name).2.2 ≠ none from
    ⟨h, getCommitFileNames_error_no_list fs rootPath name h⟩
  obtain ⟨n, hn, hret, hnp⟩ := hbad
  unfold getCommitFileNames
  split
  · simp
  · split
    · simp
    · split
      · simp
      · rename_i fs1 files hrm
        have hfiles : files = fs.entries.filter retained := by
          have := removeTmpCombiningFiles_none fs (removeTmpScratchFiles fs.entries)
            (by rw [hrm])
          rw [hrm, retained_filter] at this
          exact this
        subst hfiles
        have hne : ¬ (fs.entries.filter retained).length = 0 := by omega
        simp only [hne, if_false]
        obtain ⟨c, hc, hcn⟩ := sortSlice_covers lessOldestFirst _ hlen n
          (List.mem_filter.mpr ⟨hn, hret⟩)
        have herr : (compareErrors
            (sortSlice lessOldestFirst (fs.entries.filter retained)).2).toError ≠ none := by
          intro hnone
          rw [compareErrors_none] at hnone
          rcases hcn with h1 | h2
          · exact hnp (h1 ▸ (hnone c hc).1)
          · exact hnp (h2 ▸ (hnone c hc).2)
        split
        · simp
        · rename_i hnone
          exact absurd hnone herr

/-- A listing whose only retained entry is `n` is accepted whatever `n` is: the comparator,
which is the only place where names are decoded, is never called on a slice of one element. -/
theorem getCommitFileNames_single (fs : FileSystem) (rootPath name n : String)
    (hmk : fs.mkdirAllErr = none) (hrd : fs.readDirErr = none)
    (hok : unlinksSucceed fs fs.entries) (hone : fs.entries.filter retained = [n]) :
    (getCommitFileNames fs rootPath name).2 = ([commitLogFileName rootPath name n], none) := by
  rw [getCommitFileNames_listing fs rootPath name hmk hrd hok, hone]
  simp [sortSlice_short lessOldestFirst [n] (by simp), compareErrors,
    ErrorCompounder.toError]

/-- C2 (failing input). In a directory whose only file is `foo`, a name that `asTimeStamp`
cannot decode, `getCommitFileNames` returns the list with the path of `foo` and a nil error
instead of aborting the enumeration; the same happens next to temporary files. -/
theorem getCommitFileNames_single_unparsable_accepted :
    (asTimeStamp "foo").2 ≠ none
      ∧ (getCommitFileNames ⟨["foo"], [], none, none⟩ "r" "i").2
          = (["r/i.hnsw.commitlog.d/foo"], none)
      ∧ (getCommitFileNames ⟨["0.scratch.tmp", "foo", "1.combined.tmp"], [], none, none⟩
            "r" "i").2 = (["r/i.hnsw.commitlog.d/foo"], none) := by
  decide

/-! ## Names that decode -/

theorem hasSuffix_iff (s suffix : String) :
    hasSuffix s suffix = true ↔ ∃ t, s.data = t ++ suffix.data := by
  unfold hasSuffix
  rw [List.isSuffixOf_iff_suffix]
  constructor
  · rintro ⟨t, ht⟩; exact ⟨t, ht.symm⟩
  · rintro ⟨t, ht⟩; exact ⟨t, ht.symm⟩

theorem hasSuffix_getLast (s suffix : String) (c : Char) (h : hasSuffix s suffix = true)
    (hc : suffix.data.getLast? = some c) : s.data.getLast? = some c := by
  obtain ⟨t, ht⟩ := (hasSuffix_iff s suffix).mp h
  have hne : suffix.data ≠ [] := by
    intro h0; rw [h0] at hc; simp at hc
  rw [ht, List.getLast?_append_of_ne_nil _ hne, hc]

theorem parseUintLoop_digits (cs : List Char) (n : Nat) (h : (parseUintLoop cs n).2 = none) :
    ∀ c ∈ cs, '0' ≤ c ∧ c ≤ '9' := by
  induction cs generalizing n with
  | nil => intro c hc; simp at hc
  | cons d ds ih =>
    intro c hc
    unfold parseUintLoop at h
    by_cases hd : '0' ≤ d ∧ d ≤ '9'
    · rcases List.mem_cons.mp hc with rfl | hc
      · exact hd
      · rw [if_pos hd] at h
        split at h
        · simp at h
        · simp only at h
          split at h
          · simp at h
          · exact ih _ h c hc
    · rw [if_neg hd] at h
      simp at h

theorem parseUintLoop_range (cs : List Char) (n : Nat)
    (h : (parseUintLoop cs n).2 = some NumErr.outOfRange) : (parseUintLoop cs n).1 = maxUint64 := by
  induction cs generalizing n with
  | nil => simp [parseUintLoop] at h
  | cons d ds ih =>
    unfold parseUintLoop at h ⊢
    by_cases hd : '0' ≤ d ∧ d ≤ '9'
    · rw [if_pos hd] at h ⊢
      split
      · rfl
      · rename_i hcut
        rw [if_neg hcut] at h
        simp only at h ⊢
        split
        · rfl
        · rename_i hov
          rw [if_neg hov] at h
          exact ih _ h
    · rw [if_neg hd] at h
      simp at h

theorem parseUint_range (cs : List Char) (h : (parseUint cs).2 = some NumErr.outOfRange) :
    (parseUint cs).1 = maxUint64 := by
  cases cs with
  | nil => simp [parseUint] at h
  | cons d ds => exact parseUintLoop_range (d :: ds) 0 h

theorem parseUint_digits (cs : List Char) (h : (parseUint cs).2 = none) :
    cs ≠ [] ∧ ∀ c ∈ cs, '0' ≤ c ∧ c ≤ '9' := by
  cases cs with
  | nil => simp [parseUint] at h
  | cons d ds => exact ⟨by simp, parseUintLoop_digits (d :: ds) 0 h⟩

/-- What `ParseInt` accepts: an optional sign followed by a non-empty run of decimal digits
whose value fits. -/
theorem parseInt_ok (s : String) (h : (parseInt s).2 = none) :
    ∃ c cs, s.data = c :: cs
      ∧ (parseUint (if c == '+' || c == '-' then cs else c :: cs)).2 = none := by
  unfold parseInt at h
  split at h
  · simp at h
  · rename_i c cs hs
    refine ⟨c, cs, hs, ?_⟩
    simp only at h
    split at h
    · simp at h
    · rename_i un e hne hp
      cases e with
      | none => rw [hp]
      | some k =>
        cases k with
        | badSyntax => exact (hne rfl).elim
        | outOfRange =>
          have hmax := parseUint_range _ (by rw [hp])
          rw [hp] at hmax
          simp only at hmax
          subst hmax
          by_cases hneg : (c == '-') = true
          · simp [hneg, maxUint64] at h
          · simp [hneg, maxUint64] at h

theorem parseInt_ok_getLast (s : String) (h : (parseInt s).2 = none) :
    ∃ c, s.data.getLast? = some c ∧ '0' ≤ c ∧ c ≤ '9' := by
  obtain ⟨c, cs, hs, hp⟩ := parseInt_ok s h
  obtain ⟨hne, hdig⟩ := parseUint_digits _ hp
  obtain ⟨l, hl⟩ : ∃ l, (if c == '+' || c == '-' then cs else c :: cs).getLast? = some l := by
    cases hq : (if c == '+' || c == '-' then cs else c :: cs).getLast? with
    | none => exact absurd (List.getLast?_eq_none_iff.mp hq) hne
    | some l => exact ⟨l, rfl⟩
  refine ⟨l, ?_, hdig l (List.mem_of_getLast?_eq_some hl)⟩
  rw [hs]
  by_cases hsign : (c == '+' || c == '-') = true
  · rw [if_pos hsign] at hl hne
    obtain ⟨d, ds, rfl⟩ := List.exists_cons_of_ne_nil hne
    rw [List.getLast?_cons_cons]
    exact hl
  · rw [if_neg hsign] at hl
    exact hl

/-- A name that `asTimeStamp` decodes does not end in `.tmp`. -/
theorem asTimeStamp_ok_not_tmp (name : String) (h : (asTimeStamp name).2 = none) :
    hasSuffix name ".tmp" = false := by
  by_contra htmp
  have htmp : hasSuffix name ".tmp" = true := by simpa using htmp
  have hp : name.data.getLast? = some 'p' := hasSuffix_getLast name ".tmp" 'p' htmp rfl
  have hcond : hasSuffix name ".condensed" = false := by
    by_contra hc
    have hc : hasSuffix name ".condensed" = true := by simpa using hc
    have hd := hasSuffix_getLast name ".condensed" 'd' hc rfl
    rw [hp] at hd
    exact absurd hd (by decide)
  unfold asTimeStamp trimSuffix at h
  rw [hcond] at h
  simp only [Bool.false_eq_true, if_false] at h
  obtain ⟨c, hc, h0, h9⟩ := parseInt_ok_getLast name h
  rw [hp] at hc
  cases hc
  exact absurd h9 (by decide)

/-! ## The newest segment -/

theorem lessNewestFirst_key (a b : String) :
    lessNewestFirst a b = decide (-(asTimeStamp a).1 < -(asTimeStamp b).1) := by
  unfold lessNewestFirst
  apply decide_eq_decide.mpr
  constructor <;> intro h <;> linarith

/-- With a listing at hand and no failing unlink, `getCurrentCommitLogFileName` is the head of
the newest-first sort of the retained entries, guarded by the error compounder. -/
theorem getCurrentCommitLogFileName_listing (fs : FileSystem)
    (hrd : fs.readDirErr = none) (hok : unlinksSucceed fs fs.entries) :
    getCurrentCommitLogFileName fs =
      if fs.entries.length = 0 then (fs, Run.value ("", false, none))
      else
        match (compareErrors (sortSlice lessNewestFirst (fs.entries.filter retained)).2).toError with
        | some err => (afterCleanup fs, Run.value ("", false, some err))
        | none =>
          match (sortSlice lessNewestFirst (fs.entries.filter retained)).1 with
          | [] => (afterCleanup fs, Run.fault)
          | newest :: _ => (afterCleanup fs, Run.value (newest, true, none)) := by
  simp only [getCurrentCommitLogFileName, hrd, cleanup_ok fs hok]

/-- C3 (as amended). `getCurrentCommitLogFileName` returns the newest segment or none. For an
empty listing it returns `("", false, nil)`. For a listing with at least one retained entry,
all of whose retained names decode, and on which every unlink succeeds, it returns
`(name, true, nil)` where `name` is a retained entry of the listing whose time stamp is at
least that of every retained entry, and `name` does not end in `.tmp`. -/
theorem getCurrentCommitLogFileName_newest (fs : FileSystem)
    (hrd : fs.readDirErr = none) (hok : unlinksSucceed fs fs.entries) :
    (fs.entries = [] → getCurrentCommitLogFileName fs = (fs, Run.value ("", false, none)))
      ∧ ((∃ n ∈ fs.entries, retained n = true) →
          (∀ n ∈ fs.entries, retained n = true → (asTimeStamp n).2 = none) →
          ∃ name, (getCurrentCommitLogFileName fs).2 = Run.value (name, true, none)
            ∧ name ∈ fs.entries ∧ retained name = true
            ∧ (∀ m ∈ fs.entries, retained m = true →
                (asTimeStamp m).1 ≤ (asTimeStamp name).1)
            ∧ hasSuffix name ".tmp" = false) := by
  rw [getCurrentCommitLogFileName_listing fs hrd hok]
  refine ⟨fun hnil => by simp [hnil], ?_⟩
  rintro ⟨n, hn, hret⟩ hparse
  have hlen : ¬ fs.entries.length = 0 := by
    intro h0
    rw [List.length_eq_zero.mp h0] at hn
    simp at hn
  have hnone : (compareErrors
      (sortSlice lessNewestFirst (fs.entries.filter retained)).2).toError = none := by
    rw [compareErrors_none]
    intro c hc
    have hmem := sortSlice_calls_mem lessNewestFirst _ c hc
    have h1 := List.mem_filter.mp hmem.1
    have h2 := List.mem_filter.mp hmem.2
    exact ⟨hparse _ h1.1 h1.2, hparse _ h2.1 h2.2⟩
  have hperm := sortSlice_perm lessNewestFirst (fs.entries.filter retained)
  have hsorted := sortSlice_sorted lessNewestFirst (fun n => -(asTimeStamp n).1)
    lessNewestFirst_key (fs.entries.filter retained)
  simp only [hlen, if_false, hnone]
  cases hs : (sortSlice lessNewestFirst (fs.entries.filter retained)).1 with
  | nil =>
    rw [hs] at hperm
    have := hperm.mem_iff.mpr (List.mem_filter.mpr ⟨hn, hret⟩)
    simp at this
  | cons newest rest =>
    rw [hs] at hperm hsorted
    have hnew := List.mem_filter.mp (hperm.mem_iff.mp (List.mem_cons_self newest rest))
    refine ⟨newest, rfl, hnew.1, hnew.2, ?_, asTimeStamp_ok_not_tmp _ (hparse _ hnew.1 hnew.2)⟩
    intro m hm hmret
    rcases List.mem_cons.mp (hperm.mem_iff.mpr (List.mem_filter.mpr ⟨hm, hmret⟩)) with rfl | hmr
    · exact le_refl _
    · have := (List.pairwise_cons.mp hsorted).1 m hmr
      simp only at this
      linarith

/-- Instance of C3 (as amended) on a directory with three segments and two temporary files. -/
theorem getCurrentCommitLogFileName_newest_witness :
    ((["10", "3.condensed", "x.scratch.tmp", "2.combined.tmp", "3"] : List String) = [] →
        getCurrentCommitLogFileName
            ⟨["10", "3.condensed", "x.scratch.tmp", "2.combined.tmp", "3"], [], none, none⟩
          = (⟨["10", "3.condensed", "x.scratch.tmp", "2.combined.tmp", "3"], [], none, none⟩,
              Run.value ("", false, none)))
      ∧ ((∃ n ∈ (["10", "3.condensed", "x.scratch.tmp", "2.combined.tmp", "3"] : List String),
            retained n = true) →
          (∀ n ∈ (["10", "3.condensed", "x.scratch.tmp", "2.combined.tmp", "3"] : List String),
            retained n = true → (asTimeStamp n).2 = none) →
          ∃ name, (getCurrentCommitLogFileName
              ⟨["10", "3.condensed", "x.scratch.tmp", "2.combined.tmp", "3"], [], none, none⟩).2
                = Run.value (name, true, none)
            ∧ name ∈ (["10", "3.condensed", "x.scratch.tmp", "2.combined.tmp", "3"] : List String)
            ∧ retained name = true
            ∧ (∀ m ∈ (["10", "3.condensed", "x.scratch.tmp", "2.combined.tmp", "3"] : List String),
                retained m = true → (asTimeStamp m).1 ≤ (asTimeStamp name).1)
            ∧ hasSuffix name ".tmp" = false) :=
  getCurrentCommitLogFileName_newest
    ⟨["10", "3.condensed", "x.scratch.tmp", "2.combined.tmp", "3"], [], none, none⟩
    rfl (by decide)

/-- C3 (counterexample to the claim as stated). The listing `1`, `2.combined.tmp` has a
retained entry and all its retained names decode, but the unlink of `2.combined.tmp` is
refused: the call returns `("", false, err)` with a non-nil error, not `(name, true, nil)`. -/
theorem getCurrentCommitLogFileName_unlink_refused :
    (∃ n ∈ (["1", "2.combined.tmp"] : List String), retained n = true)
      ∧ (∀ n ∈ (["1", "2.combined.tmp"] : List String),
          retained n = true → (asTimeStamp n).2 = none)
      ∧ (getCurrentCommitLogFileName ⟨["1", "2.combined.tmp"], ["2.combined.tmp"], none, none⟩).2
          = Run.value ("", false,
              some ("clean up tmp combining files: remove tmp combining file: "
                ++ "remove 2.combined.tmp: operation not permitted"))
      ∧ ¬ ∃ name, (getCurrentCommitLogFileName
            ⟨["1", "2.combined.tmp"], ["2.combined.tmp"], none, none⟩).2
              = Run.value (name, true, none) := by
  have hval : (getCurrentCommitLogFileName
      ⟨["1", "2.combined.tmp"], ["2.combined.tmp"], none, none⟩).2
        = Run.value ("", false,
            some ("clean up tmp combining files: remove tmp combining file: "
              ++ "remove 2.combined.tmp: operation not permitted")) := by decide
  refine ⟨by decide, by decide, hval, ?_⟩
  rintro ⟨name, hname⟩
  rw [hval] at hname
  simp at hname

/-! ## What the enumeration does to the directory -/

theorem combined_not_scratch (e : String) (h : hasSuffix e ".combined.tmp" = true) :
    hasSuffix e ".scratch.tmp" = false := by
  by_contra hs
  have hs : hasSuffix e ".scratch.tmp" = true := by simpa using hs
  obtain ⟨t1, h1⟩ := (hasSuffix_iff _ _).mp h
  obtain ⟨t2, h2⟩ := (hasSuffix_iff _ _).mp hs
  have hc : (".combined.tmp" : String).data.reverse
      = ['p', 'm', 't', '.', 'd', 'e', 'n', 'i', 'b', 'm', 'o', 'c', '.'] := by decide
  have hsr : (".scratch.tmp" : String).data.reverse
      = ['p', 'm', 't', '.', 'h', 'c', 't', 'a', 'r', 'c', 's', '.'] := by decide
  have e1 := congrArg List.reverse h1
  have e2 := congrArg List.reverse h2
  rw [List.reverse_append, hc] at e1
  rw [List.reverse_append, hsr] at e2
  rw [e1] at e2
  simp at e2

theorem afterCleanup_entries (fs : FileSystem) :
    (afterCleanup fs).entries
      = fs.entries.filter (fun e => !hasSuffix e ".combined.tmp") := by
  unfold afterCleanup
  apply List.filter_congr
  intro e he
  by_cases hc : hasSuffix e ".combined.tmp" = true
  · have hmem : e ∈ removeTmpScratchFiles fs.entries := by
      rw [removeTmpScratchFiles_eq]
      exact List.mem_filter.mpr ⟨he, by simp [combined_not_scratch e hc]⟩
    simp [hc, hmem]
  · simp [hc]

/-- C4. Enumeration deletes combiner temp files and nothing else. In a directory in which
every unlink succeeds, `removeTmpScratchFiles` followed by `removeTmpCombiningFiles` reports no
error and leaves on disk exactly the entries that did not end in `.combined.tmp` (in their
order); so every entry ending in `.scratch.tmp` and every segment file is still there, while
no entry of the returned slice ends in `.scratch.tmp` or `.combined.tmp`. When the listing is
obtained, this is the directory `getCommitFileNames` leaves behind, and every path it returns
is the path of a retained entry. -/
theorem enumeration_deletes_only_combined (fs : FileSystem) (rootPath name : String)
    (hok : unlinksSucceed fs fs.entries) :
    (removeTmpCombiningFiles fs (removeTmpScratchFiles fs.entries)).2.2 = none
      ∧ (removeTmpCombiningFiles fs (removeTmpScratchFiles fs.entries)).1.entries
          = fs.entries.filter (fun e => !hasSuffix e ".combined.tmp")
      ∧ (∀ e, e ∈ (removeTmpCombiningFiles fs (removeTmpScratchFiles fs.entries)).1.entries
          ↔ e ∈ fs.entries ∧ hasSuffix e ".combined.tmp" = false)
      ∧ (∀ e ∈ fs.entries, hasSuffix e ".scratch.tmp" = true →
          e ∈ (removeTmpCombiningFiles fs (removeTmpScratchFiles fs.entries)).1.entries)
      ∧ (∀ e ∈ fs.entries, retained e = true →
          e ∈ (removeTmpCombiningFiles fs (removeTmpScratchFiles fs.entries)).1.entries)
      ∧ (∀ e ∈ (removeTmpCombiningFiles fs (removeTmpScratchFiles fs.entries)).2.1,
          hasSuffix e ".scratch.tmp" = false ∧ hasSuffix e ".combined.tmp" = false)
      ∧ (fs.mkdirAllErr = none → fs.readDirErr = none →
          (getCommitFileNames fs rootPath name).1
              = (removeTmpCombiningFiles fs (removeTmpScratchFiles fs.entries)).1
            ∧ ∀ p ∈ (getCommitFileNames fs rootPath name).2.1,
                ∃ n ∈ fs.entries, retained n = true ∧ p = commitLogFileName rootPath name n) := by
  have hmem : ∀ e, e ∈ (afterCleanup fs).entries
      ↔ e ∈ fs.entries ∧ hasSuffix e ".combined.tmp" = false := by
    intro e
    rw [afterCleanup_entries, List.mem_filter]
    simp
  rw [cleanup_ok fs hok]
  refine ⟨rfl, afterCleanup_entries fs, hmem, ?_, ?_, ?_, ?_⟩
  · intro e he hs
    refine (hmem e).mpr ⟨he, ?_⟩
    by_contra hc
    have := combined_not_scratch e (by simpa using hc)
    rw [hs] at this
    exact absurd this (by decide)
  · intro e he hr
    refine (hmem e).mpr ⟨he, ?_⟩
    simp only [retained, Bool.and_eq_true, Bool.not_eq_true'] at hr
    exact hr.2
  · intro e he
    have := (List.mem_filter.mp he).2
    simpa [retained] using this
  · intro hmk hrd
    rw [getCommitFileNames_listing fs rootPath name hmk hrd hok]
    by_cases hlen : (fs.entries.filter retained).length = 0
    · simp [hlen]
    · simp only [hlen, if_false]
      split
      · simp
      · refine ⟨rfl, ?_⟩
        intro p hp
        obtain ⟨n, hn, rfl⟩ := List.mem_map.mp hp
        have := List.mem_filter.mp
          ((sortSlice_perm lessOldestFirst (fs.entries.filter retained)).mem_iff.mp hn)
        exact ⟨n, this.1, this.2, rfl⟩

/-- Instance of C4 on a directory with segments, a scratch file and a combiner temp file. -/
theorem enumeration_deletes_only_combined_witness :
    (removeTmpCombiningFiles ⟨["10", "x.scratch.tmp", "2.combined.tmp", "3"], [], none, none⟩
        (removeTmpScratchFiles ["10", "x.scratch.tmp", "2.combined.tmp", "3"])).1.entries
      = ["10", "x.scratch.tmp", "3"] :=
  (enumeration_deletes_only_combined
    ⟨["10", "x.scratch.tmp", "2.combined.tmp", "3"], [], none, none⟩ "r" "i"
    (by decide)).2.1.trans (by decide)

/-! ## Entries with identical time stamps -/

/-- Whenever `getCommitFileNames` returns without error, what it returns is the sorted slice
of the retained entries, as paths. -/
theorem getCommitFileNames_accepted_eq (fs : FileSystem) (rootPath name : String)
    (hacc : (getCommitFileNames fs rootPath name).2.2 = none) :
    (getCommitFileNames fs rootPath name).2.1
      = (sortSlice lessOldestFirst (fs.entries.filter retained)).1.map
          (commitLogFileName rootPath name) := by
  revert hacc
  unfold getCommitFileNames
  split
  · simp
  · split
    · simp
    · split
      · simp
      · rename_i fs1 files hrm
        have hfiles : files = fs.entries.filter retained := by
          have := removeTmpCombiningFiles_none fs (removeTmpScratchFiles fs.entries)
            (by rw [hrm])
          rw [hrm, retained_filter] at this
          exact this
        subst hfiles
        split
        · rename_i h0
          intro _
          rw [List.length_eq_zero.mp h0, sortSlice_short lessOldestFirst [] (by simp)]
          rfl
        · split
          · simp
          · intro _; rfl

/-- C5 (as amended). The tie-break is lexicographic up to twelve segments. For every directory
listing in file-name order (the order in which `ioutil.ReadDir` returns it) that
`getCommitFileNames` accepts and for which it returns at most twelve entries, of any two
returned entries the earlier one has the smaller or the same decoded time stamp, and if the
two time stamps are identical the earlier one has the lexicographically smaller base name
(so `<ts>` comes before `<ts>.condensed`). -/
theorem getCommitFileNames_tie_break_up_to_twelve (fs : FileSystem) (rootPath name : String)
    (hdir : fs.entries.Pairwise (fun a b => a.data < b.data))
    (hacc : (getCommitFileNames fs rootPath name).2.2 = none)
    (hlen : (getCommitFileNames fs rootPath name).2.1.length ≤ 12) :
    ∃ names : List String,
      (getCommitFileNames fs rootPath name).2.1 = names.map (commitLogFileName rootPath name)
        ∧ ∀ (i j : Nat) (hi : i < names.length) (hj : j < names.length), i < j →
            (asTimeStamp (names.get ⟨i, hi⟩)).1 ≤ (asTimeStamp (names.get ⟨j, hj⟩)).1
              ∧ ((asTimeStamp (names.get ⟨i, hi⟩)).1 = (asTimeStamp (names.get ⟨j, hj⟩)).1 →
                  (names.get ⟨i, hi⟩).data < (names.get ⟨j, hj⟩).data) := by
  have heq := getCommitFileNames_accepted_eq fs rootPath name hacc
  rw [heq, List.length_map, (sortSlice_perm lessOldestFirst _).length_eq] at hlen
  refine ⟨(sortSlice lessOldestFirst (fs.entries.filter retained)).1, heq, ?_⟩
  have hsorted := sortSlice_sorted lessOldestFirst (fun n => (asTimeStamp n).1)
    lessOldestFirst_key (fs.entries.filter retained)
  have htie : (sortSlice lessOldestFirst (fs.entries.filter retained)).1.Pairwise
      (fun x y => (asTimeStamp x).1 = (asTimeStamp y).1 → x.data < y.data) := by
    rw [List.pairwise_iff_forall_sublist]
    intro x y hxy hts
    have hst := sortSlice_stable lessOldestFirst (fun n => (asTimeStamp n).1)
      lessOldestFirst_key (asTimeStamp x).1 (fs.entries.filter retained) hlen
    have h1 : [x, y].filter (fun n => decide ((asTimeStamp n).1 = (asTimeStamp x).1))
        = [x, y] := by
      simp [List.filter_cons, hts.symm]
    have h2 := hxy.filter (fun n => decide ((asTimeStamp n).1 = (asTimeStamp x).1))
    rw [h1, hst] at h2
    have h3 : [x, y].Sublist fs.entries :=
      (h2.trans (List.filter_sublist _)).trans (List.filter_sublist _)
    have h4 := hdir.sublist h3
    simpa using h4
  intro i j hi hj hij
  exact ⟨List.pairwise_iff_get.mp hsorted ⟨i, hi⟩ ⟨j, hj⟩ hij,
    List.pairwise_iff_get.mp htie ⟨i, hi⟩ ⟨j, hj⟩ hij⟩

/-- Instance of C5 (as amended): a segment listed next to its condensed copy and a later
segment. -/
theorem getCommitFileNames_tie_break_up_to_twelve_witness :
    ∃ names : List String,
      (getCommitFileNames ⟨["5", "5.condensed", "7"], [], none, none⟩ "r" "i").2.1
          = names.map (commitLogFileName "r" "i")
        ∧ ∀ (i j : Nat) (hi : i < names.length) (hj : j < names.length), i < j →
            (asTimeStamp (names.get ⟨i, hi⟩)).1 ≤ (asTimeStamp (names.get ⟨j, hj⟩)).1
              ∧ ((asTimeStamp (names.get ⟨i, hi⟩)).1 = (asTimeStamp (names.get ⟨j, hj⟩)).1 →
                  (names.get ⟨i, hi⟩).data < (names.get ⟨j, hj⟩).data) :=
  getCommitFileNames_tie_break_up_to_twelve ⟨["5", "5.condensed", "7"], [], none, none⟩
    "r" "i" (by decide) (by decide) (by decide)

/-- C5 (counterexample to the claim as stated). A directory holds the thirteen segments `1`,
`1.condensed`, `2`, ..., `12`. The listing, in file-name order, is accepted; `1` and
`1.condensed` decode to the same time stamp and `1` is the lexicographically smaller base
name, but the returned list has `1.condensed` before `1`: the slice is longer than twelve
elements, the library partitions it around the pivot `6`, which carries `1` from the front of
the slice behind `1.condensed`, and the comparator `ts1 < ts2` never moves it back. -/
theorem getCommitFileNames_tie_out_of_order :
    (["1", "1.condensed", "10", "11", "12", "2", "3", "4", "5", "6", "7", "8", "9"] :
        List String).Pairwise (fun a b => a.data < b.data)
      ∧ (getCommitFileNames
          ⟨["1", "1.condensed", "10", "11", "12", "2", "3", "4", "5", "6", "7", "8", "9"],
            [], none, none⟩ "r" "i").2
        = (["r/i.hnsw.commitlog.d/1.condensed", "r/i.hnsw.commitlog.d/1",
            "r/i.hnsw.commitlog.d/2", "r/i.hnsw.commitlog.d/3", "r/i.hnsw.commitlog.d/4",
            "r/i.hnsw.commitlog.d/5", "r/i.hnsw.commitlog.d/6", "r/i.hnsw.commitlog.d/7",
            "r/i.hnsw.commitlog.d/8", "r/i.hnsw.commitlog.d/9", "r/i.hnsw.commitlog.d/10",
            "r/i.hnsw.commitlog.d/11", "r/i.hnsw.commitlog.d/12"], none)
      ∧ (asTimeStamp "1.condensed").1 = (asTimeStamp "1").1
      ∧ ("1" : String).data < ("1.condensed" : String).data := by
  refine ⟨by decide, by decide, by decide, by decide⟩

/-! ## Printing and decoding a time stamp -/

theorem digitsValue_ge (cs : List Char) (n : Nat) : n ≤ digitsValue cs n := by
  induction cs generalizing n with
  | nil => exact le_refl _
  | cons c cs ih =>
    simp only [digitsValue]
    exact le_trans (by omega) (ih _)

theorem parseUintLoop_eq (cs : List Char) (n : Nat)
    (hdig : ∀ c ∈ cs, '0' ≤ c ∧ c ≤ '9') (hval : digitsValue cs n < 2 ^ 64) :
    parseUintLoop cs n = (digitsValue cs n, none) := by
  induction cs generalizing n with
  | nil => rfl
  | cons c cs ih =>
    have hc := hdig c (List.mem_cons_self _ _)
    simp only [digitsValue] at hval
    have hstep := digitsValue_ge cs (n * 10 + (c.toNat - '0'.toNat))
    have hlt : n * 10 + (c.toNat - '0'.toNat) < 2 ^ 64 := lt_of_le_of_lt hstep hval
    have hcut : ¬ cutoff10 ≤ n := by
      simp only [cutoff10, maxUint64]
      omega
    have h10 : (n * 10) % 2 ^ 64 = n * 10 := Nat.mod_eq_of_lt (by omega)
    have h1 : (n * 10 + (c.toNat - '0'.toNat)) % 2 ^ 64 = n * 10 + (c.toNat - '0'.toNat) :=
      Nat.mod_eq_of_lt hlt
    have hov : ¬ (n * 10 + (c.toNat - '0'.toNat) < n * 10
        ∨ maxUint64 < n * 10 + (c.toNat - '0'.toNat)) := by
      simp only [maxUint64]
      omega
    simp only [parseUintLoop, hc, and_self, if_true, hcut, if_false, h10, h1, hov, digitsValue]
    exact ih _ (fun d hd => hdig d (List.mem_cons_of_mem _ hd)) hval

theorem digitChar_digit (k : Nat) (hk : k < 10) :
    '0' ≤ Nat.digitChar k ∧ Nat.digitChar k ≤ '9'
      ∧ (Nat.digitChar k).toNat - '0'.toNat = k := by
  interval_cases k <;> decide

theorem toDigitsCore_digits (fuel n : Nat) (ds : List Char) :
    ∀ c ∈ Nat.toDigitsCore 10 fuel n ds, ('0' ≤ c ∧ c ≤ '9') ∨ c ∈ ds := by
  induction fuel generalizing n ds with
  | zero => intro c hc; exact Or.inr (by simpa [Nat.toDigitsCore] using hc)
  | succ fuel ih =>
    intro c hc
    have hd := digitChar_digit (n % 10) (Nat.mod_lt _ (by decide))
    simp only [Nat.toDigitsCore] at hc
    split at hc
    · rcases List.mem_cons.mp hc with rfl | hc
      · exact Or.inl ⟨hd.1, hd.2.1⟩
      · exact Or.inr hc
    · rcases ih _ _ c hc with h | h
      · exact Or.inl h
      · rcases List.mem_cons.mp h with rfl | h
        · exact Or.inl ⟨hd.1, hd.2.1⟩
        · exact Or.inr h

theorem toDigitsCore_value (fuel n : Nat) (ds : List Char) (hfuel : n < fuel) :
    digitsValue (Nat.toDigitsCore 10 fuel n ds) 0 = digitsValue ds n := by
  induction fuel generalizing n ds with
  | zero => omega
  | succ fuel ih =>
    have hd := (digitChar_digit (n % 10) (Nat.mod_lt _ (by decide))).2.2
    simp only [Nat.toDigitsCore]
    split
    · rename_i h0
      simp only [digitsValue, hd]
      congr 1
      omega
    · rename_i h0
      rw [ih _ _ (by omega)]
      simp only [digitsValue, hd]
      congr 1
      omega

theorem toDigitsCore_ne_nil (fuel n : Nat) (ds : List Char) :
    Nat.toDigitsCore 10 (fuel + 1) n ds ≠ [] := by
  induction fuel generalizing n ds with
  | zero =>
    simp only [Nat.toDigitsCore]
    split <;> simp [Nat.toDigitsCore]
  | succ fuel ih =>
    rw [Nat.toDigitsCore]
    split
    · simp
    · exact ih _ _

theorem parseUint_eq (cs : List Char) (hne : cs ≠ [])
    (hdig : ∀ c ∈ cs, '0' ≤ c ∧ c ≤ '9') (hval : digitsValue cs 0 < 2 ^ 64) :
    parseUint cs = (digitsValue cs 0, none) := by
  cases cs with
  | nil => exact absurd rfl hne
  | cons c cs => exact parseUintLoop_eq (c :: cs) 0 hdig hval

theorem parseInt_unsigned (ds : List Char) (hne : ds ≠ [])
    (hdig : ∀ c ∈ ds, '0' ≤ c ∧ c ≤ '9') (hval : digitsValue ds 0 < 2 ^ 63) :
    parseInt ⟨ds⟩ = (((digitsValue ds 0 : Nat) : Int), none) := by
  obtain ⟨c, cs, rfl⟩ := List.exists_cons_of_ne_nil hne
  have hc := hdig c (List.mem_cons_self _ _)
  have hsign : (c == '+' || c == '-') = false := by
    rw [Bool.or_eq_false_iff]
    constructor
    · rw [beq_eq_false_iff_ne]; rintro rfl; exact absurd hc.1 (by decide)
    · rw [beq_eq_false_iff_ne]; rintro rfl; exact absurd hc.1 (by decide)
  have hneg : (c == '-') = false := (Bool.or_eq_false_iff.mp hsign).2
  have hplus : (c == '+') = false := (Bool.or_eq_false_iff.mp hsign).1
  have hp := parseUint_eq (c :: cs) (by simp) hdig (lt_trans hval (by norm_num))
  have hlt : ¬ (2 ^ 63 ≤ digitsValue (c :: cs) 0) := by omega
  simp only [parseInt, hplus, hneg, Bool.or_false, Bool.false_eq_true, if_false, hp,
    Bool.not_false, Bool.true_and, decide_eq_true_eq, hlt, Bool.false_and]

theorem parseInt_negative (ds : List Char) (hne : ds ≠ [])
    (hdig : ∀ c ∈ ds, '0' ≤ c ∧ c ≤ '9') (hval : digitsValue ds 0 ≤ 2 ^ 63) :
    parseInt ⟨'-' :: ds⟩ = (-((digitsValue ds 0 : Nat) : Int), none) := by
  have hp := parseUint_eq ds hne hdig (lt_of_le_of_lt hval (by norm_num))
  have hlt : ¬ (2 ^ 63 < digitsValue ds 0) := by omega
  have h1 : (('-' : Char) == '+' || ('-' : Char) == '-') = true := by decide
  have h2 : (('-' : Char) == '-') = true := by decide
  simp only [parseInt, h1, h2, if_true, hp, Bool.not_true, Bool.false_and, Bool.false_eq_true,
    if_false, Bool.true_and, decide_eq_true_eq, hlt, Bool.or_true]

theorem toDigits_digits (m : Nat) : ∀ c ∈ Nat.toDigits 10 m, '0' ≤ c ∧ c ≤ '9' := by
  intro c hc
  rcases toDigitsCore_digits (m + 1) m [] c hc with h | h
  · exact h
  · simp at h

theorem toDigits_value (m : Nat) : digitsValue (Nat.toDigits 10 m) 0 = m := by
  unfold Nat.toDigits
  rw [toDigitsCore_value (m + 1) m [] (by omega)]
  rfl

theorem toDigits_ne_nil (m : Nat) : Nat.toDigits 10 m ≠ [] := toDigitsCore_ne_nil m m []

/-- A string that ends in a decimal digit does not end in `.condensed`. -/
theorem not_condensed_of_digits (pre ds : List Char) (hne : ds ≠ [])
    (hdig : ∀ c ∈ ds, '0' ≤ c ∧ c ≤ '9') :
    hasSuffix ⟨pre ++ ds⟩ ".condensed" = false := by
  by_contra h
  have h : hasSuffix ⟨pre ++ ds⟩ ".condensed" = true := by simpa using h
  have hd := hasSuffix_getLast _ ".condensed" 'd' h rfl
  simp only at hd
  rw [List.getLast?_append_of_ne_nil _ hne] at hd
  have := hdig 'd' (List.mem_of_getLast?_eq_some hd)
  exact absurd this.2 (by decide)

/-- Printing a 64-bit integer with `%d` and decoding the result with `asTimeStamp` gives the
integer back. -/
theorem asTimeStamp_sprintfD (n : Int) (hlo : -(2 : Int) ^ 63 ≤ n) (hhi : n < (2 : Int) ^ 63) :
    asTimeStamp (sprintfD n) = (n, none) := by
  cases n with
  | ofNat m =>
    have hm : m < 2 ^ 63 := by
      have : ((m : Nat) : Int) < (2 : Int) ^ 63 := hhi
      exact_mod_cast this
    have hc := not_condensed_of_digits [] (Nat.toDigits 10 m) (toDigits_ne_nil m)
      (toDigits_digits m)
    simp only [List.nil_append] at hc
    simp only [asTimeStamp, sprintfD, trimSuffix, hc, Bool.false_eq_true, if_false]
    rw [parseInt_unsigned _ (toDigits_ne_nil m) (toDigits_digits m)
      (by rw [toDigits_value]; exact hm), toDigits_value]
    rfl
  | negSucc m =>
    have hm : m + 1 ≤ 2 ^ 63 := by
      have h : -(2 : Int) ^ 63 ≤ Int.negSucc m := hlo
      rw [Int.negSucc_eq] at h
      have h2 : ((m : Int) + 1) ≤ (2 : Int) ^ 63 := by linarith
      exact_mod_cast h2
    have hc := not_condensed_of_digits ['-'] (Nat.toDigits 10 (m + 1)) (toDigits_ne_nil _)
      (toDigits_digits _)
    simp only [List.singleton_append] at hc
    simp only [asTimeStamp, sprintfD, trimSuffix, hc, Bool.false_eq_true, if_false]
    rw [parseInt_negative _ (toDigits_ne_nil _) (toDigits_digits _)
      (by rw [toDigits_value]; exact hm), toDigits_value, Int.negSucc_eq]
    push_cast
    rfl

/-- A value that `ParseInt` returns without error is a signed 64-bit integer. -/
theorem parseInt_ok_range (s : String) (h : (parseInt s).2 = none) :
    -(2 : Int) ^ 63 ≤ (parseInt s).1 ∧ (parseInt s).1 < (2 : Int) ^ 63 := by
  revert h
  unfold parseInt
  split
  · intro h; simp at h
  · rename_i c cs _
    simp only
    split
    · intro h; simp at h
    · rename_i un e _ _
      by_cases hneg : (c == '-') = true
      · by_cases hbig : 2 ^ 63 < un
        · simp only [hneg, Bool.not_true, Bool.false_and, Bool.false_eq_true, if_false,
            Bool.true_and, decide_eq_true_eq, hbig, if_true]
          intro h; simp at h
        · simp only [hneg, Bool.not_true, Bool.false_and, Bool.false_eq_true, if_false,
            Bool.true_and, decide_eq_true_eq, hbig, if_true]
          intro _
          constructor
          · have : (un : Int) ≤ (2 : Int) ^ 63 := by exact_mod_cast (not_lt.mp hbig)
            linarith
          · have : (0 : Int) ≤ (un : Int) := Int.ofNat_nonneg un
            have h2 : (0 : Int) < (2 : Int) ^ 63 := by norm_num
            linarith
      · by_cases hbig : 2 ^ 63 ≤ un
        · simp only [hneg, Bool.not_false, Bool.true_and, decide_eq_true_eq, hbig, if_true]
          intro h; simp at h
        · simp only [hneg, Bool.not_false, Bool.true_and, decide_eq_true_eq, hbig, if_false,
            Bool.false_and, Bool.false_eq_true]
          intro _
          constructor
          · have : (0 : Int) ≤ (un : Int) := Int.ofNat_nonneg un
            have h2 : (0 : Int) < (2 : Int) ^ 63 := by norm_num
            linarith
          · exact_mod_cast (not_le.mp hbig)

/-! ## Rotation -/

theorem commitLogFileName_inj (rootPath indexName a b : String)
    (h : commitLogFileName rootPath indexName a = commitLogFileName rootPath indexName b) :
    a = b := by
  unfold commitLogFileName at h
  have hd := congrArg String.data h
  simp only [String.data_append] at hd
  exact String.ext (List.append_cancel_left hd)

theorem two_le_length_of_ne {a b : String} {l : List String} (ha : a ∈ l) (hb : b ∈ l)
    (hab : a ≠ b) : 2 ≤ l.length := by
  match l, ha, hb with
  | [x], ha, hb =>
    simp only [List.mem_singleton] at ha hb
    exact absurd (ha.trans hb.symm) hab
  | _ :: _ :: _, _, _ => simp

theorem mem_osOpenFileCreate (fs : FileSystem) (name e : String) :
    e ∈ (osOpenFileCreate fs name).entries ↔ e ∈ fs.entries ∨ e = name := by
  unfold osOpenFileCreate
  by_cases h : name ∈ fs.entries
  · simp only [h, if_true]
    constructor
    · exact Or.inl
    · rintro (h1 | rfl)
      · exact h1
      · exact h
  · simp [h]

/-- A call of `maintenance` on a segment that is not over the threshold changes nothing. -/
theorem maintenance_keeps (calls : Calls) (l : Logger) (w : World) (size : Int)
    (hfree : l.mu = Mutex.free) (hsize : calls.fileSize = (size, none))
    (hle : size ≤ l.maxSizeIndividual) :
    maintenance calls l w = (l, w, Outcome.returned none) := by
  obtain ⟨mu, ml, rp, id, ms, mc, cl⟩ := l
  simp only at hfree
  subst hfree
  simp [maintenance, Mutex.lock, maintenanceBody, hsize, hle, Mutex.unlock]

/-- A call of `maintenance` on a segment over the threshold, all calls succeeding. -/
theorem maintenance_rotates (calls : Calls) (l : Logger) (w : World) (size : Int)
    (hfree : l.mu = Mutex.free) (hsize : calls.fileSize = (size, none))
    (hlt : l.maxSizeIndividual < size) (hname : calls.fileName.2 = none)
    (hclose : calls.closeErr = none) (hopen : calls.openFileErr = none) :
    maintenance calls l w =
      ({ l with commitLogger :=
            ⟨commitLogFileName l.rootPath l.id (sprintfD calls.now)⟩ },
        { w with
            closed := w.closed ++ [l.commitLogger]
            fs := osOpenFileCreate w.fs (sprintfD calls.now)
            opened := w.opened
              ++ [commitLogFileName l.rootPath l.id (sprintfD calls.now)] },
        Outcome.returned none) := by
  obtain ⟨mu, ml, rp, id, ms, mc, cl⟩ := l
  simp only at hfree
  subst hfree
  have hnle : ¬ size ≤ ms := not_le.mpr hlt
  rcases hfn : calls.fileName with ⟨fname, ferr⟩
  simp only [hfn] at hname
  subst hname
  simp [maintenance, Mutex.lock, maintenanceBody, hsize, hnle, hfn, hclose, hopen,
    Mutex.unlock]

/-- C6. Rotation happens exactly when the active segment is strictly over the threshold. For a
logger whose writer lock the call obtains and whose `FileSize` succeeds with `size`:
with `size ≤ maxSizeIndividual` (equality included) `maintenance` returns nil and changes
neither the logger (active writer unchanged, lock released) nor the world (nothing closed, no
file opened or created); with `size > maxSizeIndividual` and the other calls succeeding it
returns nil, has closed the old writer, and the active writer is one opened on the file whose
base name is the decimal numeral of the clock's Unix seconds. -/
theorem maintenance_rotates_iff_over_threshold (calls : Calls) (l : Logger) (w : World)
    (size : Int) (hfree : l.mu = Mutex.free) (hsize : calls.fileSize = (size, none)) :
    (size ≤ l.maxSizeIndividual → maintenance calls l w = (l, w, Outcome.returned none))
      ∧ (l.maxSizeIndividual < size → calls.fileName.2 = none → calls.closeErr = none →
          calls.openFileErr = none →
          maintenance calls l w =
            ({ l with commitLogger :=
                  ⟨commitLogFileName l.rootPath l.id (sprintfD calls.now)⟩ },
              { w with
                  closed := w.closed ++ [l.commitLogger]
                  fs := osOpenFileCreate w.fs (sprintfD calls.now)
                  opened := w.opened
                    ++ [commitLogFileName l.rootPath l.id (sprintfD calls.now)] },
              Outcome.returned none)) := by
  exact ⟨maintenance_keeps calls l w size hfree hsize,
    maintenance_rotates calls l w size hfree hsize⟩

/-- Instance of C6 at the boundary: a segment of exactly `maxSizeIndividual` bytes is kept, one
byte more rotates it. -/
theorem maintenance_rotates_iff_over_threshold_witness :
    maintenance
        ⟨(100, none), ("1700000000", none), none, 1700000600, none, fun _ => none, none⟩
        ⟨Mutex.free, Mutex.free, "r", "i", 100, 500, ⟨"r/i.hnsw.commitlog.d/1700000000"⟩⟩
        ⟨⟨["1700000000"], [], none, none⟩, [], [], [], 0⟩
      = (⟨Mutex.free, Mutex.free, "r", "i", 100, 500, ⟨"r/i.hnsw.commitlog.d/1700000000"⟩⟩,
          ⟨⟨["1700000000"], [], none, none⟩, [], [], [], 0⟩, Outcome.returned none)
      ∧ maintenance
        ⟨(101, none), ("1700000000", none), none, 1700000600, none, fun _ => none, none⟩
        ⟨Mutex.free, Mutex.free, "r", "i", 100, 500, ⟨"r/i.hnsw.commitlog.d/1700000000"⟩⟩
        ⟨⟨["1700000000"], [], none, none⟩, [], [], [], 0⟩
      = (⟨Mutex.free, Mutex.free, "r", "i", 100, 500, ⟨"r/i.hnsw.commitlog.d/1700000600"⟩⟩,
          ⟨⟨["1700000000", "1700000600"], [], none, none⟩,
            [⟨"r/i.hnsw.commitlog.d/1700000000"⟩], ["r/i.hnsw.commitlog.d/1700000600"], [], 0⟩,
          Outcome.returned none) :=
  ⟨(maintenance_rotates_iff_over_threshold
      ⟨(100, none), ("1700000000", none), none, 1700000600, none, fun _ => none, none⟩
      ⟨Mutex.free, Mutex.free, "r", "i", 100, 500, ⟨"r/i.hnsw.commitlog.d/1700000000"⟩⟩
      ⟨⟨["1700000000"], [], none, none⟩, [], [], [], 0⟩ 100 rfl rfl).1 (by decide),
   ((maintenance_rotates_iff_over_threshold
      ⟨(101, none), ("1700000000", none), none, 1700000600, none, fun _ => none, none⟩
      ⟨Mutex.free, Mutex.free, "r", "i", 100, 500, ⟨"r/i.hnsw.commitlog.d/1700000000"⟩⟩
      ⟨⟨["1700000000"], [], none, none⟩, [], [], [], 0⟩ 101 rfl rfl).2
        (by decide) rfl rfl rfl).trans (by decide)⟩

/-- Rotation at a later second than the one that names the active segment. For every logger
state and clock value at which `maintenance` rotates successfully, where the active segment
`old` is on disk with time stamp `t` and the clock's Unix second is later than `t`: the call
returns nil, the new active segment's base name is the numeral of the clock value (a signed
64-bit integer) and differs from `old`, its time stamp is the clock value and so strictly
newer, the writer on the old segment has been closed and the new writer is on another file,
and the directory holds both segments, hence at least two entries. Nothing in `maintenance`
makes the clock's second later than `t`. -/
theorem rotation_starts_fresh_segment (calls : Calls) (l : Logger) (w : World)
    (size t : Int) (old : String)
    (hfree : l.mu = Mutex.free) (hsize : calls.fileSize = (size, none))
    (hover : l.maxSizeIndividual < size) (hname : calls.fileName.2 = none)
    (hclose : calls.closeErr = none) (hopen : calls.openFileErr = none)
    (hactive : l.commitLogger.file = commitLogFileName l.rootPath l.id old)
    (hdisk : old ∈ w.fs.entries) (hts : asTimeStamp old = (t, none))
    (hclock : t < calls.now) (hrange : calls.now < (2 : Int) ^ 63) :
    (maintenance calls l w).2.2 = Outcome.returned none
      ∧ (maintenance calls l w).1.commitLogger.file
          = commitLogFileName l.rootPath l.id (sprintfD calls.now)
      ∧ sprintfD calls.now ≠ old
      ∧ asTimeStamp (sprintfD calls.now) = (calls.now, none)
      ∧ (asTimeStamp old).1 < (asTimeStamp (sprintfD calls.now)).1
      ∧ (maintenance calls l w).1.commitLogger.file ≠ l.commitLogger.file
      ∧ l.commitLogger ∈ (maintenance calls l w).2.1.closed
      ∧ old ∈ (maintenance calls l w).2.1.fs.entries
      ∧ sprintfD calls.now ∈ (maintenance calls l w).2.1.fs.entries
      ∧ 2 ≤ (maintenance calls l w).2.1.fs.entries.length := by
  have hmin : -(2 : Int) ^ 63 ≤ t := by
    have := (parseInt_ok_range (trimSuffix old ".condensed")
      (by have := congrArg Prod.snd hts; simpa [asTimeStamp] using this)).1
    have ht : (parseInt (trimSuffix old ".condensed")).1 = t := by
      have := congrArg Prod.fst hts
      simpa [asTimeStamp] using this
    rw [ht] at this
    exact this
  have hrt := asTimeStamp_sprintfD calls.now (by linarith) hrange
  have hne : sprintfD calls.now ≠ old := by
    intro h
    rw [h, hts] at hrt
    have := congrArg Prod.fst hrt
    simp only at this
    omega
  rw [maintenance_rotates calls l w size hfree hsize hover hname hclose hopen]
  have hold : old ∈ (osOpenFileCreate w.fs (sprintfD calls.now)).entries :=
    (mem_osOpenFileCreate _ _ _).mpr (Or.inl hdisk)
  have hnew : sprintfD calls.now ∈ (osOpenFileCreate w.fs (sprintfD calls.now)).entries :=
    (mem_osOpenFileCreate _ _ _).mpr (Or.inr rfl)
  refine ⟨rfl, rfl, hne, hrt, ?_, ?_, ?_, hold, hnew, two_le_length_of_ne hold hnew hne.symm⟩
  · rw [hts, hrt]; exact hclock
  · simp only
    rw [hactive]
    intro h
    exact hne (commitLogFileName_inj _ _ _ _ h)
  · simp

/-- Instance of `rotation_starts_fresh_segment`: the active segment was created at second
1700000000 and is rotated at second 1700000600. -/
theorem rotation_starts_fresh_segment_witness :
    (maintenance
        ⟨(101, none), ("1700000000", none), none, 1700000600, none, fun _ => none, none⟩
        ⟨Mutex.free, Mutex.free, "r", "i", 100, 500, ⟨"r/i.hnsw.commitlog.d/1700000000"⟩⟩
        ⟨⟨["1700000000"], [], none, none⟩, [], [], [], 0⟩).1.commitLogger.file
      = commitLogFileName "r" "i" (sprintfD 1700000600) :=
  (rotation_starts_fresh_segment
    ⟨(101, none), ("1700000000", none), none, 1700000600, none, fun _ => none, none⟩
    ⟨Mutex.free, Mutex.free, "r", "i", 100, 500, ⟨"r/i.hnsw.commitlog.d/1700000000"⟩⟩
    ⟨⟨["1700000000"], [], none, none⟩, [], [], [], 0⟩ 101 1700000000 "1700000000"
    rfl rfl (by decide) rfl rfl rfl (by decide) (by decide) (by decide) (by decide)
    (by decide)).2.1

/-- C7 (failing input). The active segment `1700000000` has grown over the threshold within
the second in which it was created. `maintenance` rotates successfully (returns nil, closes the
old writer, opens a file), but the file it opens, named by `time.Now().Unix()` and opened with
`O_APPEND|O_CREATE`, is the old segment again: the active base name is unchanged, its time
stamp is not newer, appends continue to go to the segment that was to be sealed, and the
directory still holds one segment. The source comments this branch with "this is a new commit
log" and logs "switching to new file"; here the new file is the old one. -/
theorem rotation_within_the_same_second :
    maintenance
        ⟨(101, none), ("1700000000", none), none, 1700000000, none, fun _ => none, none⟩
        ⟨Mutex.free, Mutex.free, "r", "i", 100, 500, ⟨"r/i.hnsw.commitlog.d/1700000000"⟩⟩
        ⟨⟨["1700000000"], [], none, none⟩, [], [], [], 0⟩
      = (⟨Mutex.free, Mutex.free, "r", "i", 100, 500, ⟨"r/i.hnsw.commitlog.d/1700000000"⟩⟩,
          ⟨⟨["1700000000"], [], none, none⟩,
            [⟨"r/i.hnsw.commitlog.d/1700000000"⟩], ["r/i.hnsw.commitlog.d/1700000000"], [], 0⟩,
          Outcome.returned none)
      ∧ (maintenance
          ⟨(101, none), ("1700000000", none), none, 1700000000, none, fun _ => none, none⟩
          ⟨Mutex.free, Mutex.free, "r", "i", 100, 500, ⟨"r/i.hnsw.commitlog.d/1700000000"⟩⟩
          ⟨⟨["1700000000"], [], none, none⟩, [], [], [], 0⟩).1.commitLogger.file
        = commitLogFileName "r" "i" "1700000000"
      ∧ (maintenance
          ⟨(101, none), ("1700000000", none), none, 1700000000, none, fun _ => none, none⟩
          ⟨Mutex.free, Mutex.free, "r", "i", 100, 500, ⟨"r/i.hnsw.commitlog.d/1700000000"⟩⟩
          ⟨⟨["1700000000"], [], none, none⟩, [], [], [], 0⟩).2.1.fs.entries.length = 1 := by
  refine ⟨by decide, by decide, by decide⟩

/-! ## Condensing, combining and the maintenance lock -/

/-- With the maintenance lock free at the start, `condenseOldLogs` takes it, runs its body, and
then waits in the deferred `Lock` on the mutex it holds itself. -/
theorem condenseOldLogs_eq (calls : Calls) (l : Logger) (w : World)
    (hfree : l.maintenanceLock = Mutex.free) :
    condenseOldLogs calls l w =
      ({ l with maintenanceLock := Mutex.held },
        (condenseOldLogsBody calls { l with maintenanceLock := Mutex.held } w).1,
        Outcome.blocked
          (some (condenseOldLogsBody calls { l with maintenanceLock := Mutex.held } w).2)) := by
  simp [condenseOldLogs, hfree, Mutex.lock]

theorem combineLogs_eq (calls : Calls) (l : Logger) (w : World)
    (hfree : l.maintenanceLock = Mutex.free) :
    combineLogs calls l w =
      ({ l with maintenanceLock := Mutex.held },
        { w with combinerRuns := w.combinerRuns + 1 },
        Outcome.blocked (some calls.combinerDo)) := by
  simp [combineLogs, hfree, Mutex.lock]

theorem condenseFirst_all_condensed (calls : Calls) (w : World) (cands : List String)
    (h : ∀ c ∈ cands, hasSuffix c ".condensed" = true) :
    condenseFirst calls w cands = (w, none) := by
  induction cands with
  | nil => rfl
  | cons c cs ih =>
    simp only [condenseFirst, h c (List.mem_cons_self _ _), if_true]
    exact ih (fun d hd => h d (List.mem_cons_of_mem _ hd))

theorem condenseFirst_first (calls : Calls) (w : World) (pre post : List String) (c : String)
    (hpre : ∀ p ∈ pre, hasSuffix p ".condensed" = true)
    (hc : hasSuffix c ".condensed" = false) :
    condenseFirst calls w (pre ++ c :: post)
      = ({ w with condensed := w.condensed ++ [c] }, calls.condensorDo c) := by
  induction pre with
  | nil => simp [condenseFirst, hc]
  | cons p ps ih =>
    simp only [List.cons_append, condenseFirst, hpre p (List.mem_cons_self _ _), if_true]
    exact ih (fun d hd => hpre d (List.mem_cons_of_mem _ hd))

/-- C8 (the code at every input). Let `files` be the oldest-first list that
`getCommitFileNames` returns to `condenseOldLogs`, called with the maintenance lock free.
If `files` has at most one element, or every element but the last ends in `.condensed`, the
condensor is not invoked and the value handed to `return` is nil. Otherwise the condensor is
invoked exactly once, on the first element among all but the last that does not end in
`.condensed` (an element at an index below `len(files) - 1`), and its result is the value
handed to `return`. In every case the call then waits for ever in the deferred
`l.maintenanceLock.Lock()`: it does not return to its caller. -/
theorem condenseOldLogs_selects_then_blocks (calls : Calls) (l : Logger) (w : World)
    (fs1 : FileSystem) (files : List String)
    (hfree : l.maintenanceLock = Mutex.free)
    (hfiles : getCommitFileNames w.fs l.rootPath l.id = (fs1, files, none)) :
    ((files.length ≤ 1
          ∨ ∀ c ∈ files.take (files.length - 1), hasSuffix c ".condensed" = true) →
        condenseOldLogs calls l w =
          ({ l with maintenanceLock := Mutex.held }, { w with fs := fs1 },
            Outcome.blocked (some none)))
      ∧ (∀ (pre post : List String) (c : String),
          files.take (files.length - 1) = pre ++ c :: post →
          (∀ p ∈ pre, hasSuffix p ".condensed" = true) →
          hasSuffix c ".condensed" = false →
          pre.length < files.length - 1
            ∧ files.get? pre.length = some c
            ∧ condenseOldLogs calls l w =
              ({ l with maintenanceLock := Mutex.held },
                { w with fs := fs1, condensed := w.condensed ++ [c] },
                Outcome.blocked (some (calls.condensorDo c)))) := by
  rw [condenseOldLogs_eq calls l w hfree]
  have hbody : condenseOldLogsBody calls { l with maintenanceLock := Mutex.held } w
      = if files.length ≤ 1 then ({ w with fs := fs1 }, none)
        else condenseFirst calls { w with fs := fs1 } (files.take (files.length - 1)) := by
    simp only [condenseOldLogsBody, hfiles]
  rw [hbody]
  constructor
  · rintro (hshort | hall)
    · simp [hshort]
    · by_cases hshort : files.length ≤ 1
      · simp [hshort]
      · simp only [hshort, if_false]
        rw [condenseFirst_all_condensed _ _ _ hall]
  · intro pre post c hsplit hpre hc
    have hlen : pre.length < files.length - 1 := by
      have := congrArg List.length hsplit
      simp only [List.length_take, List.length_append, List.length_cons] at this
      omega
    have hshort : ¬ files.length ≤ 1 := by omega
    refine ⟨hlen, ?_, ?_⟩
    · have h1 : (files.take (files.length - 1)).get? pre.length = some c := by
        rw [hsplit, List.get?_eq_getElem?, List.getElem?_append_right (le_refl _)]
        simp
      rw [List.get?_eq_getElem?] at h1 ⊢
      rw [List.getElem?_take] at h1
      simpa [hlen] using h1
    · simp only [hshort, if_false]
      rw [hsplit, condenseFirst_first _ _ _ _ _ hpre hc]

/-- Instance of C8: three segments, the oldest already condensed. The condensor is invoked on
the second one and the call waits in the deferred `Lock`. -/
theorem condenseOldLogs_selects_then_blocks_witness :
    condenseOldLogs
        ⟨(0, none), ("", none), none, 0, none, fun _ => none, none⟩
        ⟨Mutex.free, Mutex.free, "r", "i", 100, 500, ⟨"r/i.hnsw.commitlog.d/30"⟩⟩
        ⟨⟨["10.condensed", "20", "30"], [], none, none⟩, [], [], [], 0⟩
      = (⟨Mutex.free, Mutex.held, "r", "i", 100, 500, ⟨"r/i.hnsw.commitlog.d/30"⟩⟩,
          ⟨⟨["10.condensed", "20", "30"], [], none, none⟩, [], [],
            ["r/i.hnsw.commitlog.d/20"], 0⟩,
          Outcome.blocked (some none)) :=
  ((condenseOldLogs_selects_then_blocks
      ⟨(0, none), ("", none), none, 0, none, fun _ => none, none⟩
      ⟨Mutex.free, Mutex.free, "r", "i", 100, 500, ⟨"r/i.hnsw.commitlog.d/30"⟩⟩
      ⟨⟨["10.condensed", "20", "30"], [], none, none⟩, [], [], [], 0⟩
      ⟨["10.condensed", "20", "30"], [], none, none⟩
      ["r/i.hnsw.commitlog.d/10.condensed", "r/i.hnsw.commitlog.d/20",
        "r/i.hnsw.commitlog.d/30"]
      rfl (by decide)).2
    ["r/i.hnsw.commitlog.d/10.condensed"] [] "r/i.hnsw.commitlog.d/20"
    (by decide) (by decide) (by decide)).2.2

/-- C10 (the code at every input). A call of `condenseOldLogs` or of `combineLogs` that starts
with the maintenance lock free does not return: after its body it waits in the deferred
`l.maintenanceLock.Lock()` on the mutex it locked at its entry, and the lock stays held. A
later call of either method, which finds the lock held, waits at its entry. -/
theorem maintenanceLock_never_released (calls : Calls) (l : Logger) (w : World)
    (hfree : l.maintenanceLock = Mutex.free) :
    (∃ pending, (condenseOldLogs calls l w).2.2 = Outcome.blocked (some pending))
      ∧ (condenseOldLogs calls l w).1.maintenanceLock = Mutex.held
      ∧ (∃ pending, (combineLogs calls l w).2.2 = Outcome.blocked (some pending))
      ∧ (combineLogs calls l w).1.maintenanceLock = Mutex.held
      ∧ (∀ calls2 w2,
          (condenseOldLogs calls2 (combineLogs calls l w).1 w2).2.2 = Outcome.blocked none)
      ∧ (∀ calls2 w2,
          (combineLogs calls2 (condenseOldLogs calls l w).1 w2).2.2 = Outcome.blocked none) := by
  rw [condenseOldLogs_eq calls l w hfree, combineLogs_eq calls l w hfree]
  refine ⟨⟨_, rfl⟩, rfl, ⟨_, rfl⟩, rfl, ?_, ?_⟩
  · intro calls2 w2
    simp [condenseOldLogs, Mutex.lock]
  · intro calls2 w2
    simp [combineLogs, Mutex.lock]

/-- Instance of C10: one tick of the combine-and-condense task on a directory with a single
segment, the nothing-to-do path. `combineLogs` leaves the lock held and does not return. -/
theorem maintenanceLock_never_released_witness :
    combineLogs
        ⟨(0, none), ("", none), none, 0, none, fun _ => none, none⟩
        ⟨Mutex.free, Mutex.free, "r", "i", 100, 500, ⟨"r/i.hnsw.commitlog.d/30"⟩⟩
        ⟨⟨["30"], [], none, none⟩, [], [], [], 0⟩
      = (⟨Mutex.free, Mutex.held, "r", "i", 100, 500, ⟨"r/i.hnsw.commitlog.d/30"⟩⟩,
          ⟨⟨["30"], [], none, none⟩, [], [], [], 1⟩, Outcome.blocked (some none))
      ∧ (condenseOldLogs
          ⟨(0, none), ("", none), none, 0, none, fun _ => none, none⟩
          ⟨Mutex.free, Mutex.free, "r", "i", 100, 500, ⟨"r/i.hnsw.commitlog.d/30"⟩⟩
          ⟨⟨["30"], [], none, none⟩, [], [], [], 0⟩).1.maintenanceLock = Mutex.held :=
  ⟨by decide,
   (maintenanceLock_never_released
      ⟨(0, none), ("", none), none, 0, none, fun _ => none, none⟩
      ⟨Mutex.free, Mutex.free, "r", "i", 100, 500, ⟨"r/i.hnsw.commitlog.d/30"⟩⟩
      ⟨⟨["30"], [], none, none⟩, [], [], [], 0⟩ rfl).2.1⟩

/-! ## Shutdown -/

theorem routineInv_started (mb wb : Bool) : RoutineInv (started mb wb) := by
  cases mb <;> cases wb <;> simp [RoutineInv, started]

theorem routineInv_step (a : Action) (s s1 : Sys) (hinv : RoutineInv s)
    (hstep : step a s = some s1) : RoutineInv s1 := by
  obtain ⟨pc, sr, ml, wl, sg⟩ := s
  cases a with
  | shutdown =>
    simp only [step] at hstep
    split at hstep
    · rename_i h
      simp only [Option.some.injEq] at hstep
      subst hstep
      obtain ⟨hpc, _⟩ := h
      subst hpc
      simp only [RoutineInv] at hinv ⊢
      exact ⟨hinv.1, hinv.2.1, hinv.2.2.1⟩
    · simp at hstep
  | routine =>
    cases pc with
    | awaitCancel => simp [step] at hstep
    | lockMaintenance =>
      cases ml with
      | none =>
        simp only [step, Option.some.injEq] at hstep
        subst hstep
        simp only [RoutineInv] at hinv ⊢
        exact ⟨hinv.1, trivial, hinv.2.2⟩
      | some h => simp [step] at hstep
    | lockWriter =>
      cases wl with
      | none =>
        simp only [step, Option.some.injEq] at hstep
        subst hstep
        simp only [RoutineInv] at hinv ⊢
        exact ⟨by simp [hinv.1], hinv.2.1, trivial⟩
      | some h => simp [step] at hstep
    | signal pending =>
      cases pending with
      | nil =>
        simp only [step, Option.some.injEq] at hstep
        subst hstep
        simp only [RoutineInv] at hinv ⊢
        exact ⟨by simpa using hinv.1, hinv.2.1, hinv.2.2⟩
      | cons c rest =>
        simp only [step, Option.some.injEq] at hstep
        subst hstep
        simp only [RoutineInv] at hinv ⊢
        exact ⟨by simpa using hinv.1, hinv.2.1, hinv.2.2⟩
    | unlockWriter =>
      simp only [step, Option.some.injEq] at hstep
      subst hstep
      simp only [RoutineInv] at hinv ⊢
      exact ⟨hinv.1, hinv.2.1, by simp⟩
    | unlockMaintenance =>
      simp only [step, Option.some.injEq] at hstep
      subst hstep
      simp only [RoutineInv] at hinv ⊢
      exact ⟨hinv.1, by simp, hinv.2.2⟩
    | done => simp [step] at hstep
  | acquireMaintenance =>
    cases ml with
    | none =>
      simp only [step, Option.some.injEq] at hstep
      subst hstep
      cases pc <;> simp_all [RoutineInv]
    | some h => simp [step] at hstep
  | releaseMaintenance =>
    simp only [step] at hstep
    split at hstep
    · rename_i h
      simp only [Option.some.injEq] at hstep
      subst hstep
      subst h
      cases pc <;> simp_all [RoutineInv]
    · simp at hstep
  | acquireWriter =>
    cases wl with
    | none =>
      simp only [step, Option.some.injEq] at hstep
      subst hstep
      cases pc <;> simp_all [RoutineInv]
    | some h => simp [step] at hstep
  | releaseWriter =>
    simp only [step] at hstep
    split at hstep
    · rename_i h
      simp only [Option.some.injEq] at hstep
      subst hstep
      subst h
      cases pc <;> simp_all [RoutineInv]
    · simp at hstep

theorem routineInv_run (acts : List Action) (s s1 : Sys) (hinv : RoutineInv s)
    (hrun : run acts s = some s1) : RoutineInv s1 := by
  induction acts generalizing s with
  | nil =>
    simp only [run, Option.some.injEq] at hrun
    exact hrun ▸ hinv
  | cons a rest ih =>
    simp only [run] at hrun
    split at hrun
    · simp at hrun
    · rename_i s2 h2
      exact ih s2 (routineInv_step a s s2 hinv h2) hrun

/-- The part of C9 that the routine does guarantee. In every schedule from the state that
`StartLogging` leaves, a step that signals a timer task is a step of the routine taken while
the routine holds both the maintenance lock and the writer lock; no task is signalled before
the routine has both locks, and once the routine is done both tasks have been signalled, in
the order of the source, and the routine holds neither lock. -/
theorem cancel_signals_under_both_locks (mb wb : Bool) (acts : List Action) (s : Sys)
    (hrun : run acts (started mb wb) = some s) :
    (∀ a s1, step a s = some s1 → s1.signalled ≠ s.signalled →
        a = Action.routine ∧ s.maintenanceLock = some Holder.routine
          ∧ s.writerLock = some Holder.routine)
      ∧ ((s.maintenanceLock ≠ some Holder.routine ∨ s.writerLock ≠ some Holder.routine) →
          s.signalled = [] ∨ s.routine = RoutinePc.unlockMaintenance
            ∨ s.routine = RoutinePc.done)
      ∧ (s.routine = RoutinePc.done →
          s.signalled = [TimerTask.combineAndCondense, TimerTask.switchLogs]
            ∧ s.maintenanceLock ≠ some Holder.routine
            ∧ s.writerLock ≠ some Holder.routine) := by
  have hinv := routineInv_run acts _ s (routineInv_started mb wb) hrun
  obtain ⟨pc, sr, ml, wl, sg⟩ := s
  refine ⟨?_, ?_, ?_⟩
  · intro a s1 hstep hne
    cases a with
    | routine =>
      cases pc with
      | signal pending =>
        simp only [RoutineInv] at hinv
        exact ⟨rfl, hinv.2.1, hinv.2.2⟩
      | awaitCancel => simp [step] at hstep
      | lockMaintenance =>
        cases ml <;> simp [step] at hstep
        subst hstep
        exact absurd rfl hne
      | lockWriter =>
        cases wl <;> simp [step] at hstep
        subst hstep
        exact absurd rfl hne
      | unlockWriter =>
        simp [step] at hstep
        subst hstep
        exact absurd rfl hne
      | unlockMaintenance =>
        simp [step] at hstep
        subst hstep
        exact absurd rfl hne
      | done => simp [step] at hstep
    | shutdown =>
      simp only [step] at hstep
      split at hstep
      · simp only [Option.some.injEq] at hstep
        subst hstep
        exact absurd rfl hne
      · simp at hstep
    | acquireMaintenance =>
      cases ml <;> simp [step] at hstep
      subst hstep
      exact absurd rfl hne
    | releaseMaintenance =>
      simp only [step] at hstep
      split at hstep
      · simp only [Option.some.injEq] at hstep
        subst hstep
        exact absurd rfl hne
      · simp at hstep
    | acquireWriter =>
      cases wl <;> simp [step] at hstep
      subst hstep
      exact absurd rfl hne
    | releaseWriter =>
      simp only [step] at hstep
      split at hstep
      · simp only [Option.some.injEq] at hstep
        subst hstep
        exact absurd rfl hne
      · simp at hstep
  · intro hnot
    cases pc <;> simp_all [RoutineInv]
  · intro hdone
    simp only at hdone
    subst hdone
    simpa [RoutineInv] using hinv

/-- The routine alone, after a `Shutdown()`: maintenance lock, writer lock, both signals,
writer lock released, maintenance lock released, in this order. -/
theorem cancel_routine_order :
    run [Action.shutdown, Action.routine, Action.routine] (started false false)
        = some ⟨RoutinePc.signal [TimerTask.combineAndCondense, TimerTask.switchLogs], true,
            some Holder.routine, some Holder.routine, []⟩
      ∧ run [Action.shutdown, Action.routine, Action.routine, Action.routine, Action.routine,
            Action.routine] (started false false)
        = some ⟨RoutinePc.unlockWriter, true, some Holder.routine, some Holder.routine,
            [TimerTask.combineAndCondense, TimerTask.switchLogs]⟩
      ∧ run [Action.shutdown, Action.routine, Action.routine, Action.routine, Action.routine,
            Action.routine, Action.routine, Action.routine] (started false false)
        = some ⟨RoutinePc.done, true, none, none,
            [TimerTask.combineAndCondense, TimerTask.switchLogs]⟩ := by
  decide

/-- C9 (failing schedule). A maintenance step is running (it holds the maintenance lock) when
`Shutdown()` is called. The send on `l.cancel` meets the routine's receive and `Shutdown()`
returns to its caller at once: at that point the maintenance step is still running, the
routine holds neither lock, cannot take the maintenance lock, and no task has been told to
exit. The same holds when no maintenance step is running: `Shutdown()` has returned before the
routine has taken a lock or signalled a task. -/
theorem shutdown_returns_before_quiescence :
    run [Action.acquireMaintenance, Action.shutdown] (started false false)
        = some ⟨RoutinePc.lockMaintenance, true, some Holder.background, none, []⟩
      ∧ step Action.routine
          ⟨RoutinePc.lockMaintenance, true, some Holder.background, none, []⟩ = none
      ∧ run [Action.shutdown] (started false false)
        = some ⟨RoutinePc.lockMaintenance, true, none, none, []⟩ := by
  decide

/-- In every schedule, at the moment `Shutdown()` returns no task has been signalled and the
routine holds no lock. -/
theorem shutdown_returns_first (mb wb : Bool) (acts : List Action) (s s1 : Sys)
    (hrun : run acts (started mb wb) = some s) (hstep : step Action.shutdown s = some s1) :
    s1.shutdownReturned = true ∧ s1.signalled = []
      ∧ s1.maintenanceLock ≠ some Holder.routine ∧ s1.writerLock ≠ some Holder.routine := by
  have hinv := routineInv_run acts _ s (routineInv_started mb wb) hrun
  obtain ⟨pc, sr, ml, wl, sg⟩ := s
  simp only [step] at hstep
  split at hstep
  · rename_i h
    simp only [Option.some.injEq] at hstep
    subst hstep
    obtain ⟨hpc, _⟩ := h
    subst hpc
    simp only [RoutineInv] at hinv
    exact ⟨rfl, hinv.1, hinv.2.1, hinv.2.2.1⟩
  · simp at hstep

/-! ## Indexing the filtered listing -/

/-- C11 (the code at every input). With a listing at hand and no failing unlink,
`getCurrentCommitLogFileName` faults on `files[0]` exactly when the listing is not empty and
none of its entries is retained, that is, when every entry ends in `.scratch.tmp` or
`.combined.tmp`: the emptiness test `len(files) == 0` is made before the temporary files are
filtered out and not again afterwards. On such a listing no `(name, present, error)` result is
returned; the combiner temp files have been unlinked by then. -/
theorem getCurrentCommitLogFileName_fault_iff (fs : FileSystem)
    (hrd : fs.readDirErr = none) (hok : unlinksSucceed fs fs.entries) :
    ((getCurrentCommitLogFileName fs).2 = Run.fault
        ↔ fs.entries ≠ [] ∧ fs.entries.filter retained = [])
      ∧ (fs.entries ≠ [] → fs.entries.filter retained = [] →
          getCurrentCommitLogFileName fs = (afterCleanup fs, Run.fault)) := by
  rw [getCurrentCommitLogFileName_listing fs hrd hok]
  have hperm := sortSlice_perm lessNewestFirst (fs.entries.filter retained)
  have hfault : fs.entries ≠ [] → fs.entries.filter retained = [] →
      (if fs.entries.length = 0 then (fs, Run.value ("", false, none))
        else
          match (compareErrors
            (sortSlice lessNewestFirst (fs.entries.filter retained)).2).toError with
          | some err => (afterCleanup fs, Run.value ("", false, some err))
          | none =>
            match (sortSlice lessNewestFirst (fs.entries.filter retained)).1 with
            | [] => (afterCleanup fs, Run.fault)
            | newest :: _ => (afterCleanup fs, Run.value (newest, true, none)))
        = (afterCleanup fs, (Run.fault : Run (String × Bool × Option Error))) := by
    intro hne hnone
    have hlen : ¬ fs.entries.length = 0 := fun h => hne (List.length_eq_zero.mp h)
    rw [hnone]
    simp [hlen, sortSlice_short lessNewestFirst [] (by simp), compareErrors,
      ErrorCompounder.toError]
  refine ⟨⟨?_, fun h => by rw [hfault h.1 h.2]⟩, hfault⟩
  intro h
  by_cases hlen : fs.entries.length = 0
  · simp [hlen] at h
  · refine ⟨fun h0 => hlen (by simp [h0]), ?_⟩
    simp only [hlen, if_false] at h
    split at h
    · simp at h
    · split at h
      · rename_i hs
        rw [hs] at hperm
        exact List.Perm.eq_nil hperm.symm
      · simp at h

/-- Instance of C11: what an interrupted maintenance run can leave behind, a scratch file and
a combiner temp file and no segment. `getCurrentCommitLogFileName` faults, where the sibling
`getCommitFileNames`, which tests the length after filtering, returns an empty list and no
error. -/
theorem getCurrentCommitLogFileName_fault_iff_witness :
    getCurrentCommitLogFileName ⟨["1.scratch.tmp", "1.combined.tmp"], [], none, none⟩
        = (⟨["1.scratch.tmp"], [], none, none⟩, Run.fault)
      ∧ getCurrentCommitLogFileName ⟨["1.scratch.tmp"], [], none, none⟩
        = (⟨["1.scratch.tmp"], [], none, none⟩, Run.fault)
      ∧ (getCommitFileNames ⟨["1.scratch.tmp", "1.combined.tmp"], [], none, none⟩ "r" "i").2
        = ([], none) :=
  ⟨((getCurrentCommitLogFileName_fault_iff
      ⟨["1.scratch.tmp", "1.combined.tmp"], [], none, none⟩ rfl (by decide)).2
        (by decide) (by decide)).trans (by decide),
   by decide, by decide⟩

end CommitLogger
